import Mathlib

/-!
Verification of the multi-function network evaluation engine
(`source/blender/functions/intern/multi_functions/network.cc`).

The engine is embedded shallowly:
* buffers live in an explicit heap keyed by natural-number identities, so
  aliasing and ownership claims are statements about buffer ids;
* the per-call `Storage`, the mask, the socket graph and the caller
  parameter list are plain data structures;
* the explicit-stack scheduler is a fuel-indexed interpreter returning
  `Except Fault`, where `Fault.assert` models a `BLI_assert(false)`
  style unconditional fault.

The classes that `network.cc` uses but whose implementation lives in
headers outside the excerpt (`Storage`, `MFMask`, parameter accessors)
are modelled from the spec, as documented on each definition.
-/

namespace FN

/-- Element values carried per batch index (`Single` data). -/
abbrev Val := Int

/-- `MFDataType::Category` from the source: the two data categories. -/
inductive MFDataCategory
  | Single
  | Vector
deriving DecidableEq, Repr

/-- `MFParamType::Category` from the source: the five parameter categories. -/
inductive MFParamCategory
  | ReadonlySingleInput
  | ReadonlyVectorInput
  | SingleOutput
  | VectorOutput
  | MutableVector
deriving DecidableEq, Repr

/-- `MFParamType::is_readonly_vector_input` from the source. -/
def MFParamCategory.is_readonly_vector_input : MFParamCategory → Bool
  | .ReadonlyVectorInput => true
  | _ => false

/-- `MFParamType::is_mutable_vector` from the source. -/
def MFParamCategory.is_mutable_vector : MFParamCategory → Bool
  | .MutableVector => true
  | _ => false

/-- Whether the parameter category is written by the function
(single output, vector output or mutable vector). -/
def MFParamCategory.isWritten : MFParamCategory → Bool
  | .SingleOutput => true
  | .VectorOutput => true
  | .MutableVector => true
  | _ => false

/-- Contents of one heap buffer: either a single-value array
(`GenericArrayRef`, one optional scalar per index, `none` meaning
uninitialized) or a vector array (`GenericVectorArray`, one list per
index). -/
inductive BufContent
  | single (cells : List (Option Val))
  | vector (cells : List (List Val))
deriving DecidableEq, Repr

/-- Association-list lookup keyed by buffer / socket identity. -/
def lookupA {α : Type} : List (Nat × α) → Nat → Option α
  | [], _ => none
  | (k, v) :: t, b => if k = b then some v else lookupA t b

/-- Association-list in-place update; a missing key is left unwritten. -/
def writeA {α : Type} : List (Nat × α) → Nat → α → List (Nat × α)
  | [], _, _ => []
  | (k, v) :: t, b, c => if k = b then (k, c) :: t else (k, v) :: writeA t b c

/-- The heap of typed buffers.  `next` is the next fresh buffer identity;
allocation returns `next` and bumps it, which keeps identities unique. -/
structure Heap where
  next : Nat
  mem : List (Nat × BufContent)
deriving DecidableEq, Repr

def Heap.read (h : Heap) (b : Nat) : Option BufContent :=
  lookupA h.mem b

def Heap.write (h : Heap) (b : Nat) (c : BufContent) : Heap :=
  ⟨h.next, writeA h.mem b c⟩

def Heap.alloc (h : Heap) (c : BufContent) : Nat × Heap :=
  (h.next, ⟨h.next + 1, (h.next, c) :: h.mem⟩)

/-- `MFMask`: the ordered set of active batch indices.
Modelled from the spec: the mask class itself is outside the excerpt;
it exposes the active index list, their count and `min_array_size`. -/
structure MFMask where
  indices : List Nat
deriving DecidableEq, Repr

/-- `MFMask::indices_amount` — the number of active indices. -/
def MFMask.indices_amount (m : MFMask) : Nat := m.indices.length

/-- `MFMask::min_array_size` — `max index + 1`, the least buffer length
covering every active index. -/
def MFMask.min_array_size (m : MFMask) : Nat :=
  m.indices.foldr (fun i acc => max (i + 1) acc) 0

/-- A fault: `assert` models `BLI_assert(false)` and the other
programmer-error aborts of the engine; `outOfFuel` only signals that the
fuel-indexed interpreter was run with too little fuel (the concrete loop
has no such case). -/
inductive Fault
  | assert
  | outOfFuel
deriving DecidableEq, Repr

/-- `MultiFunction`: an opaque vectorized leaf computation.  Its `impl`
receives the mask's active indices and the current contents of each
parameter's buffer (in parameter order) and yields new contents for each
parameter; the engine writes back only the written (output / mutable)
parameters. -/
structure MultiFunction where
  paramTypes : List MFParamCategory
  impl : List Nat → List BufContent → List BufContent

/-- `MFInputSocket` data: owning node (function or dummy), position among
that node's inputs, the unique origin output socket and the data
category. -/
structure MFInputSocketData where
  nodeIsFunction : Bool
  node : Nat
  index : Nat
  origin : Nat
  category : MFDataCategory
deriving DecidableEq, Repr

/-- `MFOutputSocket` data: owning node, position among that node's
outputs, the fan-out target input sockets and the data category. -/
structure MFOutputSocketData where
  nodeIsFunction : Bool
  node : Nat
  index : Nat
  targets : List Nat
  category : MFDataCategory
deriving DecidableEq, Repr

/-- `MFFunctionNode` data: the wrapped multi-function, its input/output
socket ids and the socket-position ↔ parameter-index maps. -/
structure MFFunctionNodeData where
  function : MultiFunction
  inputs : List Nat
  outputs : List Nat
  input_param_indices : List Nat
  output_param_indices : List Nat

/-- The socket graph: arenas of input sockets, output sockets and
function nodes, referenced by integer ids. -/
structure MFNetworkGraph where
  inputSockets : List MFInputSocketData
  outputSockets : List MFOutputSocketData
  functionNodes : List MFFunctionNodeData

/-- `MF_EvaluateNetwork`: the evaluator, with the declared network
input sockets (`m_inputs`, dummy-node output sockets) and the declared
network output sockets (`m_outputs`, dummy-node input sockets). -/
structure MF_EvaluateNetwork where
  graph : MFNetworkGraph
  m_inputs : List Nat
  m_outputs : List Nat

/-- A value associated with an input socket in storage: a read-only
single list view, a read-only vector list view, or a mutable vector
array, each naming the underlying buffer identity. -/
inductive StoredVal
  | singleRef (buf : Nat)
  | vectorRef (buf : Nat)
  | vectorArray (buf : Nat)
deriving DecidableEq, Repr

/-- The buffer identity a stored value refers to. -/
def StoredVal.buf : StoredVal → Nat
  | .singleRef b => b
  | .vectorRef b => b
  | .vectorArray b => b

/-- `MF_EvaluateNetwork::Storage`.
Modelled from the spec: the Storage class lives in the header outside
the excerpt.  It maps input sockets to values, asserts on a double
write, and keeps the registries of buffers it must release at call
end. -/
structure Storage where
  values : List (Nat × StoredVal)
  ownedArrays : List Nat
  ownedVectorArrays : List Nat
deriving DecidableEq, Repr

def Storage.empty : Storage := ⟨[], [], []⟩

/-- `Storage::input_is_computed`. -/
def Storage.input_is_computed (σ : Storage) (s : Nat) : Bool :=
  (lookupA σ.values s).isSome

/-- Associate a value with an input socket.
Modelled from the spec: a second write to the same socket is a
programmer error and asserts. -/
def Storage.setVal (σ : Storage) (s : Nat) (v : StoredVal) : Except Fault Storage :=
  if (lookupA σ.values s).isSome then .error .assert
  else .ok { σ with values := (s, v) :: σ.values }

/-- `Storage::set_virtual_list_for_input__non_owning`. -/
def Storage.set_virtual_list_for_input__non_owning (σ : Storage) (s b : Nat) :
    Except Fault Storage :=
  σ.setVal s (.singleRef b)

/-- `Storage::set_virtual_list_list_for_input__non_owning`. -/
def Storage.set_virtual_list_list_for_input__non_owning (σ : Storage) (s b : Nat) :
    Except Fault Storage :=
  σ.setVal s (.vectorRef b)

/-- `Storage::set_vector_array_for_input__non_owning`. -/
def Storage.set_vector_array_for_input__non_owning (σ : Storage) (s b : Nat) :
    Except Fault Storage :=
  σ.setVal s (.vectorArray b)

/-- `Storage::get_virtual_list_for_input`; asserts when the socket has no
single-list value. -/
def Storage.get_virtual_list_for_input (σ : Storage) (s : Nat) : Except Fault Nat :=
  match lookupA σ.values s with
  | some (.singleRef b) => .ok b
  | _ => .error .assert

/-- `Storage::get_virtual_list_list_for_input`; a vector array is also
viewable as a virtual list list. -/
def Storage.get_virtual_list_list_for_input (σ : Storage) (s : Nat) : Except Fault Nat :=
  match lookupA σ.values s with
  | some (.vectorRef b) => .ok b
  | some (.vectorArray b) => .ok b
  | _ => .error .assert

/-- `Storage::get_vector_array_for_input`; asserts unless the socket
holds a mutable vector array. -/
def Storage.get_vector_array_for_input (σ : Storage) (s : Nat) : Except Fault Nat :=
  match lookupA σ.values s with
  | some (.vectorArray b) => .ok b
  | _ => .error .assert

/-- `Storage::take_array_ref_ownership`. -/
def Storage.take_array_ref_ownership (σ : Storage) (b : Nat) : Storage :=
  { σ with ownedArrays := b :: σ.ownedArrays }

/-- `Storage::take_vector_array_ownership`. -/
def Storage.take_vector_array_ownership (σ : Storage) (b : Nat) : Storage :=
  { σ with ownedVectorArrays := b :: σ.ownedVectorArrays }

/-- `Storage::take_vector_array_ownership__not_twice` — idempotent
registration. -/
def Storage.take_vector_array_ownership__not_twice (σ : Storage) (b : Nat) : Storage :=
  if b ∈ σ.ownedVectorArrays then σ
  else { σ with ownedVectorArrays := b :: σ.ownedVectorArrays }

/-- All buffers registered for release at call end. -/
def Storage.registered (σ : Storage) : List Nat :=
  σ.ownedArrays ++ σ.ownedVectorArrays

/-- The evaluation state of one call: the heap, the per-call storage and
the log of function-node invocations in order. -/
structure EvalState where
  heap : Heap
  storage : Storage
  invoked : List Nat
deriving DecidableEq, Repr

/-- A caller-supplied parameter: read-only views for the declared
network inputs, writable destinations for the declared outputs. -/
inductive MFParamValue
  | singleIn (buf : Nat)
  | vectorIn (buf : Nat)
  | singleOut (buf : Nat)
  | vectorOut (buf : Nat)
deriving DecidableEq, Repr

/-- The buffer named by a caller parameter. -/
def MFParamValue.buf : MFParamValue → Nat
  | .singleIn b => b
  | .vectorIn b => b
  | .singleOut b => b
  | .vectorOut b => b

/-- The caller parameter list of one call. -/
abbrev MFParams := List MFParamValue

/-- `MFParams::readonly_single_input`.
Modelled from the spec: asserts unless parameter `i` is a read-only
single input. -/
def readonly_single_input (ps : MFParams) (i : Nat) : Except Fault Nat :=
  match ps.get? i with
  | some (.singleIn b) => .ok b
  | _ => .error .assert

/-- `MFParams::readonly_vector_input`. -/
def readonly_vector_input (ps : MFParams) (i : Nat) : Except Fault Nat :=
  match ps.get? i with
  | some (.vectorIn b) => .ok b
  | _ => .error .assert

/-- `MFParams::single_output`. -/
def single_output (ps : MFParams) (i : Nat) : Except Fault Nat :=
  match ps.get? i with
  | some (.singleOut b) => .ok b
  | _ => .error .assert

/-- `MFParams::vector_output`. -/
def vector_output (ps : MFParams) (i : Nat) : Except Fault Nat :=
  match ps.get? i with
  | some (.vectorOut b) => .ok b
  | _ => .error .assert

/-- The `for (uint i = 0; i < src.size(); i++) dst->extend_single__copy(i, src[i])`
loop: starting at index `i` with `k` indices to go, append `src[j]` to
`dst[j]` for each visited index `j`. -/
def extendLoop (src : List (List Val)) : List (List Val) → Nat → Nat → List (List Val)
  | dst, _, 0 => dst
  | dst, i, k + 1 => extendLoop src (dst.set i (dst.getD i [] ++ src.getD i [])) (i + 1) k

/-- Deep copy of a vector array: a fresh empty array of the same outer
size, then `extend_single__copy` of every index `0 .. size-1`
(note: every index, not only mask indices). -/
def vecDeepCopy (src : List (List Val)) : List (List Val) :=
  extendLoop src (List.replicate src.length []) 0 src.length

/-- `network.cc` lines 32–57: bind one fan-out target of a vector-typed
network input.  A read-only vector consumer shares the caller's buffer
`b`; a mutable-vector consumer gets a freshly allocated deep copy that
storage takes ownership of; any other function-parameter category
asserts; a non-function consumer shares `b`. -/
def bind_vector_input_target (net : MF_EvaluateNetwork) (b t : Nat) (st : EvalState) :
    Except Fault EvalState :=
  match net.graph.inputSockets.get? t with
  | none => .error .assert
  | some tdata =>
    if tdata.nodeIsFunction then
      match net.graph.functionNodes.get? tdata.node with
      | none => .error .assert
      | some node =>
        match node.input_param_indices.get? tdata.index with
        | none => .error .assert
        | some pidx =>
          match node.function.paramTypes.get? pidx with
          | none => .error .assert
          | some pt =>
            if pt.is_readonly_vector_input then do
              let σ ← st.storage.set_virtual_list_list_for_input__non_owning t b
              .ok { st with storage := σ }
            else if pt.is_mutable_vector then
              match st.heap.read b with
              | some (.vector cells) =>
                let (nb, h') := st.heap.alloc (.vector (vecDeepCopy cells))
                do
                  let σ ← st.storage.set_vector_array_for_input__non_owning t nb
                  .ok { heap := h', storage := σ.take_vector_array_ownership nb,
                        invoked := st.invoked }
              | _ => .error .assert
            else .error .assert
    else do
      let σ ← st.storage.set_virtual_list_list_for_input__non_owning t b
      .ok { st with storage := σ }

/-- `MF_EvaluateNetwork::copy_inputs_to_storage` (lines 17–63): bind
every fan-out target of every declared network input from the caller's
read-only views, making private owned deep copies for mutable-vector
consumers. -/
def copy_inputs_to_storage (net : MF_EvaluateNetwork) (params : MFParams)
    (st₀ : EvalState) : Except Fault EvalState :=
  (List.range net.m_inputs.length).foldlM (fun st i =>
    match net.m_inputs.get? i with
    | none => .error .assert
    | some oid =>
      match net.graph.outputSockets.get? oid with
      | none => .error .assert
      | some odata =>
        match odata.category with
        | .Single => do
          let b ← readonly_single_input params i
          odata.targets.foldlM (fun st t => do
            let σ ← st.storage.set_virtual_list_for_input__non_owning t b
            pure { st with storage := σ }) st
        | .Vector => do
          let b ← readonly_vector_input params i
          odata.targets.foldlM (fun st t => bind_vector_input_target net b t st) st)
    st₀

/-- One parameter assembled by `MFParamsBuilder`: its category and the
buffer it reads from / writes to. -/
structure BuiltParam where
  cat : MFParamCategory
  buf : Nat
deriving DecidableEq, Repr

/-- Accumulator of the parameter-building pass of
`compute_and_forward_outputs`: the heap (growing by fresh output
allocations), the assembled parameters, and the single/vector outputs
remembered for forwarding. -/
structure BuildAcc where
  heap : Heap
  builtParams : List BuiltParam
  singleFwd : List (Nat × Nat)
  vectorFwd : List (Nat × Nat)
deriving DecidableEq, Repr

/-- Lines 122–170: process one parameter of the function by declared
category — fetch a read-only input from storage, allocate a fresh
single/vector output destination, or pass the existing mutable vector
array in place — remembering output sockets for forwarding. -/
def build_param (node : MFFunctionNodeData) (asz : Nat) (σ : Storage)
    (acc : BuildAcc) (pidx : Nat) : Except Fault BuildAcc :=
  match node.function.paramTypes.get? pidx with
  | none => .error .assert
  | some pt =>
    match pt with
    | .ReadonlySingleInput =>
      match node.inputs.get? (node.input_param_indices.indexOf pidx) with
      | none => .error .assert
      | some s => do
        let b ← σ.get_virtual_list_for_input s
        .ok { acc with builtParams := acc.builtParams ++ [⟨pt, b⟩] }
    | .ReadonlyVectorInput =>
      match node.inputs.get? (node.input_param_indices.indexOf pidx) with
      | none => .error .assert
      | some s => do
        let b ← σ.get_virtual_list_list_for_input s
        .ok { acc with builtParams := acc.builtParams ++ [⟨pt, b⟩] }
    | .SingleOutput =>
      match node.outputs.get? (node.output_param_indices.indexOf pidx) with
      | none => .error .assert
      | some o =>
        let (b, h') := acc.heap.alloc (.single (List.replicate asz none))
        .ok { acc with
          heap := h',
          builtParams := acc.builtParams ++ [⟨pt, b⟩],
          singleFwd := acc.singleFwd ++ [(o, b)] }
    | .VectorOutput =>
      match node.outputs.get? (node.output_param_indices.indexOf pidx) with
      | none => .error .assert
      | some o =>
        let (b, h') := acc.heap.alloc (.vector (List.replicate asz []))
        .ok { acc with
          heap := h',
          builtParams := acc.builtParams ++ [⟨pt, b⟩],
          vectorFwd := acc.vectorFwd ++ [(o, b)] }
    | .MutableVector =>
      match node.inputs.get? (node.input_param_indices.indexOf pidx) with
      | none => .error .assert
      | some s =>
        match node.outputs.get? (node.output_param_indices.indexOf pidx) with
        | none => .error .assert
        | some o => do
          let b ← σ.get_vector_array_for_input s
          .ok { acc with
            builtParams := acc.builtParams ++ [⟨pt, b⟩],
            vectorFwd := acc.vectorFwd ++ [(o, b)] }

/-- Write the function's results back into the written parameters'
buffers (read-only parameters are left as they were). -/
def writeResults : List BuiltParam → List BufContent → Heap → Heap
  | [], _, h => h
  | _, [], h => h
  | p :: ps, c :: cs, h =>
    writeResults ps cs (if p.cat.isWritten then h.write p.buf c else h)

/-- Line 173, `function.call(mask, params, context)`: read the current
contents of every assembled parameter, run the leaf computation once
over the mask, and write the produced contents back into the written
parameters' buffers. -/
def runFunction (f : MultiFunction) (mask : MFMask) (built : List BuiltParam)
    (h : Heap) : Except Fault Heap := do
  let contents ← built.mapM (fun p =>
    match h.read p.buf with
    | some c => .ok c
    | none => (.error .assert : Except Fault BufContent))
  .ok (writeResults built (f.impl mask.indices contents) h)

/-- Lines 175–183: forward one freshly produced single output — storage
takes ownership of the buffer once, and every fan-out target is bound to
the very same buffer non-owningly. -/
def forward_single_output (net : MF_EvaluateNetwork) (o b : Nat) (st : EvalState) :
    Except Fault EvalState :=
  match net.graph.outputSockets.get? o with
  | none => .error .assert
  | some odata =>
    let st1 : EvalState := { st with storage := st.storage.take_array_ref_ownership b }
    odata.targets.foldlM (fun st t => do
      let σ ← st.storage.set_virtual_list_for_input__non_owning t b
      pure { st with storage := σ }) st1

/-- Lines 190–216: bind one fan-out target of a produced vector
collection `b` — read-only vector consumers share `b`; a mutable-vector
consumer gets a freshly allocated owned deep copy; any other
function-parameter category asserts; a network boundary output shares
`b`; other non-function consumers are skipped. -/
def forward_vector_target (net : MF_EvaluateNetwork) (b t : Nat) (st : EvalState) :
    Except Fault EvalState :=
  match net.graph.inputSockets.get? t with
  | none => .error .assert
  | some tdata =>
    if tdata.nodeIsFunction then
      match net.graph.functionNodes.get? tdata.node with
      | none => .error .assert
      | some node =>
        match node.input_param_indices.get? tdata.index with
        | none => .error .assert
        | some pidx =>
          match node.function.paramTypes.get? pidx with
          | none => .error .assert
          | some pt =>
            if pt.is_readonly_vector_input then do
              let σ ← st.storage.set_virtual_list_list_for_input__non_owning t b
              .ok { st with storage := σ }
            else if pt.is_mutable_vector then
              match st.heap.read b with
              | some (.vector cells) =>
                let (nb, h') := st.heap.alloc (.vector (vecDeepCopy cells))
                do
                  let σ ←
                    (st.storage.take_vector_array_ownership nb).set_vector_array_for_input__non_owning
                      t nb
                  .ok { heap := h', storage := σ, invoked := st.invoked }
              | _ => .error .assert
            else .error .assert
    else if t ∈ net.m_outputs then do
      let σ ← st.storage.set_virtual_list_list_for_input__non_owning t b
      .ok { st with storage := σ }
    else .ok st

/-- Lines 185–217: forward one produced or mutated vector collection —
register it for release idempotently (it may already be owned when it
came through a mutable-vector parameter), then bind every fan-out
target. -/
def forward_vector_output (net : MF_EvaluateNetwork) (o b : Nat) (st : EvalState) :
    Except Fault EvalState :=
  match net.graph.outputSockets.get? o with
  | none => .error .assert
  | some odata =>
    let st1 : EvalState :=
      { st with storage := st.storage.take_vector_array_ownership__not_twice b }
    odata.targets.foldlM (fun st t => forward_vector_target net b t st) st1

/-- `MF_EvaluateNetwork::compute_and_forward_outputs` (lines 108–218):
assemble the parameters of one ready function node, invoke it once over
the mask, then publish every produced output into storage for all
downstream consumers with the ownership/aliasing rules; the node id is
appended to the invocation log. -/
def compute_and_forward_outputs (net : MF_EvaluateNetwork) (mask : MFMask)
    (nid : Nat) (node : MFFunctionNodeData) (st : EvalState) :
    Except Fault EvalState := do
  let asz := mask.min_array_size
  let acc ← (List.range node.function.paramTypes.length).foldlM
    (build_param node asz st.storage) ⟨st.heap, [], [], []⟩
  let h' ← runFunction node.function mask acc.builtParams acc.heap
  let st1 : EvalState := { heap := h', storage := st.storage, invoked := st.invoked }
  let st2 ← acc.singleFwd.foldlM (fun st p => forward_single_output net p.1 p.2 st) st1
  let st3 ← acc.vectorFwd.foldlM (fun st p => forward_vector_output net p.1 p.2 st) st2
  .ok { st3 with invoked := st3.invoked ++ [nid] }

/-- A socket on the scheduler's work stack. -/
inductive SocketRef
  | input (s : Nat)
  | output (o : Nat)
deriving DecidableEq, Repr

/-- Lines 74–104, one iteration of the scheduler loop on the top stack
element: a computed input socket is popped; an uncomputed one pushes its
origin above itself; an output socket pushes every not-yet-computed
input of its owning function node, or — when there are none — invokes
the node and is popped. -/
def schedStep (net : MF_EvaluateNetwork) (mask : MFMask) :
    SocketRef → List SocketRef → EvalState →
    Except Fault (List SocketRef × EvalState)
  | .input s, rest, st =>
    match net.graph.inputSockets.get? s with
    | none => .error .assert
    | some sdata =>
      if st.storage.input_is_computed s then .ok (rest, st)
      else .ok (.output sdata.origin :: .input s :: rest, st)
  | .output o, rest, st =>
    match net.graph.outputSockets.get? o with
    | none => .error .assert
    | some odata =>
      if odata.nodeIsFunction then
        match net.graph.functionNodes.get? odata.node with
        | none => .error .assert
        | some node =>
          if (node.inputs.filter (fun s => !(st.storage.input_is_computed s))).isEmpty then do
            let st' ← compute_and_forward_outputs net mask odata.node node st
            .ok (rest, st')
          else
            .ok (((node.inputs.filter
                    (fun s => !(st.storage.input_is_computed s))).reverse.map
                   SocketRef.input) ++ .output o :: rest, st)
      else .error .assert

/-- The scheduler loop, fuel-indexed: run `schedStep` until the stack
empties (the concrete `while` loop needs no fuel; `outOfFuel` only
signals an insufficient bound). -/
def evalLoop (net : MF_EvaluateNetwork) (mask : MFMask) :
    Nat → List SocketRef → EvalState → Except Fault EvalState
  | _, [], st => .ok st
  | 0, _ :: _, _ => .error .outOfFuel
  | fuel + 1, top :: rest, st => do
    let (stack', st') ← schedStep net mask top rest st
    evalLoop net mask fuel stack' st'

/-- `MF_EvaluateNetwork::evaluate_network_to_compute_outputs`
(lines 65–106): seed the stack with every requested output socket and
run the demand-driven loop. -/
def evaluate_network_to_compute_outputs (net : MF_EvaluateNetwork) (mask : MFMask)
    (fuel : Nat) (st : EvalState) : Except Fault EvalState :=
  evalLoop net mask fuel ((net.m_outputs.map SocketRef.input).reverse) st

/-- The per-index copy of `copy_in__uninitialized` over the mask:
`dst[i] := src[i]` for every active index `i`. -/
def maskCopySingle (idxs : List Nat) (src dst : List (Option Val)) :
    List (Option Val) :=
  idxs.foldl (fun d i => d.set i (src.getD i none)) dst

/-- The per-index copy of `extend_single__copy` over the mask:
`dst[i] := dst[i] ++ src[i]` for every active index `i`. -/
def maskCopyVector (idxs : List Nat) (src dst : List (List Val)) :
    List (List Val) :=
  idxs.foldl (fun d i => d.set i (d.getD i [] ++ src.getD i [])) dst

/-- Lines 224–245: copy the computed value of the declared network
output at position `j` into the caller's destination at global parameter
index `m_inputs.size() + j`, index by index over the mask. -/
def copy_output_value (net : MF_EvaluateNetwork) (mask : MFMask) (params : MFParams)
    (st : EvalState) (j : Nat) : Except Fault EvalState :=
  match net.m_outputs.get? j with
  | none => .error .assert
  | some sid =>
    match net.graph.inputSockets.get? sid with
    | none => .error .assert
    | some sdata =>
      match sdata.category with
      | .Single => do
        let b ← st.storage.get_virtual_list_for_input sid
        let ob ← single_output params (net.m_inputs.length + j)
        match st.heap.read b, st.heap.read ob with
        | some (.single cells), some (.single dcells) =>
          .ok { st with
                heap := st.heap.write ob (.single (maskCopySingle mask.indices cells dcells)) }
        | _, _ => .error .assert
      | .Vector => do
        let b ← st.storage.get_virtual_list_list_for_input sid
        let ob ← vector_output params (net.m_inputs.length + j)
        match st.heap.read b, st.heap.read ob with
        | some (.vector cells), some (.vector dcells) =>
          .ok { st with
                heap := st.heap.write ob (.vector (maskCopyVector mask.indices cells dcells)) }
        | _, _ => .error .assert

/-- `MF_EvaluateNetwork::copy_computed_values_to_outputs`
(lines 220–246). -/
def copy_computed_values_to_outputs (net : MF_EvaluateNetwork) (mask : MFMask)
    (params : MFParams) (st : EvalState) : Except Fault EvalState :=
  (List.range net.m_outputs.length).foldlM (copy_output_value net mask params) st

/-- `MF_EvaluateNetwork::call` (lines 5–15): short-circuit on an empty
mask, otherwise create scratch storage, bind the caller inputs, run the
scheduler and materialize the outputs. -/
def MF_EvaluateNetwork.call (net : MF_EvaluateNetwork) (mask : MFMask)
    (params : MFParams) (heap₀ : Heap) (fuel : Nat) : Except Fault EvalState :=
  if mask.indices_amount = 0 then .ok ⟨heap₀, Storage.empty, []⟩
  else do
    let st₀ : EvalState := ⟨heap₀, Storage.empty, []⟩
    let st₁ ← copy_inputs_to_storage net params st₀
    let st₂ ← evaluate_network_to_compute_outputs net mask fuel st₁
    copy_computed_values_to_outputs net mask params st₂

/-! ## Well-formedness of graphs, leaf functions and caller arguments -/

/-- Two buffer contents of the same category and outer length. -/
def sameShape : BufContent → BufContent → Prop
  | .single a, .single b => a.length = b.length
  | .vector a, .vector b => a.length = b.length
  | _, _ => False

/-- The leaf-function contract the engine relies on: the computation
returns one content per parameter and preserves each parameter's
category and outer length (a `GenericVectorArray` cannot change its
outer size, nor an array its length or type). -/
def ImplWF (f : MultiFunction) : Prop :=
  ∀ m cs, (f.impl m cs).length = cs.length ∧
    ∀ i c₁ c₂, cs.get? i = some c₁ → (f.impl m cs).get? i = some c₂ → sameShape c₁ c₂

/-- Default socket data used with `List.getD`. -/
def dIn : MFInputSocketData := ⟨false, 0, 0, 0, .Single⟩

def dOut : MFOutputSocketData := ⟨false, 0, 0, [], .Single⟩

def dFn : MFFunctionNodeData := ⟨⟨[], fun _ cs => cs⟩, [], [], [], []⟩

def inpD (g : MFNetworkGraph) (s : Nat) : MFInputSocketData := g.inputSockets.getD s dIn

def outD (g : MFNetworkGraph) (o : Nat) : MFOutputSocketData := g.outputSockets.getD o dOut

def fnD (g : MFNetworkGraph) (n : Nat) : MFFunctionNodeData := g.functionNodes.getD n dFn

/-- The direct demand relation between sockets: an input socket demands
its origin output socket; an output socket of a function node demands
every input socket of that node. -/
def demandsDirectB (g : MFNetworkGraph) : SocketRef → SocketRef → Bool
  | .input s, .output o =>
    match g.inputSockets.get? s with
    | some d => d.origin == o
    | none => false
  | .output o, .input s =>
    match g.outputSockets.get? o with
    | some d =>
      if d.nodeIsFunction then
        match g.functionNodes.get? d.node with
        | some n => n.inputs.contains s
        | none => false
      else false
    | none => false
  | _, _ => false

/-- Acyclicity of the socket graph: the demand relation is
well-founded. -/
def AcyclicGraph (g : MFNetworkGraph) : Prop :=
  WellFounded (fun y x => demandsDirectB g x y = true)

/-- A parameter category compatible with the data category of an input
socket it is wired to. -/
def catMatchIn : MFParamCategory → MFDataCategory → Bool
  | .ReadonlySingleInput, .Single => true
  | .ReadonlyVectorInput, .Vector => true
  | .MutableVector, .Vector => true
  | _, _ => false

/-- A parameter category compatible with the data category of an output
socket it is wired to. -/
def catMatchOut : MFParamCategory → MFDataCategory → Bool
  | .SingleOutput, .Single => true
  | .VectorOutput, .Vector => true
  | .MutableVector, .Vector => true
  | _, _ => false

/-- Whether a parameter category corresponds to an input socket. -/
def MFParamCategory.hasInputSocket : MFParamCategory → Bool
  | .ReadonlySingleInput => true
  | .ReadonlyVectorInput => true
  | .MutableVector => true
  | _ => false

/-- Whether a parameter category corresponds to an output socket. -/
def MFParamCategory.hasOutputSocket : MFParamCategory → Bool
  | .SingleOutput => true
  | .VectorOutput => true
  | .MutableVector => true
  | _ => false

/-- Well-formedness of the graph handed to the evaluator: consistent
origin/target wiring, consistent node↔socket and socket↔parameter maps,
category coherence along every edge, dummy sockets only at the declared
network boundary, acyclicity, and leaf functions satisfying their
contract.  The engine assumes a validated graph (spec §7). -/
structure NetWF (net : MF_EvaluateNetwork) : Prop where
  inOrigin : ∀ s < net.graph.inputSockets.length,
    (inpD net.graph s).origin < net.graph.outputSockets.length ∧
    s ∈ (outD net.graph (inpD net.graph s).origin).targets ∧
    (inpD net.graph s).category = (outD net.graph (inpD net.graph s).origin).category
  inNode : ∀ s < net.graph.inputSockets.length,
    (inpD net.graph s).nodeIsFunction = true →
    (inpD net.graph s).node < net.graph.functionNodes.length ∧
    (fnD net.graph (inpD net.graph s).node).inputs.get? (inpD net.graph s).index = some s
  outTargets : ∀ o < net.graph.outputSockets.length,
    (outD net.graph o).targets.Nodup ∧
    ∀ t ∈ (outD net.graph o).targets,
      t < net.graph.inputSockets.length ∧ (inpD net.graph t).origin = o
  outNode : ∀ o < net.graph.outputSockets.length,
    (outD net.graph o).nodeIsFunction = true →
    (outD net.graph o).node < net.graph.functionNodes.length ∧
    (fnD net.graph (outD net.graph o).node).outputs.get? (outD net.graph o).index = some o
  nodeLens : ∀ n < net.graph.functionNodes.length,
    (fnD net.graph n).input_param_indices.length = (fnD net.graph n).inputs.length ∧
    (fnD net.graph n).output_param_indices.length = (fnD net.graph n).outputs.length ∧
    (fnD net.graph n).inputs.Nodup ∧ (fnD net.graph n).outputs.Nodup
  nodeInputs : ∀ n < net.graph.functionNodes.length,
    ∀ j < (fnD net.graph n).inputs.length,
      (fnD net.graph n).inputs.getD j 0 < net.graph.inputSockets.length ∧
      (inpD net.graph ((fnD net.graph n).inputs.getD j 0)).nodeIsFunction = true ∧
      (inpD net.graph ((fnD net.graph n).inputs.getD j 0)).node = n ∧
      (inpD net.graph ((fnD net.graph n).inputs.getD j 0)).index = j
  nodeOutputs : ∀ n < net.graph.functionNodes.length,
    ∀ j < (fnD net.graph n).outputs.length,
      (fnD net.graph n).outputs.getD j 0 < net.graph.outputSockets.length ∧
      (outD net.graph ((fnD net.graph n).outputs.getD j 0)).nodeIsFunction = true ∧
      (outD net.graph ((fnD net.graph n).outputs.getD j 0)).node = n ∧
      (outD net.graph ((fnD net.graph n).outputs.getD j 0)).index = j
  ipiSpec : ∀ n < net.graph.functionNodes.length,
    ∀ j < (fnD net.graph n).input_param_indices.length,
      (fnD net.graph n).input_param_indices.getD j 0 <
        (fnD net.graph n).function.paramTypes.length ∧
      (fnD net.graph n).input_param_indices.indexOf
        ((fnD net.graph n).input_param_indices.getD j 0) = j ∧
      ((fnD net.graph n).function.paramTypes.getD
        ((fnD net.graph n).input_param_indices.getD j 0)
        .ReadonlySingleInput).hasInputSocket = true ∧
      catMatchIn
        ((fnD net.graph n).function.paramTypes.getD
          ((fnD net.graph n).input_param_indices.getD j 0) .ReadonlySingleInput)
        ((inpD net.graph ((fnD net.graph n).inputs.getD j 0)).category) = true
  opiSpec : ∀ n < net.graph.functionNodes.length,
    ∀ j < (fnD net.graph n).output_param_indices.length,
      (fnD net.graph n).output_param_indices.getD j 0 <
        (fnD net.graph n).function.paramTypes.length ∧
      (fnD net.graph n).output_param_indices.indexOf
        ((fnD net.graph n).output_param_indices.getD j 0) = j ∧
      ((fnD net.graph n).function.paramTypes.getD
        ((fnD net.graph n).output_param_indices.getD j 0)
        .ReadonlySingleInput).hasOutputSocket = true ∧
      catMatchOut
        ((fnD net.graph n).function.paramTypes.getD
          ((fnD net.graph n).output_param_indices.getD j 0) .ReadonlySingleInput)
        ((outD net.graph ((fnD net.graph n).outputs.getD j 0)).category) = true
  ptCover : ∀ n < net.graph.functionNodes.length,
    ∀ p < (fnD net.graph n).function.paramTypes.length,
      (((fnD net.graph n).function.paramTypes.getD p .ReadonlySingleInput).hasInputSocket = true →
        p ∈ (fnD net.graph n).input_param_indices) ∧
      (((fnD net.graph n).function.paramTypes.getD p .ReadonlySingleInput).hasOutputSocket = true →
        p ∈ (fnD net.graph n).output_param_indices)
  mInputsOK : ∀ i < net.m_inputs.length,
    net.m_inputs.getD i 0 < net.graph.outputSockets.length ∧
    (outD net.graph (net.m_inputs.getD i 0)).nodeIsFunction = false
  mInputsNodup : net.m_inputs.Nodup
  mOutputsOK : ∀ j < net.m_outputs.length,
    net.m_outputs.getD j 0 < net.graph.inputSockets.length ∧
    (inpD net.graph (net.m_outputs.getD j 0)).nodeIsFunction = false
  mOutputsNodup : net.m_outputs.Nodup
  dummyCovered : ∀ s < net.graph.inputSockets.length,
    (outD net.graph (inpD net.graph s).origin).nodeIsFunction = false →
    (inpD net.graph s).origin ∈ net.m_inputs
  acyclic : AcyclicGraph net.graph
  implWF : ∀ n < net.graph.functionNodes.length, ImplWF (fnD net.graph n).function

/-- Whether one caller parameter is a view/destination of the right
category over an adequately sized buffer. -/
def paramEntryOK (h : Heap) (minSz : Nat) (cat : MFDataCategory) (isOut : Bool)
    (pv : MFParamValue) : Bool :=
  match cat, isOut, pv with
  | .Single, false, .singleIn b =>
    match h.read b with
    | some (.single cells) => minSz ≤ cells.length
    | _ => false
  | .Vector, false, .vectorIn b =>
    match h.read b with
    | some (.vector cells) => minSz ≤ cells.length
    | _ => false
  | .Single, true, .singleOut b =>
    match h.read b with
    | some (.single cells) => minSz ≤ cells.length
    | _ => false
  | .Vector, true, .vectorOut b =>
    match h.read b with
    | some (.vector cells) => minSz ≤ cells.length
    | _ => false
  | _, _, _ => false

/-- Default caller parameter for `List.getD`. -/
def dPV : MFParamValue := .singleIn 0

/-- The caller-supplied destination buffers, in declared output order. -/
def destBufs (net : MF_EvaluateNetwork) (params : MFParams) : List Nat :=
  (List.range net.m_outputs.length).map
    (fun j => (params.getD (net.m_inputs.length + j) dPV).buf)

/-- The caller-supplied input-view buffers, in declared input order. -/
def inBufs (net : MF_EvaluateNetwork) (params : MFParams) : List Nat :=
  (List.range net.m_inputs.length).map (fun i => (params.getD i dPV).buf)

/-- Validity of the caller-supplied arguments and initial heap
(spec §6): a well-formed heap; one read-only view per declared input
and one writable destination per declared output, of matching category,
each covering at least the mask's index range; destinations distinct
from each other and from the input views. -/
structure ValidParams (net : MF_EvaluateNetwork) (mask : MFMask) (params : MFParams)
    (h₀ : Heap) : Prop where
  heapKeysNodup : (h₀.mem.map Prod.fst).Nodup
  heapKeysLt : ∀ p ∈ h₀.mem, p.1 < h₀.next
  plen : params.length = net.m_inputs.length + net.m_outputs.length
  inEntries : ∀ i < net.m_inputs.length,
    paramEntryOK h₀ mask.min_array_size (outD net.graph (net.m_inputs.getD i 0)).category
      false (params.getD i dPV) = true
  outEntries : ∀ j < net.m_outputs.length,
    paramEntryOK h₀ mask.min_array_size (inpD net.graph (net.m_outputs.getD j 0)).category
      true (params.getD (net.m_inputs.length + j) dPV) = true
  destNodup : (destBufs net params).Nodup
  destDisjoint : ∀ b ∈ destBufs net params, b ∉ inBufs net params

/-! ## A concrete example network: `f(x) = x + 1`, Single → Single -/

/-- The leaf computation of the example: parameter 0 is the read-only
input, parameter 1 the output; for each active index the output cell
becomes input + 1. -/
def addOneImpl : List Nat → List BufContent → List BufContent :=
  fun m cs =>
    match cs with
    | [.single inp, .single out] =>
      [.single inp, .single (m.foldl (fun o i => o.set i ((inp.getD i none).map (· + 1))) out)]
    | cs => cs

/-- The example multi-function `f(x) = x + 1`. -/
def addOneFn : MultiFunction :=
  ⟨[.ReadonlySingleInput, .SingleOutput], addOneImpl⟩

/-- The example network: one function node computing `x + 1`, wired
from the declared network input (output socket 0, dummy) through input
socket 0 and output socket 1 to the declared network output (input
socket 1, dummy). -/
def exNet : MF_EvaluateNetwork where
  graph :=
    { inputSockets :=
        [⟨true, 0, 0, 0, .Single⟩, ⟨false, 0, 0, 1, .Single⟩]
      outputSockets :=
        [⟨false, 0, 0, [0], .Single⟩, ⟨true, 0, 0, [1], .Single⟩]
      functionNodes := [⟨addOneFn, [0], [1], [0], [1]⟩] }
  m_inputs := [0]
  m_outputs := [1]

/-- The example initial heap: buffer 0 holds the caller input
`[1, 2, 3]`, buffer 1 the caller destination prefilled with `9`s. -/
def exHeap : Heap :=
  ⟨2, [(0, .single [some 1, some 2, some 3]), (1, .single [some 9, some 9, some 9])]⟩

/-- The example caller parameter list: the input view, then the output
destination. -/
def exParams : MFParams := [.singleIn 0, .singleOut 1]

/-! ## Basic lemmas about the heap and association lists -/

theorem lookupA_eq_none {α : Type} {m : List (Nat × α)} {b : Nat}
    (h : ∀ p ∈ m, p.1 ≠ b) : lookupA m b = none := by
  induction m with
  | nil => rfl
  | cons p t ih =>
    obtain ⟨k, v⟩ := p
    simp only [lookupA]
    rw [if_neg (h (k, v) (by simp))]
    exact ih fun q hq => h q (by simp [hq])

theorem lookupA_writeA_ne {α : Type} (m : List (Nat × α)) (b : Nat) (c : α)
    {k : Nat} (h : k ≠ b) : lookupA (writeA m b c) k = lookupA m k := by
  induction m with
  | nil => rfl
  | cons p t ih =>
    obtain ⟨k', v⟩ := p
    simp only [writeA]
    by_cases hk : k' = b
    · subst hk
      simp only [if_pos rfl, lookupA]
      rw [if_neg (fun hh => h hh.symm), if_neg (fun hh => h hh.symm)]
    · simp only [if_neg hk, lookupA]
      by_cases hk2 : k' = k
      · simp [hk2]
      · simp only [if_neg hk2]
        exact ih

theorem lookupA_writeA_self {α : Type} (m : List (Nat × α)) (b : Nat) (c : α) :
    lookupA (writeA m b c) b =
      if (lookupA m b).isSome then some c else none := by
  induction m with
  | nil => rfl
  | cons p t ih =>
    obtain ⟨k, v⟩ := p
    simp only [writeA, lookupA]
    by_cases hk : k = b
    · simp [hk, lookupA]
    · simp only [if_neg hk, lookupA, if_neg hk]
      exact ih

theorem writeA_keys {α : Type} (m : List (Nat × α)) (b : Nat) (c : α) :
    (writeA m b c).map Prod.fst = m.map Prod.fst := by
  induction m with
  | nil => rfl
  | cons p t ih =>
    obtain ⟨k, v⟩ := p
    simp only [writeA]
    by_cases hk : k = b
    · simp [hk]
    · simp [if_neg hk, ih]

theorem lookupA_isSome_writeA {α : Type} (m : List (Nat × α)) (b : Nat) (c : α)
    (k : Nat) : (lookupA (writeA m b c) k).isSome = (lookupA m k).isSome := by
  by_cases hk : k = b
  · subst hk
    rw [lookupA_writeA_self]
    by_cases h : (lookupA m k).isSome <;> simp [h]
  · rw [lookupA_writeA_ne m b c hk]

theorem lookupA_mem {α : Type} {m : List (Nat × α)} {b : Nat} {v : α}
    (h : lookupA m b = some v) : (b, v) ∈ m := by
  induction m with
  | nil => simp [lookupA] at h
  | cons p t ih =>
    obtain ⟨k, w⟩ := p
    simp only [lookupA] at h
    by_cases hk : k = b
    · rw [if_pos hk] at h
      obtain rfl := hk
      simp [Option.some_inj.mp h]
    · rw [if_neg hk] at h
      simp [ih h]

/-- A heap whose keys are all below `next` reads `none` at any id
at or above `next`. -/
theorem Heap.read_ge_next {h : Heap} (hwf : ∀ p ∈ h.mem, p.1 < h.next)
    {b : Nat} (hb : h.next ≤ b) : h.read b = none :=
  lookupA_eq_none fun p hp => Nat.ne_of_lt (Nat.lt_of_lt_of_le (hwf p hp) hb)

theorem Heap.read_write_ne (h : Heap) (b : Nat) (c : BufContent) {k : Nat}
    (hk : k ≠ b) : (h.write b c).read k = h.read k :=
  lookupA_writeA_ne h.mem b c hk

theorem Heap.read_write_self (h : Heap) (b : Nat) (c : BufContent) :
    (h.write b c).read b = if (h.read b).isSome then some c else none :=
  lookupA_writeA_self h.mem b c

theorem Heap.read_alloc_ne (h : Heap) (c : BufContent) {k : Nat}
    (hk : k ≠ h.next) : (h.alloc c).2.read k = h.read k := by
  simp only [Heap.alloc, Heap.read, lookupA]
  rw [if_neg (fun hh => hk hh.symm)]

theorem Heap.read_alloc_self (h : Heap) (c : BufContent) :
    (h.alloc c).2.read h.next = some c := by
  simp [Heap.alloc, Heap.read, lookupA]

/-! ## Claim C4: the empty-mask short circuit -/

/-- C4: for every graph and every caller-supplied argument set, a call
with a mask of zero active indices returns immediately: the heap (and so
every caller-provided destination) is untouched, the returned storage is
the empty one (nothing materialized, nothing registered for release) and
no function node was invoked. -/
theorem C4_empty_mask_short_circuit (net : MF_EvaluateNetwork) (mask : MFMask)
    (params : MFParams) (heap₀ : Heap) (fuel : Nat)
    (h : mask.indices_amount = 0) :
    net.call mask params heap₀ fuel = .ok ⟨heap₀, Storage.empty, []⟩ := by
  simp [MF_EvaluateNetwork.call, h]

/-- Witness for C4 at the concrete example network. -/
theorem C4_empty_mask_short_circuit_witness :
    (⟨[]⟩ : MFMask).indices_amount = 0 ∧
      exNet.call ⟨[]⟩ exParams exHeap 20 = .ok ⟨exHeap, Storage.empty, []⟩ :=
  ⟨rfl, C4_empty_mask_short_circuit exNet ⟨[]⟩ exParams exHeap 20 rfl⟩

/-! ## Claim C5: the scheduler's step semantics -/

/-- C5: in each iteration of the scheduler loop, the top element is
examined without being popped unless it is resolved: a top input socket
is popped exactly when its value is computed in storage and otherwise its
origin output socket is pushed above it (the input socket stays below);
a top output socket has all not-yet-computed inputs of its owning
function node pushed in that single pass, and the node is invoked and
the top popped exactly when none were pushed because every input was
already computed. -/
theorem C5_scheduler_step_semantics (net : MF_EvaluateNetwork) (mask : MFMask)
    (s o : Nat) (rest : List SocketRef) (st : EvalState) :
    (∀ sdata, net.graph.inputSockets.get? s = some sdata →
      (st.storage.input_is_computed s = true →
        schedStep net mask (.input s) rest st = .ok (rest, st)) ∧
      (st.storage.input_is_computed s = false →
        schedStep net mask (.input s) rest st =
          .ok (.output sdata.origin :: .input s :: rest, st))) ∧
    (∀ odata node, net.graph.outputSockets.get? o = some odata →
      odata.nodeIsFunction = true →
      net.graph.functionNodes.get? odata.node = some node →
      (node.inputs.filter (fun t => !(st.storage.input_is_computed t)) = [] →
        schedStep net mask (.output o) rest st =
          (compute_and_forward_outputs net mask odata.node node st).map
            (fun st' => (rest, st'))) ∧
      (node.inputs.filter (fun t => !(st.storage.input_is_computed t)) ≠ [] →
        schedStep net mask (.output o) rest st =
          .ok (((node.inputs.filter
                  (fun t => !(st.storage.input_is_computed t))).reverse.map
                 SocketRef.input) ++ .output o :: rest, st))) := by
  constructor
  · intro sdata hs
    rw [List.get?_eq_getElem?] at hs
    refine ⟨fun hc => ?_, fun hc => ?_⟩
    · simp [schedStep, hs, hc]
    · simp [schedStep, hs, hc]
  · intro odata node ho hfn hnode
    rw [List.get?_eq_getElem?] at ho hnode
    constructor
    · intro hempty
      simp only [schedStep, List.get?_eq_getElem?, ho, hfn, if_true, hnode, hempty,
        List.isEmpty_nil]
      cases compute_and_forward_outputs net mask odata.node node st <;> rfl
    · intro hne
      have hfalse : (node.inputs.filter
          (fun t => !(st.storage.input_is_computed t))).isEmpty = false := by
        cases hl : node.inputs.filter (fun t => !(st.storage.input_is_computed t)) with
        | nil => exact absurd hl hne
        | cons a l => rfl
      simp only [schedStep, List.get?_eq_getElem?, ho, hfn, if_true, hnode, hfalse]
      simp

/-- Witness for C5: at the example network, the uncomputed boundary
output socket pushes its origin above itself. -/
theorem C5_scheduler_step_semantics_witness :
    schedStep exNet ⟨[0]⟩ (.input 1) [] ⟨exHeap, Storage.empty, []⟩ =
      .ok ([.output 1, .input 1], ⟨exHeap, Storage.empty, []⟩) := by
  have h := (C5_scheduler_step_semantics exNet ⟨[0]⟩ 1 1 [] ⟨exHeap, Storage.empty, []⟩).1
    ⟨false, 0, 0, 1, .Single⟩ (by decide)
  exact h.2 (by decide)

/-! ## The deep copy duplicates every index of the source collection -/

theorem extendLoop_length (src : List (List Val)) :
    ∀ (k i : Nat) (dst : List (List Val)), (extendLoop src dst i k).length = dst.length := by
  intro k
  induction k with
  | zero => intro i dst; rfl
  | succ k ih =>
    intro i dst
    simp only [extendLoop]
    rw [ih]
    exact List.length_set dst i _

theorem extendLoop_get?_lt (src : List (List Val)) :
    ∀ (k i : Nat) (dst : List (List Val)) (j : Nat), j < i →
      (extendLoop src dst i k).get? j = dst.get? j := by
  intro k
  induction k with
  | zero => intro i dst j _; rfl
  | succ k ih =>
    intro i dst j hj
    simp only [extendLoop]
    rw [ih (i + 1) _ j (Nat.lt_succ_of_lt hj)]
    exact List.get?_set_ne _ _ (Nat.ne_of_gt hj)

theorem extendLoop_get?_covered (src : List (List Val)) :
    ∀ (k i : Nat) (dst : List (List Val)) (j : Nat), i ≤ j → j < i + k →
      j < dst.length →
      (extendLoop src dst i k).get? j = some (dst.getD j [] ++ src.getD j []) := by
  intro k
  induction k with
  | zero => intro i dst j h1 h2; omega
  | succ k ih =>
    intro i dst j h1 h2 hlen
    simp only [extendLoop]
    by_cases hji : j = i
    · subst hji
      rw [extendLoop_get?_lt src k (j + 1) _ j (Nat.lt_succ_self j)]
      exact List.get?_set_eq_of_lt _ hlen
    · have hij : i < j := Nat.lt_of_le_of_ne h1 fun hh => hji hh.symm
      rw [ih (i + 1) _ j hij (by omega) (by rw [List.length_set]; exact hlen)]
      have hne : i ≠ j := fun hh => hji hh.symm
      have hset : (dst.set i (dst.getD i [] ++ src.getD i [])).getD j [] = dst.getD j [] := by
        show ((dst.set i _).get? j).getD [] = (dst.get? j).getD []
        rw [List.get?_set_ne _ _ hne]
      rw [hset]

/-- The engine's vector deep copy copies the contents of **every**
index `0 .. size-1` of the source collection — the result is equal to
the source, independently of the mask. -/
theorem vecDeepCopy_eq (src : List (List Val)) : vecDeepCopy src = src := by
  apply List.ext_get?
  intro j
  by_cases hj : j < src.length
  · rw [vecDeepCopy,
      extendLoop_get?_covered src src.length 0 _ j (Nat.zero_le j) (by omega)
        (by rw [List.length_replicate]; exact hj)]
    have h1 : (List.replicate src.length ([] : List Val)).getD j [] = [] := by
      show ((List.replicate src.length ([] : List Val)).get? j).getD [] = []
      rw [List.get?_eq_getElem?, List.getElem?_replicate, if_pos hj]
      rfl
    have h2 : src.get? j = some (src.getD j []) := by
      show _ = some ((src.get? j).getD [])
      cases hg : src.get? j with
      | none => rw [List.get?_eq_none] at hg; omega
      | some a => rfl
    rw [h1, h2]
    simp
  · have h1 : src.get? j = none := by rw [List.get?_eq_none]; omega
    have h2 : (vecDeepCopy src).get? j = none := by
      rw [List.get?_eq_none, vecDeepCopy, extendLoop_length, List.length_replicate]
      omega
    rw [h1, h2]

/-! ## The mask-indexed boundary copies leave non-mask indices alone -/

theorem maskCopySingle_not_mem (idxs : List Nat) (src : List (Option Val)) :
    ∀ (dst : List (Option Val)) (j : Nat), j ∉ idxs →
      (maskCopySingle idxs src dst).get? j = dst.get? j := by
  induction idxs with
  | nil => intro dst j _; rfl
  | cons i t ih =>
    intro dst j hj
    have hji : j ≠ i := fun hh => hj (by simp [hh])
    have hstep : maskCopySingle (i :: t) src dst =
        maskCopySingle t src (dst.set i (src.getD i none)) := rfl
    rw [hstep, ih _ j (fun hh => hj (by simp [hh]))]
    exact List.get?_set_ne _ _ fun hh => hji hh.symm

theorem maskCopyVector_not_mem (idxs : List Nat) (src : List (List Val)) :
    ∀ (dst : List (List Val)) (j : Nat), j ∉ idxs →
      (maskCopyVector idxs src dst).get? j = dst.get? j := by
  induction idxs with
  | nil => intro dst j _; rfl
  | cons i t ih =>
    intro dst j hj
    have hji : j ≠ i := fun hh => hj (by simp [hh])
    have hstep : maskCopyVector (i :: t) src dst =
        maskCopyVector t src (dst.set i (dst.getD i [] ++ src.getD i [])) := rfl
    rw [hstep, ih _ j (fun hh => hj (by simp [hh]))]
    exact List.get?_set_ne _ _ fun hh => hji hh.symm

theorem maskCopySingle_length (idxs : List Nat) (src : List (Option Val)) :
    ∀ dst : List (Option Val), (maskCopySingle idxs src dst).length = dst.length := by
  induction idxs with
  | nil => intro dst; rfl
  | cons i t ih =>
    intro dst
    have hstep : maskCopySingle (i :: t) src dst =
        maskCopySingle t src (dst.set i (src.getD i none)) := rfl
    rw [hstep, ih]
    exact List.length_set dst i _

/-- Indices written by the masked per-index copy hold the source value:
if the write lands (`i` within the destination) and no later mask index
overwrites it, `dst[i] = src[i]`.  For duplicate-free masks this gives
the full characterization together with `maskCopySingle_not_mem`. -/
theorem maskCopySingle_mem (idxs : List Nat) (src : List (Option Val)) :
    ∀ (dst : List (Option Val)) (j : Nat), j ∈ idxs → j < dst.length →
      (maskCopySingle idxs src dst).get? j = some (src.getD j none) := by
  induction idxs with
  | nil => intro dst j hj; exact absurd hj (List.not_mem_nil j)
  | cons i t ih =>
    intro dst j hj hlen
    have hstep : maskCopySingle (i :: t) src dst =
        maskCopySingle t src (dst.set i (src.getD i none)) := rfl
    rw [hstep]
    by_cases hjt : j ∈ t
    · exact ih _ j hjt (by rw [List.length_set]; exact hlen)
    · have hji : j = i := by
        rcases List.mem_cons.mp hj with h | h
        · exact h
        · exact absurd h hjt
      subst hji
      rw [maskCopySingle_not_mem t src _ j hjt]
      exact List.get?_set_eq_of_lt _ hlen

/-! ## A vector pass-through example: one mutable-vector node -/

/-- The identity leaf function on its (mutable vector) parameter. -/
def idVecImpl : List Nat → List BufContent → List BufContent := fun _ cs => cs

/-- A multi-function with a single mutable-vector parameter that leaves
it unchanged. -/
def idVecFn : MultiFunction := ⟨[.MutableVector], idVecImpl⟩

/-- A network with one function node taking the declared vector network
input through a mutable-vector parameter and producing the declared
vector network output. -/
def vecNet : MF_EvaluateNetwork where
  graph :=
    { inputSockets := [⟨true, 0, 0, 0, .Vector⟩, ⟨false, 0, 0, 1, .Vector⟩]
      outputSockets := [⟨false, 0, 0, [0], .Vector⟩, ⟨true, 0, 0, [1], .Vector⟩]
      functionNodes := [⟨idVecFn, [0], [1], [0], [0]⟩] }
  m_inputs := [0]
  m_outputs := [1]

/-- Initial heap of the vector example: caller input collection
`[[7], [5]]` in buffer 0, caller destination `[[], []]` in buffer 1. -/
def vecHeap : Heap := ⟨2, [(0, .vector [[7], [5]]), (1, .vector [[], []])]⟩

/-- Caller parameters of the vector example. -/
def vecParams : MFParams := [.vectorIn 0, .vectorOut 1]

/-- Observe one per-index cell of a vector buffer content. -/
def vectorCellOf : Option BufContent → Nat → List Val
  | some (.vector cells), i => cells.getD i []
  | _, _ => []

/-! ## Claim C6 (counterexample): the engine copies non-mask indices -/

/-- Counterexample to C6 as stated.  Calling `vecNet` with mask `{1}`
makes the engine allocate the private deep copy for the mutable-vector
consumer in buffer `2` (an engine buffer: `2 ≥ vecHeap.next` fails —
rather `2 = vecHeap.next`, the first engine allocation) and the call
leaves cell `0` of that buffer equal to `[7]`, the caller's data at
index `0` — yet `0` is not in the mask and a freshly allocated vector
array holds `[]` at every index.  So the engine performed a per-index
copy at an index outside the mask, refuting "every per-index operation
performed by the engine touches only indices that are in the mask". -/
theorem C6_mask_locality_counterexample :
    (vecNet.call ⟨[1]⟩ vecParams vecHeap 20).toOption.map
        (fun st => vectorCellOf (st.heap.read 2) 0) = some [7] ∧
    2 = vecHeap.next ∧
    (0 : Nat) ∉ (MFMask.mk [1]).indices ∧
    ([7] : List Val) ≠ [] := by
  refine ⟨rfl, rfl, by decide, by decide⟩

/-! ## Exact outcomes of binding one vector fan-out target -/

/-- The state after a read-only or boundary consumer was bound to the
shared collection `b` (no allocation, non-owning). -/
def stateShared (st : EvalState) (t b : Nat) : EvalState :=
  { st with storage :=
      { st.storage with values := (t, .vectorRef b) :: st.storage.values } }

/-- The state after a mutable-vector consumer was bound: a fresh buffer
(identity `st.heap.next`) holding a deep copy of `cells` is allocated,
registered for release, and associated with the consumer. -/
def stateCopy (st : EvalState) (t : Nat) (cells : List (List Val)) : EvalState :=
  { heap := (st.heap.alloc (.vector (vecDeepCopy cells))).2,
    storage :=
      { values := (t, .vectorArray st.heap.next) :: st.storage.values,
        ownedArrays := st.storage.ownedArrays,
        ownedVectorArrays := st.heap.next :: st.storage.ownedVectorArrays },
    invoked := st.invoked }

theorem forward_vector_target_rvi (net : MF_EvaluateNetwork) (b t : Nat)
    (st : EvalState) (tdata : MFInputSocketData) (node : MFFunctionNodeData)
    (pidx : Nat) (pt : MFParamCategory)
    (htd : net.graph.inputSockets.get? t = some tdata)
    (hfn : tdata.nodeIsFunction = true)
    (hnode : net.graph.functionNodes.get? tdata.node = some node)
    (hpidx : node.input_param_indices.get? tdata.index = some pidx)
    (hpt : node.function.paramTypes.get? pidx = some pt)
    (hrvi : pt.is_readonly_vector_input = true)
    (hunset : lookupA st.storage.values t = none) :
    forward_vector_target net b t st = .ok (stateShared st t b) := by
  rw [List.get?_eq_getElem?] at htd hnode hpidx hpt
  simp only [forward_vector_target, List.get?_eq_getElem?, htd, hfn, if_true, hnode,
    hpidx, hpt, hrvi]
  simp only [Storage.set_virtual_list_list_for_input__non_owning, Storage.setVal,
    hunset, Option.isSome_none, Bool.false_eq_true, if_false]
  rfl

theorem forward_vector_target_mv (net : MF_EvaluateNetwork) (b t : Nat)
    (st : EvalState) (tdata : MFInputSocketData) (node : MFFunctionNodeData)
    (pidx : Nat) (pt : MFParamCategory) (cells : List (List Val))
    (htd : net.graph.inputSockets.get? t = some tdata)
    (hfn : tdata.nodeIsFunction = true)
    (hnode : net.graph.functionNodes.get? tdata.node = some node)
    (hpidx : node.input_param_indices.get? tdata.index = some pidx)
    (hpt : node.function.paramTypes.get? pidx = some pt)
    (hmv : pt.is_mutable_vector = true)
    (hb : st.heap.read b = some (.vector cells))
    (hunset : lookupA st.storage.values t = none) :
    forward_vector_target net b t st = .ok (stateCopy st t cells) := by
  have hnrvi : pt.is_readonly_vector_input = false := by
    cases pt <;> first | rfl | exact absurd hmv (by decide)
  rw [List.get?_eq_getElem?] at htd hnode hpidx hpt
  simp only [forward_vector_target, List.get?_eq_getElem?, htd, hfn, if_true, hnode,
    hpidx, hpt, hnrvi, hmv, hb]
  simp only [Storage.set_vector_array_for_input__non_owning, Storage.setVal,
    Storage.take_vector_array_ownership, hunset, Option.isSome_none,
    Bool.false_eq_true, if_false]
  rfl

theorem forward_vector_target_boundary (net : MF_EvaluateNetwork) (b t : Nat)
    (st : EvalState) (tdata : MFInputSocketData)
    (htd : net.graph.inputSockets.get? t = some tdata)
    (hfn : tdata.nodeIsFunction = false)
    (hmem : t ∈ net.m_outputs)
    (hunset : lookupA st.storage.values t = none) :
    forward_vector_target net b t st = .ok (stateShared st t b) := by
  rw [List.get?_eq_getElem?] at htd
  simp only [forward_vector_target, List.get?_eq_getElem?, htd, hfn, Bool.false_eq_true,
    if_false, hmem, if_true]
  simp only [Storage.set_virtual_list_list_for_input__non_owning, Storage.setVal,
    hunset, Option.isSome_none, Bool.false_eq_true, if_false]
  rfl

theorem forward_vector_target_skip (net : MF_EvaluateNetwork) (b t : Nat)
    (st : EvalState) (tdata : MFInputSocketData)
    (htd : net.graph.inputSockets.get? t = some tdata)
    (hfn : tdata.nodeIsFunction = false)
    (hmem : t ∉ net.m_outputs) :
    forward_vector_target net b t st = .ok st := by
  rw [List.get?_eq_getElem?] at htd
  simp only [forward_vector_target, List.get?_eq_getElem?, htd, hfn, Bool.false_eq_true,
    if_false, hmem]

theorem lookupA_cons_self {α : Type} (l : List (Nat × α)) (t : Nat) (v : α) :
    lookupA ((t, v) :: l) t = some v := by
  simp [lookupA]

theorem lookupA_cons_ne {α : Type} (l : List (Nat × α)) (t u : Nat) (v : α)
    (h : u ≠ t) : lookupA ((t, v) :: l) u = lookupA l u := by
  simp only [lookupA]
  rw [if_neg fun hh => h hh.symm]

/-- The ownership bookkeeping invariant: each buffer is registered for
release at most once, and the two registries hold buffers of their
respective categories (so they cannot overlap). -/
def OwnedInv (st : EvalState) : Prop :=
  (st.storage.registered).Nodup ∧
  (∀ x ∈ st.storage.ownedArrays, ∃ cs, st.heap.read x = some (.single cs)) ∧
  (∀ x ∈ st.storage.ownedVectorArrays, ∃ cs, st.heap.read x = some (.vector cs))

/-- A fan-out target the forwarding pass may bind: a valid input socket
not yet computed whose function-parameter category (when it is a
function-node input) is one of the two recognized vector kinds. -/
def VecTargetOK (net : MF_EvaluateNetwork) (σ : Storage) (t : Nat) : Prop :=
  ∃ tdata, net.graph.inputSockets.get? t = some tdata ∧
    lookupA σ.values t = none ∧
    (tdata.nodeIsFunction = true →
      ∃ node pidx pt, net.graph.functionNodes.get? tdata.node = some node ∧
        node.input_param_indices.get? tdata.index = some pidx ∧
        node.function.paramTypes.get? pidx = some pt ∧
        (pt.is_readonly_vector_input = true ∨ pt.is_mutable_vector = true))

/-- What one bound vector fan-out target looks like afterwards:
read-only consumers and boundary outputs share the collection `b`
itself; mutable consumers hold a fresh buffer in `[lo, hi)` whose
contents equal the source's. -/
def VecTargetPost (net : MF_EvaluateNetwork) (b : Nat) (cells : List (List Val))
    (lo hi : Nat) (σv : List (Nat × StoredVal)) (hp : Heap) (t : Nat) : Prop :=
  ∀ tdata, net.graph.inputSockets.get? t = some tdata →
    (tdata.nodeIsFunction = true →
      ∀ node pidx pt, net.graph.functionNodes.get? tdata.node = some node →
        node.input_param_indices.get? tdata.index = some pidx →
        node.function.paramTypes.get? pidx = some pt →
        (pt.is_readonly_vector_input = true → lookupA σv t = some (.vectorRef b)) ∧
        (pt.is_mutable_vector = true →
          ∃ nb, lo ≤ nb ∧ nb < hi ∧ lookupA σv t = some (.vectorArray nb) ∧
            hp.read nb = some (.vector cells))) ∧
    (tdata.nodeIsFunction = false →
      (t ∈ net.m_outputs → lookupA σv t = some (.vectorRef b)) ∧
      (t ∉ net.m_outputs → lookupA σv t = none))

theorem rvi_mv_absurd {pt : MFParamCategory}
    (h1 : pt.is_readonly_vector_input = true)
    (h2 : pt.is_mutable_vector = true) : False := by
  cases pt <;> simp [MFParamCategory.is_readonly_vector_input,
    MFParamCategory.is_mutable_vector] at h1 h2

/-- Binding a list of vector fan-out targets succeeds and produces
exactly the aliasing discipline of the source: shared non-owning views
for read-only and boundary consumers, fresh private owned deep copies
for mutable consumers, pairwise distinct and distinct from the shared
collection. -/
theorem forward_vector_targets_fold (net : MF_EvaluateNetwork) (b : Nat)
    (cells : List (List Val)) :
    ∀ (ts : List Nat) (st : EvalState),
      (∀ p ∈ st.heap.mem, p.1 < st.heap.next) →
      st.heap.read b = some (.vector cells) →
      (∀ t ∈ ts, VecTargetOK net st.storage t) →
      ts.Nodup →
      ∃ st', ts.foldlM (fun st t => forward_vector_target net b t st) st = .ok st' ∧
        st.heap.next ≤ st'.heap.next ∧
        (∀ p ∈ st'.heap.mem, p.1 < st'.heap.next) ∧
        (∀ k, k < st.heap.next → st'.heap.read k = st.heap.read k) ∧
        (∀ k c, st.heap.read k = some c → st'.heap.read k = some c) ∧
        (∀ u, u ∉ ts → lookupA st'.storage.values u = lookupA st.storage.values u) ∧
        st'.storage.ownedArrays = st.storage.ownedArrays ∧
        st'.invoked = st.invoked ∧
        (∀ x ∈ st.storage.ownedVectorArrays, x ∈ st'.storage.ownedVectorArrays) ∧
        (∀ p ∈ st'.heap.mem,
          p.1 ∈ st.heap.mem.map Prod.fst ∨ p.1 ∈ st'.storage.ownedVectorArrays) ∧
        (OwnedInv st → OwnedInv st') ∧
        (∀ t ∈ ts, VecTargetPost net b cells st.heap.next st'.heap.next
          st'.storage.values st'.heap t) ∧
        (∀ t ∈ ts, ∀ nb, lookupA st'.storage.values t = some (.vectorArray nb) →
          st.heap.next ≤ nb ∧ nb < st'.heap.next) ∧
        (∀ t₁ ∈ ts, ∀ t₂ ∈ ts, t₁ ≠ t₂ →
          ∀ n₁ n₂, lookupA st'.storage.values t₁ = some (.vectorArray n₁) →
            lookupA st'.storage.values t₂ = some (.vectorArray n₂) → n₁ ≠ n₂) := by
  intro ts
  induction ts with
  | nil =>
    intro st hwf hb _ _
    exact ⟨st, rfl, Nat.le_refl _, hwf, fun k _ => rfl, fun k c hc => hc,
      fun u _ => rfl, rfl, rfl,
      fun x hx => hx, fun p hp => Or.inl (List.mem_map_of_mem Prod.fst hp),
      fun h => h, fun t ht => absurd ht (List.not_mem_nil t),
      fun t ht => absurd ht (List.not_mem_nil t),
      fun t₁ ht₁ => absurd ht₁ (List.not_mem_nil t₁)⟩
  | cons t rest ih =>
    intro st hwf hb hOK hnd
    have hbmem : b < st.heap.next := hwf _ (lookupA_mem hb)
    obtain ⟨tdata, htd, hunset, hfnOK⟩ := hOK t (List.mem_cons_self t rest)
    have hndr : rest.Nodup := (List.nodup_cons.mp hnd).2
    have htnr : t ∉ rest := (List.nodup_cons.mp hnd).1
    by_cases hfn : tdata.nodeIsFunction = true
    · obtain ⟨node, pidx, pt, hnode, hpidx, hpt, hcat⟩ := hfnOK hfn
      rcases hcat with hrvi | hmv
      · -- read-only vector input: shared view, no heap change
        have hstep := forward_vector_target_rvi net b t st tdata node pidx pt htd hfn
          hnode hpidx hpt hrvi hunset
        set st₁ := stateShared st t b with hst₁
        have hv₁ : st₁.storage.values = (t, .vectorRef b) :: st.storage.values := rfl
        have hOK₁ : ∀ u ∈ rest, VecTargetOK net st₁.storage u := by
          intro u hu
          obtain ⟨ud, hud, huns, hufn⟩ := hOK u (List.mem_cons_of_mem t hu)
          refine ⟨ud, hud, ?_, hufn⟩
          rw [hv₁, lookupA_cons_ne _ _ _ _ fun hh => htnr (by rw [← hh]; exact hu)]
          exact huns
        obtain ⟨st', hfold, q1, q2, q3, q3b, q4, q5, q6, q7, q8, q9, q10, q11, q12⟩ :=
          ih st₁ hwf hb hOK₁ hndr
        refine ⟨st', ?_, q1, q2, q3, q3b, ?_, q5, q6, q7, q8, fun h => q9 h, ?_, ?_, ?_⟩
        · rw [List.foldlM_cons, hstep]; exact hfold
        · intro u hu
          have hur : u ∉ rest := fun hh => hu (List.mem_cons_of_mem t hh)
          have hut : u ≠ t := fun hh => hu (by rw [hh]; exact List.mem_cons_self t rest)
          rw [q4 u hur, hv₁, lookupA_cons_ne _ _ _ _ hut]
        · intro u hu
          rcases List.mem_cons.mp hu with rfl | hur
          · intro td htd'
            rw [htd] at htd'
            obtain rfl := Option.some_inj.mp htd'
            refine ⟨fun _ nd pi pc hnd' hpi hpc => ?_,
              fun hdum => absurd hfn (by simp [hdum])⟩
            rw [hnode] at hnd'
            obtain rfl := Option.some_inj.mp hnd'
            rw [hpidx] at hpi
            obtain rfl := Option.some_inj.mp hpi
            rw [hpt] at hpc
            obtain rfl := Option.some_inj.mp hpc
            constructor
            · intro _
              rw [q4 u htnr, hv₁, lookupA_cons_self]
            · intro hmv'
              exact (rvi_mv_absurd hrvi hmv').elim
          · exact q10 u hur
        · intro u hu nb hnb
          rcases List.mem_cons.mp hu with rfl | hur
          · rw [q4 u htnr, hv₁, lookupA_cons_self] at hnb
            exact absurd hnb (by simp)
          · exact q11 u hur nb hnb
        · intro t₁ ht₁ t₂ ht₂ hne n₁ n₂ h₁ h₂
          rcases List.mem_cons.mp ht₁ with rfl | h₁r
          · rw [q4 t₁ htnr, hv₁, lookupA_cons_self] at h₁
            exact absurd h₁ (by simp)
          · rcases List.mem_cons.mp ht₂ with rfl | h₂r
            · rw [q4 t₂ htnr, hv₁, lookupA_cons_self] at h₂
              exact absurd h₂ (by simp)
            · exact q12 t₁ h₁r t₂ h₂r hne n₁ n₂ h₁ h₂
      · -- mutable vector: fresh private deep copy
        have hstep := forward_vector_target_mv net b t st tdata node pidx pt cells htd hfn
          hnode hpidx hpt hmv hb hunset
        set st₁ := stateCopy st t cells with hst₁
        have hv₁ : st₁.storage.values =
            (t, .vectorArray st.heap.next) :: st.storage.values := rfl
        have hnext₁ : st₁.heap.next = st.heap.next + 1 := rfl
        have hwf₁ : ∀ p ∈ st₁.heap.mem, p.1 < st₁.heap.next := by
          intro p hp
          rcases List.mem_cons.mp hp with rfl | hpm
          · simp [hnext₁]
          · exact Nat.lt_succ_of_lt (hwf p hpm)
        have hread₁ : ∀ k, k < st.heap.next → st₁.heap.read k = st.heap.read k := by
          intro k hk
          exact Heap.read_alloc_ne st.heap _ (Nat.ne_of_lt hk)
        have hreadnb : st₁.heap.read st.heap.next = some (.vector cells) := by
          have h := Heap.read_alloc_self st.heap (.vector (vecDeepCopy cells))
          exact h.trans (by rw [vecDeepCopy_eq])
        have hb₁ : st₁.heap.read b = some (.vector cells) := by
          rw [hread₁ b hbmem]; exact hb
        have hOK₁ : ∀ u ∈ rest, VecTargetOK net st₁.storage u := by
          intro u hu
          obtain ⟨ud, hud, huns, hufn⟩ := hOK u (List.mem_cons_of_mem t hu)
          refine ⟨ud, hud, ?_, hufn⟩
          rw [hv₁, lookupA_cons_ne _ _ _ _ fun hh => htnr (by rw [← hh]; exact hu)]
          exact huns
        obtain ⟨st', hfold, q1, q2, q3, q3b, q4, q5, q6, q7, q8, q9, q10, q11, q12⟩ :=
          ih st₁ hwf₁ hb₁ hOK₁ hndr
        rw [hnext₁] at q1
        refine ⟨st', ?_, by omega, q2, ?_, ?_, ?_, q5, q6, ?_, ?_, ?_, ?_, ?_, ?_⟩
        · rw [List.foldlM_cons, hstep]; exact hfold
        · intro k hk
          rw [q3 k (by rw [hnext₁]; omega), hread₁ k hk]
        · intro k c hc
          apply q3b
          have hklt : k < st.heap.next := hwf _ (lookupA_mem hc)
          rw [hread₁ k hklt]
          exact hc
        · intro u hu
          have hur : u ∉ rest := fun hh => hu (List.mem_cons_of_mem t hh)
          have hut : u ≠ t := fun hh => hu (by rw [hh]; exact List.mem_cons_self t rest)
          rw [q4 u hur, hv₁, lookupA_cons_ne _ _ _ _ hut]
        · intro x hx
          exact q7 x (List.mem_cons_of_mem _ hx)
        · intro p hp
          rcases q8 p hp with hold | hreg
          · have hsplit : p.1 = st.heap.next ∨ p.1 ∈ st.heap.mem.map Prod.fst := by
              simpa [hst₁, stateCopy, Heap.alloc] using hold
            rcases hsplit with heq | hm
            · refine Or.inr ?_
              rw [heq]
              exact q7 st.heap.next (List.mem_cons_self _ _)
            · exact Or.inl hm
          · exact Or.inr hreg
        · intro hOI
          apply q9
          obtain ⟨hnd', hsg, hvc⟩ := hOI
          have hfresh : st.heap.next ∉ st.storage.registered := by
            intro hmem
            rcases List.mem_append.mp hmem with hh | hh
            · obtain ⟨cs, hcs⟩ := hsg _ hh
              have := hwf _ (lookupA_mem hcs)
              omega
            · obtain ⟨cs, hcs⟩ := hvc _ hh
              have := hwf _ (lookupA_mem hcs)
              omega
          refine ⟨?_, ?_, ?_⟩
          · show (st.storage.ownedArrays ++ st.heap.next :: st.storage.ownedVectorArrays).Nodup
            rw [show st.storage.registered =
              st.storage.ownedArrays ++ st.storage.ownedVectorArrays from rfl] at hnd'
            rw [List.nodup_append] at hnd' ⊢
            obtain ⟨ha, hb', hd⟩ := hnd'
            refine ⟨ha, List.nodup_cons.mpr ⟨fun hh =>
              hfresh (List.mem_append.mpr (Or.inr hh)), hb'⟩, ?_⟩
            intro a ha' hb''
            rcases List.mem_cons.mp hb'' with rfl | hbm
            · exact hfresh (List.mem_append.mpr (Or.inl ha'))
            · exact hd ha' hbm
          · intro x hx
            obtain ⟨cs, hcs⟩ := hsg x hx
            refine ⟨cs, ?_⟩
            have hxlt : x < st.heap.next := hwf _ (lookupA_mem hcs)
            rw [hread₁ x hxlt]
            exact hcs
          · intro x hx
            rcases List.mem_cons.mp hx with rfl | hxm
            · exact ⟨cells, hreadnb⟩
            · obtain ⟨cs, hcs⟩ := hvc x hxm
              refine ⟨cs, ?_⟩
              have hxlt : x < st.heap.next := hwf _ (lookupA_mem hcs)
              rw [hread₁ x hxlt]
              exact hcs
        · intro u hu
          rcases List.mem_cons.mp hu with rfl | hur
          · intro td htd'
            rw [htd] at htd'
            obtain rfl := Option.some_inj.mp htd'
            refine ⟨fun _ nd pi pc hnd' hpi hpc => ?_,
              fun hdum => absurd hfn (by simp [hdum])⟩
            rw [hnode] at hnd'
            obtain rfl := Option.some_inj.mp hnd'
            rw [hpidx] at hpi
            obtain rfl := Option.some_inj.mp hpi
            rw [hpt] at hpc
            obtain rfl := Option.some_inj.mp hpc
            constructor
            · intro hrvi'
              exact (rvi_mv_absurd hrvi' hmv).elim
            · intro _
              refine ⟨st.heap.next, Nat.le_refl _, by omega, ?_, ?_⟩
              · rw [q4 u htnr, hv₁, lookupA_cons_self]
              · rw [q3 st.heap.next (by rw [hnext₁]; omega)]
                exact hreadnb
          · intro td htd'
            have hpost := q10 u hur td htd'
            refine ⟨fun hf nd pi pc hnd' hpi hpc => ?_, hpost.2⟩
            have h2 := hpost.1 hf nd pi pc hnd' hpi hpc
            refine ⟨h2.1, fun hmv' => ?_⟩
            obtain ⟨nb, hlo, hhi, hla, hrd⟩ := h2.2 hmv'
            rw [hnext₁] at hlo
            exact ⟨nb, by omega, hhi, hla, hrd⟩
        · intro u hu nb hnb
          rcases List.mem_cons.mp hu with rfl | hur
          · rw [q4 u htnr, hv₁, lookupA_cons_self] at hnb
            have heq := Option.some_inj.mp hnb
            injection heq with heq'
            rw [← heq']
            exact ⟨Nat.le_refl _, by omega⟩
          · obtain ⟨hlo, hhi⟩ := q11 u hur nb hnb
            rw [hnext₁] at hlo
            exact ⟨by omega, hhi⟩
        · intro t₁ ht₁ t₂ ht₂ hne n₁ n₂ h₁ h₂
          rcases List.mem_cons.mp ht₁ with rfl | h₁r
          · rw [q4 t₁ htnr, hv₁, lookupA_cons_self] at h₁
            have heq := Option.some_inj.mp h₁
            injection heq with heq'
            rcases List.mem_cons.mp ht₂ with rfl | h₂r
            · exact absurd rfl hne
            · obtain ⟨hlo, _⟩ := q11 t₂ h₂r n₂ h₂
              rw [hnext₁] at hlo
              omega
          · rcases List.mem_cons.mp ht₂ with rfl | h₂r
            · rw [q4 t₂ htnr, hv₁, lookupA_cons_self] at h₂
              have heq := Option.some_inj.mp h₂
              injection heq with heq'
              obtain ⟨hlo, _⟩ := q11 t₁ h₁r n₁ h₁
              rw [hnext₁] at hlo
              omega
            · exact q12 t₁ h₁r t₂ h₂r hne n₁ n₂ h₁ h₂
    · -- boundary / dummy target
      have hfn' : tdata.nodeIsFunction = false := by
        cases hh : tdata.nodeIsFunction
        · rfl
        · exact absurd hh hfn
      by_cases hmem : t ∈ net.m_outputs
      · have hstep := forward_vector_target_boundary net b t st tdata htd hfn' hmem hunset
        set st₁ := stateShared st t b with hst₁
        have hv₁ : st₁.storage.values = (t, .vectorRef b) :: st.storage.values := rfl
        have hOK₁ : ∀ u ∈ rest, VecTargetOK net st₁.storage u := by
          intro u hu
          obtain ⟨ud, hud, huns, hufn⟩ := hOK u (List.mem_cons_of_mem t hu)
          refine ⟨ud, hud, ?_, hufn⟩
          rw [hv₁, lookupA_cons_ne _ _ _ _ fun hh => htnr (by rw [← hh]; exact hu)]
          exact huns
        obtain ⟨st', hfold, q1, q2, q3, q3b, q4, q5, q6, q7, q8, q9, q10, q11, q12⟩ :=
          ih st₁ hwf hb hOK₁ hndr
        refine ⟨st', ?_, q1, q2, q3, q3b, ?_, q5, q6, q7, q8, fun h => q9 h, ?_, ?_, ?_⟩
        · rw [List.foldlM_cons, hstep]; exact hfold
        · intro u hu
          have hur : u ∉ rest := fun hh => hu (List.mem_cons_of_mem t hh)
          have hut : u ≠ t := fun hh => hu (by rw [hh]; exact List.mem_cons_self t rest)
          rw [q4 u hur, hv₁, lookupA_cons_ne _ _ _ _ hut]
        · intro u hu
          rcases List.mem_cons.mp hu with rfl | hur
          · intro td htd'
            rw [htd] at htd'
            obtain rfl := Option.some_inj.mp htd'
            refine ⟨fun hf => absurd hf (by simp [hfn']),
              fun _ => ⟨fun _ => ?_, fun hnm => absurd hmem hnm⟩⟩
            rw [q4 u htnr, hv₁, lookupA_cons_self]
          · exact q10 u hur
        · intro u hu nb hnb
          rcases List.mem_cons.mp hu with rfl | hur
          · rw [q4 u htnr, hv₁, lookupA_cons_self] at hnb
            exact absurd hnb (by simp)
          · exact q11 u hur nb hnb
        · intro t₁ ht₁ t₂ ht₂ hne n₁ n₂ h₁ h₂
          rcases List.mem_cons.mp ht₁ with rfl | h₁r
          · rw [q4 t₁ htnr, hv₁, lookupA_cons_self] at h₁
            exact absurd h₁ (by simp)
          · rcases List.mem_cons.mp ht₂ with rfl | h₂r
            · rw [q4 t₂ htnr, hv₁, lookupA_cons_self] at h₂
              exact absurd h₂ (by simp)
            · exact q12 t₁ h₁r t₂ h₂r hne n₁ n₂ h₁ h₂
      · have hstep := forward_vector_target_skip net b t st tdata htd hfn' hmem
        obtain ⟨st', hfold, q1, q2, q3, q3b, q4, q5, q6, q7, q8, q9, q10, q11, q12⟩ :=
          ih st hwf hb (fun u hu => hOK u (List.mem_cons_of_mem t hu)) hndr
        refine ⟨st', ?_, q1, q2, q3, q3b, ?_, q5, q6, q7, q8, q9, ?_, ?_, ?_⟩
        · rw [List.foldlM_cons, hstep]; exact hfold
        · intro u hu
          exact q4 u fun hh => hu (List.mem_cons_of_mem t hh)
        · intro u hu
          rcases List.mem_cons.mp hu with rfl | hur
          · intro td htd'
            rw [htd] at htd'
            obtain rfl := Option.some_inj.mp htd'
            refine ⟨fun hf => absurd hf (by simp [hfn']),
              fun _ => ⟨fun hm => absurd hm hmem, fun _ => ?_⟩⟩
            rw [q4 u htnr]
            exact hunset
          · exact q10 u hur
        · intro u hu nb hnb
          rcases List.mem_cons.mp hu with rfl | hur
          · rw [q4 u htnr, hunset] at hnb
            exact absurd hnb (by simp)
          · exact q11 u hur nb hnb
        · intro t₁ ht₁ t₂ ht₂ hne n₁ n₂ h₁ h₂
          rcases List.mem_cons.mp ht₁ with rfl | h₁r
          · rw [q4 t₁ htnr, hunset] at h₁
            exact absurd h₁ (by simp)
          · rcases List.mem_cons.mp ht₂ with rfl | h₂r
            · rw [q4 t₂ htnr, hunset] at h₂
              exact absurd h₂ (by simp)
            · exact q12 t₁ h₁r t₂ h₂r hne n₁ n₂ h₁ h₂

theorem bind_vector_input_target_rvi (net : MF_EvaluateNetwork) (b t : Nat)
    (st : EvalState) (tdata : MFInputSocketData) (node : MFFunctionNodeData)
    (pidx : Nat) (pt : MFParamCategory)
    (htd : net.graph.inputSockets.get? t = some tdata)
    (hfn : tdata.nodeIsFunction = true)
    (hnode : net.graph.functionNodes.get? tdata.node = some node)
    (hpidx : node.input_param_indices.get? tdata.index = some pidx)
    (hpt : node.function.paramTypes.get? pidx = some pt)
    (hrvi : pt.is_readonly_vector_input = true)
    (hunset : lookupA st.storage.values t = none) :
    bind_vector_input_target net b t st = .ok (stateShared st t b) := by
  rw [List.get?_eq_getElem?] at htd hnode hpidx hpt
  simp only [bind_vector_input_target, List.get?_eq_getElem?, htd, hfn, if_true, hnode,
    hpidx, hpt, hrvi]
  simp only [Storage.set_virtual_list_list_for_input__non_owning, Storage.setVal,
    hunset, Option.isSome_none, Bool.false_eq_true, if_false]
  rfl

theorem bind_vector_input_target_mv (net : MF_EvaluateNetwork) (b t : Nat)
    (st : EvalState) (tdata : MFInputSocketData) (node : MFFunctionNodeData)
    (pidx : Nat) (pt : MFParamCategory) (cells : List (List Val))
    (htd : net.graph.inputSockets.get? t = some tdata)
    (hfn : tdata.nodeIsFunction = true)
    (hnode : net.graph.functionNodes.get? tdata.node = some node)
    (hpidx : node.input_param_indices.get? tdata.index = some pidx)
    (hpt : node.function.paramTypes.get? pidx = some pt)
    (hmv : pt.is_mutable_vector = true)
    (hb : st.heap.read b = some (.vector cells))
    (hunset : lookupA st.storage.values t = none) :
    bind_vector_input_target net b t st = .ok (stateCopy st t cells) := by
  have hnrvi : pt.is_readonly_vector_input = false := by
    cases pt <;> first | rfl | exact absurd hmv (by decide)
  rw [List.get?_eq_getElem?] at htd hnode hpidx hpt
  simp only [bind_vector_input_target, List.get?_eq_getElem?, htd, hfn, if_true, hnode,
    hpidx, hpt, hnrvi, hmv, hb]
  simp only [Storage.set_vector_array_for_input__non_owning, Storage.setVal,
    hunset, Option.isSome_none, Bool.false_eq_true, if_false]
  rfl

theorem bind_vector_input_target_dummy (net : MF_EvaluateNetwork) (b t : Nat)
    (st : EvalState) (tdata : MFInputSocketData)
    (htd : net.graph.inputSockets.get? t = some tdata)
    (hfn : tdata.nodeIsFunction = false)
    (hunset : lookupA st.storage.values t = none) :
    bind_vector_input_target net b t st = .ok (stateShared st t b) := by
  rw [List.get?_eq_getElem?] at htd
  simp only [bind_vector_input_target, List.get?_eq_getElem?, htd, hfn, Bool.false_eq_true,
    if_false]
  simp only [Storage.set_virtual_list_list_for_input__non_owning, Storage.setVal,
    hunset, Option.isSome_none, Bool.false_eq_true, if_false]
  rfl

/-- What one bound network-input vector target looks like afterwards:
like `VecTargetPost` but every non-function (boundary) consumer shares
the caller's collection. -/
def BindTargetPost (net : MF_EvaluateNetwork) (b : Nat) (cells : List (List Val))
    (lo hi : Nat) (σv : List (Nat × StoredVal)) (hp : Heap) (t : Nat) : Prop :=
  ∀ tdata, net.graph.inputSockets.get? t = some tdata →
    (tdata.nodeIsFunction = true →
      ∀ node pidx pt, net.graph.functionNodes.get? tdata.node = some node →
        node.input_param_indices.get? tdata.index = some pidx →
        node.function.paramTypes.get? pidx = some pt →
        (pt.is_readonly_vector_input = true → lookupA σv t = some (.vectorRef b)) ∧
        (pt.is_mutable_vector = true →
          ∃ nb, lo ≤ nb ∧ nb < hi ∧ lookupA σv t = some (.vectorArray nb) ∧
            hp.read nb = some (.vector cells))) ∧
    (tdata.nodeIsFunction = false → lookupA σv t = some (.vectorRef b))

/-- Binding the fan-out targets of a declared vector network input from
the caller's view `b` follows the same aliasing discipline as internal
forwarding: shared non-owning views for read-only and boundary
consumers, fresh private owned deep copies (made eagerly, at
input-binding time) for mutable consumers. -/
theorem bind_vector_targets_fold (net : MF_EvaluateNetwork) (b : Nat)
    (cells : List (List Val)) :
    ∀ (ts : List Nat) (st : EvalState),
      (∀ p ∈ st.heap.mem, p.1 < st.heap.next) →
      st.heap.read b = some (.vector cells) →
      (∀ t ∈ ts, VecTargetOK net st.storage t) →
      ts.Nodup →
      ∃ st', ts.foldlM (fun st t => bind_vector_input_target net b t st) st = .ok st' ∧
        st.heap.next ≤ st'.heap.next ∧
        (∀ p ∈ st'.heap.mem, p.1 < st'.heap.next) ∧
        (∀ k, k < st.heap.next → st'.heap.read k = st.heap.read k) ∧
        (∀ k c, st.heap.read k = some c → st'.heap.read k = some c) ∧
        (∀ u, u ∉ ts → lookupA st'.storage.values u = lookupA st.storage.values u) ∧
        st'.storage.ownedArrays = st.storage.ownedArrays ∧
        st'.invoked = st.invoked ∧
        (∀ x ∈ st.storage.ownedVectorArrays, x ∈ st'.storage.ownedVectorArrays) ∧
        (∀ p ∈ st'.heap.mem,
          p.1 ∈ st.heap.mem.map Prod.fst ∨ p.1 ∈ st'.storage.ownedVectorArrays) ∧
        (OwnedInv st → OwnedInv st') ∧
        (∀ t ∈ ts, BindTargetPost net b cells st.heap.next st'.heap.next
          st'.storage.values st'.heap t) ∧
        (∀ t ∈ ts, ∀ nb, lookupA st'.storage.values t = some (.vectorArray nb) →
          st.heap.next ≤ nb ∧ nb < st'.heap.next) ∧
        (∀ t₁ ∈ ts, ∀ t₂ ∈ ts, t₁ ≠ t₂ →
          ∀ n₁ n₂, lookupA st'.storage.values t₁ = some (.vectorArray n₁) →
            lookupA st'.storage.values t₂ = some (.vectorArray n₂) → n₁ ≠ n₂) := by
  intro ts
  induction ts with
  | nil =>
    intro st hwf hb _ _
    exact ⟨st, rfl, Nat.le_refl _, hwf, fun k _ => rfl, fun k c hc => hc,
      fun u _ => rfl, rfl, rfl,
      fun x hx => hx, fun p hp => Or.inl (List.mem_map_of_mem Prod.fst hp),
      fun h => h, fun t ht => absurd ht (List.not_mem_nil t),
      fun t ht => absurd ht (List.not_mem_nil t),
      fun t₁ ht₁ => absurd ht₁ (List.not_mem_nil t₁)⟩
  | cons t rest ih =>
    intro st hwf hb hOK hnd
    have hbmem : b < st.heap.next := hwf _ (lookupA_mem hb)
    obtain ⟨tdata, htd, hunset, hfnOK⟩ := hOK t (List.mem_cons_self t rest)
    have hndr : rest.Nodup := (List.nodup_cons.mp hnd).2
    have htnr : t ∉ rest := (List.nodup_cons.mp hnd).1
    by_cases hfn : tdata.nodeIsFunction = true
    · obtain ⟨node, pidx, pt, hnode, hpidx, hpt, hcat⟩ := hfnOK hfn
      rcases hcat with hrvi | hmv
      · -- read-only vector input: shared view, no heap change
        have hstep := bind_vector_input_target_rvi net b t st tdata node pidx pt htd hfn
          hnode hpidx hpt hrvi hunset
        set st₁ := stateShared st t b with hst₁
        have hv₁ : st₁.storage.values = (t, .vectorRef b) :: st.storage.values := rfl
        have hOK₁ : ∀ u ∈ rest, VecTargetOK net st₁.storage u := by
          intro u hu
          obtain ⟨ud, hud, huns, hufn⟩ := hOK u (List.mem_cons_of_mem t hu)
          refine ⟨ud, hud, ?_, hufn⟩
          rw [hv₁, lookupA_cons_ne _ _ _ _ fun hh => htnr (by rw [← hh]; exact hu)]
          exact huns
        obtain ⟨st', hfold, q1, q2, q3, q3b, q4, q5, q6, q7, q8, q9, q10, q11, q12⟩ :=
          ih st₁ hwf hb hOK₁ hndr
        refine ⟨st', ?_, q1, q2, q3, q3b, ?_, q5, q6, q7, q8, fun h => q9 h, ?_, ?_, ?_⟩
        · rw [List.foldlM_cons, hstep]; exact hfold
        · intro u hu
          have hur : u ∉ rest := fun hh => hu (List.mem_cons_of_mem t hh)
          have hut : u ≠ t := fun hh => hu (by rw [hh]; exact List.mem_cons_self t rest)
          rw [q4 u hur, hv₁, lookupA_cons_ne _ _ _ _ hut]
        · intro u hu
          rcases List.mem_cons.mp hu with rfl | hur
          · intro td htd'
            rw [htd] at htd'
            obtain rfl := Option.some_inj.mp htd'
            refine ⟨fun _ nd pi pc hnd' hpi hpc => ?_,
              fun hdum => absurd hfn (by simp [hdum])⟩
            rw [hnode] at hnd'
            obtain rfl := Option.some_inj.mp hnd'
            rw [hpidx] at hpi
            obtain rfl := Option.some_inj.mp hpi
            rw [hpt] at hpc
            obtain rfl := Option.some_inj.mp hpc
            constructor
            · intro _
              rw [q4 u htnr, hv₁, lookupA_cons_self]
            · intro hmv'
              exact (rvi_mv_absurd hrvi hmv').elim
          · exact q10 u hur
        · intro u hu nb hnb
          rcases List.mem_cons.mp hu with rfl | hur
          · rw [q4 u htnr, hv₁, lookupA_cons_self] at hnb
            exact absurd hnb (by simp)
          · exact q11 u hur nb hnb
        · intro t₁ ht₁ t₂ ht₂ hne n₁ n₂ h₁ h₂
          rcases List.mem_cons.mp ht₁ with rfl | h₁r
          · rw [q4 t₁ htnr, hv₁, lookupA_cons_self] at h₁
            exact absurd h₁ (by simp)
          · rcases List.mem_cons.mp ht₂ with rfl | h₂r
            · rw [q4 t₂ htnr, hv₁, lookupA_cons_self] at h₂
              exact absurd h₂ (by simp)
            · exact q12 t₁ h₁r t₂ h₂r hne n₁ n₂ h₁ h₂
      · -- mutable vector: fresh private deep copy, eagerly at binding time
        have hstep := bind_vector_input_target_mv net b t st tdata node pidx pt cells htd hfn
          hnode hpidx hpt hmv hb hunset
        set st₁ := stateCopy st t cells with hst₁
        have hv₁ : st₁.storage.values =
            (t, .vectorArray st.heap.next) :: st.storage.values := rfl
        have hnext₁ : st₁.heap.next = st.heap.next + 1 := rfl
        have hwf₁ : ∀ p ∈ st₁.heap.mem, p.1 < st₁.heap.next := by
          intro p hp
          rcases List.mem_cons.mp hp with rfl | hpm
          · simp [hnext₁]
          · exact Nat.lt_succ_of_lt (hwf p hpm)
        have hread₁ : ∀ k, k < st.heap.next → st₁.heap.read k = st.heap.read k := by
          intro k hk
          exact Heap.read_alloc_ne st.heap _ (Nat.ne_of_lt hk)
        have hreadnb : st₁.heap.read st.heap.next = some (.vector cells) := by
          have h := Heap.read_alloc_self st.heap (.vector (vecDeepCopy cells))
          exact h.trans (by rw [vecDeepCopy_eq])
        have hb₁ : st₁.heap.read b = some (.vector cells) := by
          rw [hread₁ b hbmem]; exact hb
        have hOK₁ : ∀ u ∈ rest, VecTargetOK net st₁.storage u := by
          intro u hu
          obtain ⟨ud, hud, huns, hufn⟩ := hOK u (List.mem_cons_of_mem t hu)
          refine ⟨ud, hud, ?_, hufn⟩
          rw [hv₁, lookupA_cons_ne _ _ _ _ fun hh => htnr (by rw [← hh]; exact hu)]
          exact huns
        obtain ⟨st', hfold, q1, q2, q3, q3b, q4, q5, q6, q7, q8, q9, q10, q11, q12⟩ :=
          ih st₁ hwf₁ hb₁ hOK₁ hndr
        rw [hnext₁] at q1
        refine ⟨st', ?_, by omega, q2, ?_, ?_, ?_, q5, q6, ?_, ?_, ?_, ?_, ?_, ?_⟩
        · rw [List.foldlM_cons, hstep]; exact hfold
        · intro k hk
          rw [q3 k (by rw [hnext₁]; omega), hread₁ k hk]
        · intro k c hc
          apply q3b
          have hklt : k < st.heap.next := hwf _ (lookupA_mem hc)
          rw [hread₁ k hklt]
          exact hc
        · intro u hu
          have hur : u ∉ rest := fun hh => hu (List.mem_cons_of_mem t hh)
          have hut : u ≠ t := fun hh => hu (by rw [hh]; exact List.mem_cons_self t rest)
          rw [q4 u hur, hv₁, lookupA_cons_ne _ _ _ _ hut]
        · intro x hx
          exact q7 x (List.mem_cons_of_mem _ hx)
        · intro p hp
          rcases q8 p hp with hold | hreg
          · have hsplit : p.1 = st.heap.next ∨ p.1 ∈ st.heap.mem.map Prod.fst := by
              simpa [hst₁, stateCopy, Heap.alloc] using hold
            rcases hsplit with heq | hm
            · refine Or.inr ?_
              rw [heq]
              exact q7 st.heap.next (List.mem_cons_self _ _)
            · exact Or.inl hm
          · exact Or.inr hreg
        · intro hOI
          apply q9
          obtain ⟨hnd', hsg, hvc⟩ := hOI
          have hfresh : st.heap.next ∉ st.storage.registered := by
            intro hmem
            rcases List.mem_append.mp hmem with hh | hh
            · obtain ⟨cs, hcs⟩ := hsg _ hh
              have := hwf _ (lookupA_mem hcs)
              omega
            · obtain ⟨cs, hcs⟩ := hvc _ hh
              have := hwf _ (lookupA_mem hcs)
              omega
          refine ⟨?_, ?_, ?_⟩
          · show (st.storage.ownedArrays ++ st.heap.next :: st.storage.ownedVectorArrays).Nodup
            rw [show st.storage.registered =
              st.storage.ownedArrays ++ st.storage.ownedVectorArrays from rfl] at hnd'
            rw [List.nodup_append] at hnd' ⊢
            obtain ⟨ha, hb', hd⟩ := hnd'
            refine ⟨ha, List.nodup_cons.mpr ⟨fun hh =>
              hfresh (List.mem_append.mpr (Or.inr hh)), hb'⟩, ?_⟩
            intro a ha' hb''
            rcases List.mem_cons.mp hb'' with rfl | hbm
            · exact hfresh (List.mem_append.mpr (Or.inl ha'))
            · exact hd ha' hbm
          · intro x hx
            obtain ⟨cs, hcs⟩ := hsg x hx
            refine ⟨cs, ?_⟩
            have hxlt : x < st.heap.next := hwf _ (lookupA_mem hcs)
            rw [hread₁ x hxlt]
            exact hcs
          · intro x hx
            rcases List.mem_cons.mp hx with rfl | hxm
            · exact ⟨cells, hreadnb⟩
            · obtain ⟨cs, hcs⟩ := hvc x hxm
              refine ⟨cs, ?_⟩
              have hxlt : x < st.heap.next := hwf _ (lookupA_mem hcs)
              rw [hread₁ x hxlt]
              exact hcs
        · intro u hu
          rcases List.mem_cons.mp hu with rfl | hur
          · intro td htd'
            rw [htd] at htd'
            obtain rfl := Option.some_inj.mp htd'
            refine ⟨fun _ nd pi pc hnd' hpi hpc => ?_,
              fun hdum => absurd hfn (by simp [hdum])⟩
            rw [hnode] at hnd'
            obtain rfl := Option.some_inj.mp hnd'
            rw [hpidx] at hpi
            obtain rfl := Option.some_inj.mp hpi
            rw [hpt] at hpc
            obtain rfl := Option.some_inj.mp hpc
            constructor
            · intro hrvi'
              exact (rvi_mv_absurd hrvi' hmv).elim
            · intro _
              refine ⟨st.heap.next, Nat.le_refl _, by omega, ?_, ?_⟩
              · rw [q4 u htnr, hv₁, lookupA_cons_self]
              · rw [q3 st.heap.next (by rw [hnext₁]; omega)]
                exact hreadnb
          · intro td htd'
            have hpost := q10 u hur td htd'
            refine ⟨fun hf nd pi pc hnd' hpi hpc => ?_, hpost.2⟩
            have h2 := hpost.1 hf nd pi pc hnd' hpi hpc
            refine ⟨h2.1, fun hmv' => ?_⟩
            obtain ⟨nb, hlo, hhi, hla, hrd⟩ := h2.2 hmv'
            rw [hnext₁] at hlo
            exact ⟨nb, by omega, hhi, hla, hrd⟩
        · intro u hu nb hnb
          rcases List.mem_cons.mp hu with rfl | hur
          · rw [q4 u htnr, hv₁, lookupA_cons_self] at hnb
            have heq := Option.some_inj.mp hnb
            injection heq with heq'
            rw [← heq']
            exact ⟨Nat.le_refl _, by omega⟩
          · obtain ⟨hlo, hhi⟩ := q11 u hur nb hnb
            rw [hnext₁] at hlo
            exact ⟨by omega, hhi⟩
        · intro t₁ ht₁ t₂ ht₂ hne n₁ n₂ h₁ h₂
          rcases List.mem_cons.mp ht₁ with rfl | h₁r
          · rw [q4 t₁ htnr, hv₁, lookupA_cons_self] at h₁
            have heq := Option.some_inj.mp h₁
            injection heq with heq'
            rcases List.mem_cons.mp ht₂ with rfl | h₂r
            · exact absurd rfl hne
            · obtain ⟨hlo, _⟩ := q11 t₂ h₂r n₂ h₂
              rw [hnext₁] at hlo
              omega
          · rcases List.mem_cons.mp ht₂ with rfl | h₂r
            · rw [q4 t₂ htnr, hv₁, lookupA_cons_self] at h₂
              have heq := Option.some_inj.mp h₂
              injection heq with heq'
              obtain ⟨hlo, _⟩ := q11 t₁ h₁r n₁ h₁
              rw [hnext₁] at hlo
              omega
            · exact q12 t₁ h₁r t₂ h₂r hne n₁ n₂ h₁ h₂
    · -- boundary / dummy target: always bound to the caller's view
      have hfn' : tdata.nodeIsFunction = false := by
        cases hh : tdata.nodeIsFunction
        · rfl
        · exact absurd hh hfn
      have hstep := bind_vector_input_target_dummy net b t st tdata htd hfn' hunset
      set st₁ := stateShared st t b with hst₁
      have hv₁ : st₁.storage.values = (t, .vectorRef b) :: st.storage.values := rfl
      have hOK₁ : ∀ u ∈ rest, VecTargetOK net st₁.storage u := by
        intro u hu
        obtain ⟨ud, hud, huns, hufn⟩ := hOK u (List.mem_cons_of_mem t hu)
        refine ⟨ud, hud, ?_, hufn⟩
        rw [hv₁, lookupA_cons_ne _ _ _ _ fun hh => htnr (by rw [← hh]; exact hu)]
        exact huns
      obtain ⟨st', hfold, q1, q2, q3, q3b, q4, q5, q6, q7, q8, q9, q10, q11, q12⟩ :=
        ih st₁ hwf hb hOK₁ hndr
      refine ⟨st', ?_, q1, q2, q3, q3b, ?_, q5, q6, q7, q8, fun h => q9 h, ?_, ?_, ?_⟩
      · rw [List.foldlM_cons, hstep]; exact hfold
      · intro u hu
        have hur : u ∉ rest := fun hh => hu (List.mem_cons_of_mem t hh)
        have hut : u ≠ t := fun hh => hu (by rw [hh]; exact List.mem_cons_self t rest)
        rw [q4 u hur, hv₁, lookupA_cons_ne _ _ _ _ hut]
      · intro u hu
        rcases List.mem_cons.mp hu with rfl | hur
        · intro td htd'
          rw [htd] at htd'
          obtain rfl := Option.some_inj.mp htd'
          refine ⟨fun hf => absurd hf (by simp [hfn']), fun _ => ?_⟩
          rw [q4 u htnr, hv₁, lookupA_cons_self]
        · exact q10 u hur
      · intro u hu nb hnb
        rcases List.mem_cons.mp hu with rfl | hur
        · rw [q4 u htnr, hv₁, lookupA_cons_self] at hnb
          exact absurd hnb (by simp)
        · exact q11 u hur nb hnb
      · intro t₁ ht₁ t₂ ht₂ hne n₁ n₂ h₁ h₂
        rcases List.mem_cons.mp ht₁ with rfl | h₁r
        · rw [q4 t₁ htnr, hv₁, lookupA_cons_self] at h₁
          exact absurd h₁ (by simp)
        · rcases List.mem_cons.mp ht₂ with rfl | h₂r
          · rw [q4 t₂ htnr, hv₁, lookupA_cons_self] at h₂
            exact absurd h₂ (by simp)
          · exact q12 t₁ h₁r t₂ h₂r hne n₁ n₂ h₁ h₂

theorem Storage.not_twice_values (σ : Storage) (b : Nat) :
    (σ.take_vector_array_ownership__not_twice b).values = σ.values := by
  unfold Storage.take_vector_array_ownership__not_twice
  split <;> rfl

/-- Every value stored for a fan-out target by the vector forwarding
pass is either the shared collection itself or a fresh private copy. -/
theorem forwarded_value_classification (net : MF_EvaluateNetwork) (b : Nat)
    (cells : List (List Val)) (lo hi : Nat) (σv : List (Nat × StoredVal)) (hp : Heap)
    (t : Nat) (tdata : MFInputSocketData)
    (htd : net.graph.inputSockets.get? t = some tdata)
    (hfnOK : tdata.nodeIsFunction = true →
      ∃ node pidx pt, net.graph.functionNodes.get? tdata.node = some node ∧
        node.input_param_indices.get? tdata.index = some pidx ∧
        node.function.paramTypes.get? pidx = some pt ∧
        (pt.is_readonly_vector_input = true ∨ pt.is_mutable_vector = true))
    (hpost : VecTargetPost net b cells lo hi σv hp t)
    (v : StoredVal) (hv : lookupA σv t = some v) :
    v = .vectorRef b ∨ ∃ n, v = .vectorArray n ∧ lo ≤ n ∧ n < hi := by
  have hpost' := hpost tdata htd
  by_cases hfn : tdata.nodeIsFunction = true
  · obtain ⟨node, pidx, pt, hnode, hpidx, hpt, hcat⟩ := hfnOK hfn
    have hp1 := hpost'.1 hfn node pidx pt hnode hpidx hpt
    rcases hcat with hrvi | hmv
    · rw [hp1.1 hrvi] at hv
      exact Or.inl (Option.some_inj.mp hv).symm
    · obtain ⟨nb, hlo, hhi, hla, _⟩ := hp1.2 hmv
      rw [hla] at hv
      exact Or.inr ⟨nb, (Option.some_inj.mp hv).symm, hlo, hhi⟩
  · have hfn' : tdata.nodeIsFunction = false := by
      cases hh : tdata.nodeIsFunction
      · rfl
      · exact absurd hh hfn
    by_cases hmem : t ∈ net.m_outputs
    · rw [(hpost'.2 hfn').1 hmem] at hv
      exact Or.inl (Option.some_inj.mp hv).symm
    · rw [(hpost'.2 hfn').2 hmem] at hv
      exact absurd hv (by simp)

/-- Like `forwarded_value_classification` for values bound from a
caller-supplied network input. -/
theorem bound_value_classification (net : MF_EvaluateNetwork) (b : Nat)
    (cells : List (List Val)) (lo hi : Nat) (σv : List (Nat × StoredVal)) (hp : Heap)
    (t : Nat) (tdata : MFInputSocketData)
    (htd : net.graph.inputSockets.get? t = some tdata)
    (hfnOK : tdata.nodeIsFunction = true →
      ∃ node pidx pt, net.graph.functionNodes.get? tdata.node = some node ∧
        node.input_param_indices.get? tdata.index = some pidx ∧
        node.function.paramTypes.get? pidx = some pt ∧
        (pt.is_readonly_vector_input = true ∨ pt.is_mutable_vector = true))
    (hpost : BindTargetPost net b cells lo hi σv hp t)
    (v : StoredVal) (hv : lookupA σv t = some v) :
    v = .vectorRef b ∨ ∃ n, v = .vectorArray n ∧ lo ≤ n ∧ n < hi := by
  have hpost' := hpost tdata htd
  by_cases hfn : tdata.nodeIsFunction = true
  · obtain ⟨node, pidx, pt, hnode, hpidx, hpt, hcat⟩ := hfnOK hfn
    have hp1 := hpost'.1 hfn node pidx pt hnode hpidx hpt
    rcases hcat with hrvi | hmv
    · rw [hp1.1 hrvi] at hv
      exact Or.inl (Option.some_inj.mp hv).symm
    · obtain ⟨nb, hlo, hhi, hla, _⟩ := hp1.2 hmv
      rw [hla] at hv
      exact Or.inr ⟨nb, (Option.some_inj.mp hv).symm, hlo, hhi⟩
  · have hfn' : tdata.nodeIsFunction = false := by
      cases hh : tdata.nodeIsFunction
      · rfl
      · exact absurd hh hfn
    rw [hpost'.2 hfn'] at hv
    exact Or.inl (Option.some_inj.mp hv).symm

/-- C1: whenever a vector collection is forwarded to the consumers of an
output socket, or bound from a caller-supplied network input, every
read-only vector consumer (and boundary consumer) is associated with the
very same collection instance (same buffer identity, no copy), and every
mutable-vector consumer is associated with a freshly allocated private
deep copy holding every index's contents; consequently no two consumers
observe the same buffer if one of them may mutate (their buffer
identities differ), and a mutation through one consumer's buffer never
changes the value observed through any other consumer's buffer. -/
theorem C1_vector_fanout_aliasing :
    (∀ (net : MF_EvaluateNetwork) (o b : Nat) (st : EvalState)
      (odata : MFOutputSocketData) (cells : List (List Val)),
      net.graph.outputSockets.get? o = some odata →
      (∀ p ∈ st.heap.mem, p.1 < st.heap.next) →
      st.heap.read b = some (.vector cells) →
      (∀ t ∈ odata.targets, VecTargetOK net st.storage t) →
      odata.targets.Nodup →
      ∃ st', forward_vector_output net o b st = .ok st' ∧
        (∀ t ∈ odata.targets, VecTargetPost net b cells st.heap.next st'.heap.next
          st'.storage.values st'.heap t) ∧
        (∀ t₁ ∈ odata.targets, ∀ t₂ ∈ odata.targets, t₁ ≠ t₂ →
          ∀ v₁ v₂, lookupA st'.storage.values t₁ = some v₁ →
            lookupA st'.storage.values t₂ = some v₂ →
            ((∃ n, v₁ = .vectorArray n) ∨ (∃ n, v₂ = .vectorArray n)) →
            v₁.buf ≠ v₂.buf ∧
            ∀ c, (st'.heap.write v₂.buf c).read v₁.buf = st'.heap.read v₁.buf)) ∧
    (∀ (net : MF_EvaluateNetwork) (b : Nat) (st : EvalState)
      (ts : List Nat) (cells : List (List Val)),
      (∀ p ∈ st.heap.mem, p.1 < st.heap.next) →
      st.heap.read b = some (.vector cells) →
      (∀ t ∈ ts, VecTargetOK net st.storage t) →
      ts.Nodup →
      ∃ st', ts.foldlM (fun st t => bind_vector_input_target net b t st) st = .ok st' ∧
        (∀ t ∈ ts, BindTargetPost net b cells st.heap.next st'.heap.next
          st'.storage.values st'.heap t) ∧
        (∀ t₁ ∈ ts, ∀ t₂ ∈ ts, t₁ ≠ t₂ →
          ∀ v₁ v₂, lookupA st'.storage.values t₁ = some v₁ →
            lookupA st'.storage.values t₂ = some v₂ →
            ((∃ n, v₁ = .vectorArray n) ∨ (∃ n, v₂ = .vectorArray n)) →
            v₁.buf ≠ v₂.buf ∧
            ∀ c, (st'.heap.write v₂.buf c).read v₁.buf = st'.heap.read v₁.buf)) := by
  constructor
  · intro net o b st odata cells ho hwf hb hOK hnd
    have hbmem : b < st.heap.next := hwf _ (lookupA_mem hb)
    rw [List.get?_eq_getElem?] at ho
    have hOK' : ∀ t ∈ odata.targets, VecTargetOK net
        (st.storage.take_vector_array_ownership__not_twice b) t := by
      intro t ht
      obtain ⟨td, h1, h2, h3⟩ := hOK t ht
      refine ⟨td, h1, ?_, h3⟩
      rw [Storage.not_twice_values]
      exact h2
    obtain ⟨st', hfold, q1, q2, q3, q3b, q4, q5, q6, q7, q8, q9, q10, q11, q12⟩ :=
      forward_vector_targets_fold net b cells odata.targets
        { st with storage := st.storage.take_vector_array_ownership__not_twice b }
        hwf hb hOK' hnd
    refine ⟨st', ?_, q10, ?_⟩
    · simp only [forward_vector_output, List.get?_eq_getElem?, ho]
      exact hfold
    · intro t₁ ht₁ t₂ ht₂ hne v₁ v₂ hv₁ hv₂ hva
      obtain ⟨td₁, htd₁, _, hfnOK₁⟩ := hOK t₁ ht₁
      obtain ⟨td₂, htd₂, _, hfnOK₂⟩ := hOK t₂ ht₂
      have hc₁ := forwarded_value_classification net b cells _ _ _ _ t₁ td₁ htd₁ hfnOK₁
        (q10 t₁ ht₁) v₁ hv₁
      have hc₂ := forwarded_value_classification net b cells _ _ _ _ t₂ td₂ htd₂ hfnOK₂
        (q10 t₂ ht₂) v₂ hv₂
      have hneq : v₁.buf ≠ v₂.buf := by
        rcases hc₁ with rfl | ⟨n₁, rfl, hlo₁, hhi₁⟩
        · rcases hc₂ with rfl | ⟨n₂, rfl, hlo₂, hhi₂⟩
          · rcases hva with ⟨n, hn⟩ | ⟨n, hn⟩ <;> simp at hn
          · show b ≠ n₂
            exact Nat.ne_of_lt (Nat.lt_of_lt_of_le hbmem hlo₂)
        · rcases hc₂ with rfl | ⟨n₂, rfl, hlo₂, hhi₂⟩
          · show n₁ ≠ b
            exact Nat.ne_of_gt (Nat.lt_of_lt_of_le hbmem hlo₁)
          · exact q12 t₁ ht₁ t₂ ht₂ hne n₁ n₂ hv₁ hv₂
      exact ⟨hneq, fun c => Heap.read_write_ne st'.heap v₂.buf c hneq⟩
  · intro net b st ts cells hwf hb hOK hnd
    have hbmem : b < st.heap.next := hwf _ (lookupA_mem hb)
    obtain ⟨st', hfold, q1, q2, q3, q3b, q4, q5, q6, q7, q8, q9, q10, q11, q12⟩ :=
      bind_vector_targets_fold net b cells ts st hwf hb hOK hnd
    refine ⟨st', hfold, q10, ?_⟩
    intro t₁ ht₁ t₂ ht₂ hne v₁ v₂ hv₁ hv₂ hva
    obtain ⟨td₁, htd₁, _, hfnOK₁⟩ := hOK t₁ ht₁
    obtain ⟨td₂, htd₂, _, hfnOK₂⟩ := hOK t₂ ht₂
    have hc₁ := bound_value_classification net b cells _ _ _ _ t₁ td₁ htd₁ hfnOK₁
      (q10 t₁ ht₁) v₁ hv₁
    have hc₂ := bound_value_classification net b cells _ _ _ _ t₂ td₂ htd₂ hfnOK₂
      (q10 t₂ ht₂) v₂ hv₂
    have hneq : v₁.buf ≠ v₂.buf := by
      rcases hc₁ with rfl | ⟨n₁, rfl, hlo₁, hhi₁⟩
      · rcases hc₂ with rfl | ⟨n₂, rfl, hlo₂, hhi₂⟩
        · rcases hva with ⟨n, hn⟩ | ⟨n, hn⟩ <;> simp at hn
        · show b ≠ n₂
          exact Nat.ne_of_lt (Nat.lt_of_lt_of_le hbmem hlo₂)
      · rcases hc₂ with rfl | ⟨n₂, rfl, hlo₂, hhi₂⟩
        · show n₁ ≠ b
          exact Nat.ne_of_gt (Nat.lt_of_lt_of_le hbmem hlo₁)
        · exact q12 t₁ ht₁ t₂ ht₂ hne n₁ n₂ hv₁ hv₂
    exact ⟨hneq, fun c => Heap.read_write_ne st'.heap v₂.buf c hneq⟩

/-- A concrete fan-out: output socket 0 feeds input socket 0 (read-only
vector parameter of node 0) and input socket 1 (mutable vector
parameter of node 1). -/
def fanNet : MF_EvaluateNetwork where
  graph :=
    { inputSockets := [⟨true, 0, 0, 0, .Vector⟩, ⟨true, 1, 0, 0, .Vector⟩]
      outputSockets := [⟨true, 2, 0, [0, 1], .Vector⟩]
      functionNodes :=
        [⟨⟨[.ReadonlyVectorInput], fun _ cs => cs⟩, [0], [], [0], []⟩,
         ⟨⟨[.MutableVector], fun _ cs => cs⟩, [1], [], [0], [0]⟩] }
  m_inputs := []
  m_outputs := []

/-- A state holding the collection `[[4], [5]]` in buffer 0. -/
def fanSt : EvalState := ⟨⟨1, [(0, .vector [[4], [5]])]⟩, Storage.empty, []⟩

/-- Witness for C1 at the concrete fan-out network. -/
theorem C1_vector_fanout_aliasing_witness :
    ∃ st', forward_vector_output fanNet 0 0 fanSt = .ok st' ∧
      (∀ t ∈ ([0, 1] : List Nat), VecTargetPost fanNet 0 [[4], [5]] fanSt.heap.next
        st'.heap.next st'.storage.values st'.heap t) ∧
      (∀ t₁ ∈ ([0, 1] : List Nat), ∀ t₂ ∈ ([0, 1] : List Nat), t₁ ≠ t₂ →
        ∀ v₁ v₂, lookupA st'.storage.values t₁ = some v₁ →
          lookupA st'.storage.values t₂ = some v₂ →
          ((∃ n, v₁ = .vectorArray n) ∨ (∃ n, v₂ = .vectorArray n)) →
          v₁.buf ≠ v₂.buf ∧
          ∀ c, (st'.heap.write v₂.buf c).read v₁.buf = st'.heap.read v₁.buf) := by
  have hOK : ∀ t ∈ ([0, 1] : List Nat), VecTargetOK fanNet fanSt.storage t := by
    intro t ht
    fin_cases ht
    · exact ⟨⟨true, 0, 0, 0, .Vector⟩, rfl, rfl, fun _ =>
        ⟨⟨⟨[.ReadonlyVectorInput], fun _ cs => cs⟩, [0], [], [0], []⟩, 0,
          .ReadonlyVectorInput, rfl, rfl, rfl, Or.inl rfl⟩⟩
    · exact ⟨⟨true, 1, 0, 0, .Vector⟩, rfl, rfl, fun _ =>
        ⟨⟨⟨[.MutableVector], fun _ cs => cs⟩, [1], [], [0], [0]⟩, 0,
          .MutableVector, rfl, rfl, rfl, Or.inr rfl⟩⟩
  obtain ⟨st', h1, h2, h3⟩ := C1_vector_fanout_aliasing.1 fanNet 0 0 fanSt
    ⟨true, 2, 0, [0, 1], .Vector⟩ [[4], [5]] rfl (by decide) rfl hOK (by decide)
  exact ⟨st', h1, h2, h3⟩

/-! ## Claim C9: assertion-style failure semantics -/

/-- C9: a parameter category outside the recognized vector kinds at a
vector-forwarding or input-binding dispatch point, and malformed graph
elements encountered during evaluation (an output socket owned by a
non-function node, a socket with no graph entry), make the engine report
an unconditional assertion-style fault (`Fault.assert`, the model of
`BLI_assert(false)`); there is no recoverable runtime error path — every
failure of the engine is a `Fault`, never a recovered value. -/
theorem C9_failure_semantics :
    (∀ (net : MF_EvaluateNetwork) (b t : Nat) (st : EvalState)
      (tdata : MFInputSocketData) (node : MFFunctionNodeData) (pidx : Nat)
      (pt : MFParamCategory),
      net.graph.inputSockets.get? t = some tdata →
      tdata.nodeIsFunction = true →
      net.graph.functionNodes.get? tdata.node = some node →
      node.input_param_indices.get? tdata.index = some pidx →
      node.function.paramTypes.get? pidx = some pt →
      pt.is_readonly_vector_input = false →
      pt.is_mutable_vector = false →
      forward_vector_target net b t st = .error .assert ∧
      bind_vector_input_target net b t st = .error .assert) ∧
    (∀ (net : MF_EvaluateNetwork) (mask : MFMask) (o : Nat) (rest : List SocketRef)
      (st : EvalState) (odata : MFOutputSocketData),
      net.graph.outputSockets.get? o = some odata →
      odata.nodeIsFunction = false →
      schedStep net mask (.output o) rest st = .error .assert) ∧
    (∀ (net : MF_EvaluateNetwork) (mask : MFMask) (s : Nat) (rest : List SocketRef)
      (st : EvalState),
      net.graph.inputSockets.get? s = none →
      schedStep net mask (.input s) rest st = .error .assert) := by
  refine ⟨?_, ?_, ?_⟩
  · intro net b t st tdata node pidx pt htd hfn hnode hpidx hpt hnr hnm
    rw [List.get?_eq_getElem?] at htd hnode hpidx hpt
    constructor
    · simp only [forward_vector_target, List.get?_eq_getElem?, htd, hfn, if_true,
        hnode, hpidx, hpt, hnr, hnm]
      simp
    · simp only [bind_vector_input_target, List.get?_eq_getElem?, htd, hfn, if_true,
        hnode, hpidx, hpt, hnr, hnm]
      simp
  · intro net mask o rest st odata ho hfn
    rw [List.get?_eq_getElem?] at ho
    simp only [schedStep, List.get?_eq_getElem?, ho, hfn, Bool.false_eq_true, if_false]
  · intro net mask s rest st hs
    rw [List.get?_eq_getElem?] at hs
    simp only [schedStep, List.get?_eq_getElem?, hs]

/-- A deliberately malformed network: a vector input socket wired to a
single-output parameter category, a dummy-owned output socket, and a
dangling socket id. -/
def badNet : MF_EvaluateNetwork where
  graph :=
    { inputSockets := [⟨true, 0, 0, 0, .Vector⟩]
      outputSockets := [⟨false, 0, 0, [], .Vector⟩]
      functionNodes := [⟨⟨[.SingleOutput], fun _ cs => cs⟩, [0], [], [0], []⟩] }
  m_inputs := []
  m_outputs := []

/-- Witness for C9 at the malformed network. -/
theorem C9_failure_semantics_witness :
    (forward_vector_target badNet 0 0 fanSt = .error .assert ∧
      bind_vector_input_target badNet 0 0 fanSt = .error .assert) ∧
    schedStep badNet ⟨[0]⟩ (.output 0) [] fanSt = .error .assert ∧
    schedStep badNet ⟨[0]⟩ (.input 5) [] fanSt = .error .assert := by
  refine ⟨?_, ?_, ?_⟩
  · exact C9_failure_semantics.1 badNet 0 0 fanSt ⟨true, 0, 0, 0, .Vector⟩
      ⟨⟨[.SingleOutput], fun _ cs => cs⟩, [0], [], [0], []⟩ 0 .SingleOutput
      rfl rfl rfl rfl rfl rfl rfl
  · exact C9_failure_semantics.2.1 badNet ⟨[0]⟩ 0 [] fanSt ⟨false, 0, 0, [], .Vector⟩
      rfl rfl
  · exact C9_failure_semantics.2.2 badNet ⟨[0]⟩ 5 [] fanSt rfl

/-! ## Forwarding a single output: every target shares the buffer -/

theorem set_single_targets_fold (net : MF_EvaluateNetwork) (b : Nat) :
    ∀ (ts : List Nat) (st : EvalState),
      (∀ t ∈ ts, lookupA st.storage.values t = none) →
      ts.Nodup →
      ∃ st', ts.foldlM (fun st t => do
          let σ ← st.storage.set_virtual_list_for_input__non_owning t b
          pure { st with storage := σ }) st = .ok st' ∧
        st'.heap = st.heap ∧
        st'.storage.ownedArrays = st.storage.ownedArrays ∧
        st'.storage.ownedVectorArrays = st.storage.ownedVectorArrays ∧
        st'.invoked = st.invoked ∧
        (∀ u, u ∉ ts → lookupA st'.storage.values u = lookupA st.storage.values u) ∧
        (∀ t ∈ ts, lookupA st'.storage.values t = some (.singleRef b)) := by
  intro ts
  induction ts with
  | nil =>
    intro st _ _
    exact ⟨st, rfl, rfl, rfl, rfl, rfl, fun u _ => rfl,
      fun t ht => absurd ht (List.not_mem_nil t)⟩
  | cons t rest ih =>
    intro st hunset hnd
    have hndr : rest.Nodup := (List.nodup_cons.mp hnd).2
    have htnr : t ∉ rest := (List.nodup_cons.mp hnd).1
    have hu0 : lookupA st.storage.values t = none := hunset t (List.mem_cons_self t rest)
    have hstep : st.storage.set_virtual_list_for_input__non_owning t b =
        .ok { st.storage with values := (t, .singleRef b) :: st.storage.values } := by
      simp only [Storage.set_virtual_list_for_input__non_owning, Storage.setVal, hu0,
        Option.isSome_none, Bool.false_eq_true, if_false]
    set st₁ : EvalState :=
      { st with storage := { st.storage with values := (t, .singleRef b) :: st.storage.values } }
      with hst₁
    have hun₁ : ∀ u ∈ rest, lookupA st₁.storage.values u = none := by
      intro u hu
      show lookupA ((t, StoredVal.singleRef b) :: st.storage.values) u = none
      rw [lookupA_cons_ne _ _ _ _ fun hh => htnr (by rw [← hh]; exact hu)]
      exact hunset u (List.mem_cons_of_mem t hu)
    obtain ⟨st', hfold, e1, e2, e3, e4, e5, e6⟩ := ih st₁ hun₁ hndr
    refine ⟨st', ?_, e1, e2, e3, e4, ?_, ?_⟩
    · rw [List.foldlM_cons, hstep]
      exact hfold
    · intro u hu
      have hur : u ∉ rest := fun hh => hu (List.mem_cons_of_mem t hh)
      have hut : u ≠ t := fun hh => hu (by rw [hh]; exact List.mem_cons_self t rest)
      rw [e5 u hur]
      show lookupA ((t, StoredVal.singleRef b) :: st.storage.values) u = _
      rw [lookupA_cons_ne _ _ _ _ hut]
    · intro u hu
      rcases List.mem_cons.mp hu with rfl | hur
      · rw [e5 u htnr]
        exact lookupA_cons_self _ _ _
      · exact e6 u hur

/-! ## Assembling one node's parameters (`MFParamsBuilder`) -/

/-- The output socket corresponding to parameter `p` of a node. -/
def OutSock (node : MFFunctionNodeData) (p o : Nat) : Prop :=
  node.outputs.get? (node.output_param_indices.indexOf p) = some o

/-- What processing parameter `p` needs from storage and the graph:
the wired sockets exist and the storage values for already-computed
inputs have the right kinds and readable buffers. -/
def BuildParamOK (node : MFFunctionNodeData) (σ : Storage) (h₀ : Heap) (p : Nat) : Prop :=
  (∃ pt, node.function.paramTypes.get? p = some pt) ∧
  ∀ pt, node.function.paramTypes.get? p = some pt →
    (pt = .ReadonlySingleInput →
      ∃ s bb, node.inputs.get? (node.input_param_indices.indexOf p) = some s ∧
        lookupA σ.values s = some (.singleRef bb) ∧
        ∃ cs, h₀.read bb = some (.single cs)) ∧
    (pt = .ReadonlyVectorInput →
      ∃ s bb, node.inputs.get? (node.input_param_indices.indexOf p) = some s ∧
        (lookupA σ.values s = some (.vectorRef bb) ∨
          lookupA σ.values s = some (.vectorArray bb)) ∧
        ∃ cs, h₀.read bb = some (.vector cs)) ∧
    (pt = .SingleOutput → ∃ o, OutSock node p o) ∧
    (pt = .VectorOutput → ∃ o, OutSock node p o) ∧
    (pt = .MutableVector →
      (∃ s bb, node.inputs.get? (node.input_param_indices.indexOf p) = some s ∧
        lookupA σ.values s = some (.vectorArray bb) ∧
        ∃ cs, h₀.read bb = some (.vector cs)) ∧ ∃ o, OutSock node p o)

/-- Invariant of the remembered single outputs: pairwise distinct fresh
buffers initialized to an uninitialized row of the invocation size. -/
def SingleFwdInv (asz lo hi : Nat) (hp : Heap) (l : List (Nat × Nat)) : Prop :=
  (l.map Prod.snd).Nodup ∧
  ∀ pr ∈ l, lo ≤ pr.2 ∧ pr.2 < hi ∧
    hp.read pr.2 = some (.single (List.replicate asz none))

/-- Invariant of the remembered vector outputs: fresh empty collections
or existing mutable vector arrays from storage. -/
def VectorFwdInv (σ : Storage) (asz lo hi : Nat) (hp : Heap) (l : List (Nat × Nat)) : Prop :=
  ∀ pr ∈ l, (lo ≤ pr.2 ∧ pr.2 < hi ∧
      hp.read pr.2 = some (.vector (List.replicate asz []))) ∨
    ∃ s, lookupA σ.values s = some (.vectorArray pr.2)

/-- Invariant of the assembled parameter list: every buffer readable,
every written buffer either fresh or an existing mutable vector array,
fresh outputs initialized to the invocation size. -/
def BuiltInv (σ : Storage) (asz lo hi : Nat) (hp : Heap) (l : List BuiltParam) : Prop :=
  ∀ bp ∈ l, (∃ c, hp.read bp.buf = some c) ∧
    (bp.cat.isWritten = true → (lo ≤ bp.buf ∧ bp.buf < hi) ∨
      ∃ s, lookupA σ.values s = some (.vectorArray bp.buf)) ∧
    (bp.cat = .SingleOutput → hp.read bp.buf = some (.single (List.replicate asz none))) ∧
    (bp.cat = .VectorOutput → hp.read bp.buf = some (.vector (List.replicate asz [])))

theorem build_param_rsi (node : MFFunctionNodeData) (asz : Nat) (σ : Storage)
    (acc : BuildAcc) (p s bb : Nat)
    (hpt : node.function.paramTypes.get? p = some .ReadonlySingleInput)
    (hs : node.inputs.get? (node.input_param_indices.indexOf p) = some s)
    (hlv : lookupA σ.values s = some (.singleRef bb)) :
    build_param node asz σ acc p =
      .ok { acc with builtParams := acc.builtParams ++ [⟨.ReadonlySingleInput, bb⟩] } := by
  rw [List.get?_eq_getElem?] at hpt hs
  simp only [build_param, List.get?_eq_getElem?, hpt, hs,
    Storage.get_virtual_list_for_input, hlv]
  rfl

theorem build_param_rvi (node : MFFunctionNodeData) (asz : Nat) (σ : Storage)
    (acc : BuildAcc) (p s bb : Nat)
    (hpt : node.function.paramTypes.get? p = some .ReadonlyVectorInput)
    (hs : node.inputs.get? (node.input_param_indices.indexOf p) = some s)
    (hlv : lookupA σ.values s = some (.vectorRef bb) ∨
      lookupA σ.values s = some (.vectorArray bb)) :
    build_param node asz σ acc p =
      .ok { acc with builtParams := acc.builtParams ++ [⟨.ReadonlyVectorInput, bb⟩] } := by
  rw [List.get?_eq_getElem?] at hpt hs
  rcases hlv with hlv | hlv <;>
    simp only [build_param, List.get?_eq_getElem?, hpt, hs,
      Storage.get_virtual_list_list_for_input, hlv] <;> rfl

theorem build_param_so (node : MFFunctionNodeData) (asz : Nat) (σ : Storage)
    (acc : BuildAcc) (p o : Nat)
    (hpt : node.function.paramTypes.get? p = some .SingleOutput)
    (ho : OutSock node p o) :
    build_param node asz σ acc p =
      .ok { acc with
        heap := (acc.heap.alloc (.single (List.replicate asz none))).2,
        builtParams := acc.builtParams ++ [⟨.SingleOutput, acc.heap.next⟩],
        singleFwd := acc.singleFwd ++ [(o, acc.heap.next)] } := by
  rw [List.get?_eq_getElem?] at hpt
  rw [OutSock, List.get?_eq_getElem?] at ho
  simp only [build_param, List.get?_eq_getElem?, hpt, ho]
  rfl

theorem build_param_vo (node : MFFunctionNodeData) (asz : Nat) (σ : Storage)
    (acc : BuildAcc) (p o : Nat)
    (hpt : node.function.paramTypes.get? p = some .VectorOutput)
    (ho : OutSock node p o) :
    build_param node asz σ acc p =
      .ok { acc with
        heap := (acc.heap.alloc (.vector (List.replicate asz []))).2,
        builtParams := acc.builtParams ++ [⟨.VectorOutput, acc.heap.next⟩],
        vectorFwd := acc.vectorFwd ++ [(o, acc.heap.next)] } := by
  rw [List.get?_eq_getElem?] at hpt
  rw [OutSock, List.get?_eq_getElem?] at ho
  simp only [build_param, List.get?_eq_getElem?, hpt, ho]
  rfl

theorem build_param_mv (node : MFFunctionNodeData) (asz : Nat) (σ : Storage)
    (acc : BuildAcc) (p s bb o : Nat)
    (hpt : node.function.paramTypes.get? p = some .MutableVector)
    (hs : node.inputs.get? (node.input_param_indices.indexOf p) = some s)
    (ho : OutSock node p o)
    (hlv : lookupA σ.values s = some (.vectorArray bb)) :
    build_param node asz σ acc p =
      .ok { acc with
        builtParams := acc.builtParams ++ [⟨.MutableVector, bb⟩],
        vectorFwd := acc.vectorFwd ++ [(o, bb)] } := by
  rw [List.get?_eq_getElem?] at hpt hs
  rw [OutSock, List.get?_eq_getElem?] at ho
  simp only [build_param, List.get?_eq_getElem?, hpt, hs, ho,
    Storage.get_vector_array_for_input, hlv]
  rfl

theorem nodup_append_singleton {α : Type} {l : List α} {x : α} (h : l.Nodup)
    (hx : x ∉ l) : (l ++ [x]).Nodup := by
  rw [List.nodup_append]
  refine ⟨h, List.nodup_singleton x, ?_⟩
  intro a ha hax
  rcases List.mem_singleton.mp hax with rfl
  exact hx ha

/-- Processing a list of parameter indices succeeds and yields,
step by step, the assembled parameter list and the single/vector
forwarding lists with their invariants. -/
theorem build_params_fold (node : MFFunctionNodeData) (asz : Nat) (σ : Storage)
    (h₀ : Heap) (lo : Nat) :
    ∀ (ps : List Nat) (acc : BuildAcc),
      (∀ p ∈ ps, BuildParamOK node σ h₀ p) →
      ps.Nodup →
      (∀ p ∈ ps, ∀ p' ∈ ps, p ≠ p' → ∀ o, OutSock node p o → OutSock node p' o → False) →
      (∀ q ∈ acc.heap.mem, q.1 < acc.heap.next) →
      (∀ k c, h₀.read k = some c → acc.heap.read k = some c) →
      lo ≤ acc.heap.next →
      SingleFwdInv asz lo acc.heap.next acc.heap acc.singleFwd →
      VectorFwdInv σ asz lo acc.heap.next acc.heap acc.vectorFwd →
      BuiltInv σ asz lo acc.heap.next acc.heap acc.builtParams →
      ((acc.singleFwd ++ acc.vectorFwd).map Prod.fst).Nodup →
      (∀ pr ∈ acc.singleFwd ++ acc.vectorFwd, ∀ p ∈ ps, ∀ o, OutSock node p o → pr.1 ≠ o) →
      ∃ acc', ps.foldlM (build_param node asz σ) acc = .ok acc' ∧
        acc.heap.next ≤ acc'.heap.next ∧
        (∀ q ∈ acc'.heap.mem, q.1 < acc'.heap.next) ∧
        (∀ k c, acc.heap.read k = some c → acc'.heap.read k = some c) ∧
        (∀ k, k < acc.heap.next → acc'.heap.read k = acc.heap.read k) ∧
        (∀ q ∈ acc'.heap.mem, q ∈ acc.heap.mem ∨
          (acc.heap.next ≤ q.1 ∧
            q.1 ∈ (acc'.singleFwd ++ acc'.vectorFwd).map Prod.snd)) ∧
        (∀ pr ∈ acc.singleFwd, pr ∈ acc'.singleFwd) ∧
        (∀ pr ∈ acc.vectorFwd, pr ∈ acc'.vectorFwd) ∧
        SingleFwdInv asz lo acc'.heap.next acc'.heap acc'.singleFwd ∧
        VectorFwdInv σ asz lo acc'.heap.next acc'.heap acc'.vectorFwd ∧
        BuiltInv σ asz lo acc'.heap.next acc'.heap acc'.builtParams ∧
        ((acc'.singleFwd ++ acc'.vectorFwd).map Prod.fst).Nodup ∧
        (∀ pr ∈ acc'.singleFwd ++ acc'.vectorFwd,
          pr ∈ acc.singleFwd ++ acc.vectorFwd ∨ ∃ p ∈ ps, OutSock node p pr.1) ∧
        (∀ p ∈ ps, ∀ pt, node.function.paramTypes.get? p = some pt →
          pt.hasOutputSocket = true → ∀ o, OutSock node p o →
          ∃ bb, (o, bb) ∈ acc'.singleFwd ∨ (o, bb) ∈ acc'.vectorFwd) := by
  intro ps
  induction ps with
  | nil =>
    intro acc _ _ _ hwf hh₀ hlo hsfi hvfi hbi hsock _
    exact ⟨acc, rfl, Nat.le_refl _, hwf, fun k c hc => hc, fun k _ => rfl,
      fun q hq => Or.inl hq, fun pr hpr => hpr, fun pr hpr => hpr,
      hsfi, hvfi, hbi, hsock,
      fun pr hpr => Or.inl hpr,
      fun p hp => absurd hp (List.not_mem_nil p)⟩
  | cons p rest ih =>
    intro acc hok hnd hinj hwf hh₀ hlo hsfi hvfi hbi hsock hnew
    have hndr : rest.Nodup := (List.nodup_cons.mp hnd).2
    have hpnr : p ∉ rest := (List.nodup_cons.mp hnd).1
    have hokp := hok p (List.mem_cons_self p rest)
    have hinjr : ∀ a ∈ rest, ∀ a' ∈ rest, a ≠ a' → ∀ o, OutSock node a o →
        OutSock node a' o → False := fun a ha a' ha' =>
      hinj a (List.mem_cons_of_mem p ha) a' (List.mem_cons_of_mem p ha')
    -- analysis of the parameter category
    cases hpt : node.function.paramTypes.get? p with
    | none =>
      obtain ⟨pt, hpt'⟩ := hokp.1
      rw [hpt] at hpt'
      exact absurd hpt' (by simp)
    | some pt =>
      have hokp' := hokp.2 pt hpt
      cases pt with
      | ReadonlySingleInput =>
        obtain ⟨s, bb, hs, hlv, cs, hread⟩ := hokp'.1 rfl
        have hstep := build_param_rsi node asz σ acc p s bb hpt hs hlv
        set acc₁ : BuildAcc :=
          { acc with builtParams := acc.builtParams ++ [⟨.ReadonlySingleInput, bb⟩] }
          with hacc₁
        have hbi₁ : BuiltInv σ asz lo acc₁.heap.next acc₁.heap acc₁.builtParams := by
          intro bp hbp
          rcases List.mem_append.mp hbp with hm | hm
          · exact hbi bp hm
          · rcases List.mem_singleton.mp hm with rfl
            refine ⟨⟨.single cs, hh₀ bb _ hread⟩, ?_, ?_, ?_⟩
            · intro hw; simp [MFParamCategory.isWritten] at hw
            · intro hc; simp at hc
            · intro hc; simp at hc
        obtain ⟨acc', hfold, d1, d2, d3, d4, d5, d6, d7, d8, d9, d10, d11, d12, d13⟩ :=
          ih acc₁ (fun a ha => hok a (List.mem_cons_of_mem p ha)) hndr hinjr
            hwf hh₀ hlo hsfi hvfi hbi₁ hsock
            (fun pr hpr a ha => hnew pr hpr a (List.mem_cons_of_mem p ha))
        refine ⟨acc', ?_, d1, d2, d3, d4, d5, d6, d7, d8, d9, d10, d11, ?_, ?_⟩
        · rw [List.foldlM_cons, hstep]; exact hfold
        · intro pr hpr
          rcases d12 pr hpr with hm | ⟨a, ha, hOS⟩
          · exact Or.inl hm
          · exact Or.inr ⟨a, List.mem_cons_of_mem p ha, hOS⟩
        · intro a ha pt' hpt' hout o hOS
          rcases List.mem_cons.mp ha with rfl | har
          · rw [hpt] at hpt'
            obtain rfl := Option.some_inj.mp hpt'
            exact absurd hout (by decide)
          · exact d13 a har pt' hpt' hout o hOS
      | ReadonlyVectorInput =>
        obtain ⟨s, bb, hs, hlv, cs, hread⟩ := hokp'.2.1 rfl
        have hstep := build_param_rvi node asz σ acc p s bb hpt hs hlv
        set acc₁ : BuildAcc :=
          { acc with builtParams := acc.builtParams ++ [⟨.ReadonlyVectorInput, bb⟩] }
          with hacc₁
        have hbi₁ : BuiltInv σ asz lo acc₁.heap.next acc₁.heap acc₁.builtParams := by
          intro bp hbp
          rcases List.mem_append.mp hbp with hm | hm
          · exact hbi bp hm
          · rcases List.mem_singleton.mp hm with rfl
            refine ⟨⟨.vector cs, hh₀ bb _ hread⟩, ?_, ?_, ?_⟩
            · intro hw; simp [MFParamCategory.isWritten] at hw
            · intro hc; simp at hc
            · intro hc; simp at hc
        obtain ⟨acc', hfold, d1, d2, d3, d4, d5, d6, d7, d8, d9, d10, d11, d12, d13⟩ :=
          ih acc₁ (fun a ha => hok a (List.mem_cons_of_mem p ha)) hndr hinjr
            hwf hh₀ hlo hsfi hvfi hbi₁ hsock
            (fun pr hpr a ha => hnew pr hpr a (List.mem_cons_of_mem p ha))
        refine ⟨acc', ?_, d1, d2, d3, d4, d5, d6, d7, d8, d9, d10, d11, ?_, ?_⟩
        · rw [List.foldlM_cons, hstep]; exact hfold
        · intro pr hpr
          rcases d12 pr hpr with hm | ⟨a, ha, hOS⟩
          · exact Or.inl hm
          · exact Or.inr ⟨a, List.mem_cons_of_mem p ha, hOS⟩
        · intro a ha pt' hpt' hout o hOS
          rcases List.mem_cons.mp ha with rfl | har
          · rw [hpt] at hpt'
            obtain rfl := Option.some_inj.mp hpt'
            exact absurd hout (by decide)
          · exact d13 a har pt' hpt' hout o hOS
      | MutableVector =>
        obtain ⟨⟨s, bb, hs, hlv, cs, hread⟩, o, hOSp⟩ := hokp'.2.2.2.2 rfl
        have hstep := build_param_mv node asz σ acc p s bb o hpt hs hOSp hlv
        set acc₁ : BuildAcc :=
          { acc with
            builtParams := acc.builtParams ++ [⟨.MutableVector, bb⟩],
            vectorFwd := acc.vectorFwd ++ [(o, bb)] } with hacc₁
        have honew : ∀ pr ∈ acc.singleFwd ++ acc.vectorFwd, pr.1 ≠ o :=
          fun pr hpr => hnew pr hpr p (List.mem_cons_self p rest) o hOSp
        have hvfi₁ : VectorFwdInv σ asz lo acc₁.heap.next acc₁.heap acc₁.vectorFwd := by
          intro pr hpr
          rcases List.mem_append.mp hpr with hm | hm
          · exact hvfi pr hm
          · rcases List.mem_singleton.mp hm with rfl
            exact Or.inr ⟨s, hlv⟩
        have hbi₁ : BuiltInv σ asz lo acc₁.heap.next acc₁.heap acc₁.builtParams := by
          intro bp hbp
          rcases List.mem_append.mp hbp with hm | hm
          · exact hbi bp hm
          · rcases List.mem_singleton.mp hm with rfl
            refine ⟨⟨.vector cs, hh₀ bb _ hread⟩, ?_, ?_, ?_⟩
            · intro _; exact Or.inr ⟨s, hlv⟩
            · intro hc; simp at hc
            · intro hc; simp at hc
        have hsock₁ : ((acc₁.singleFwd ++ acc₁.vectorFwd).map Prod.fst).Nodup := by
          show ((acc.singleFwd ++ (acc.vectorFwd ++ [(o, bb)])).map Prod.fst).Nodup
          rw [← List.append_assoc, List.map_append]
          refine nodup_append_singleton hsock ?_
          intro hmem
          obtain ⟨pr, hpr, hpr1⟩ := List.mem_map.mp hmem
          exact honew pr hpr hpr1
        have hnew₁ : ∀ pr ∈ acc₁.singleFwd ++ acc₁.vectorFwd, ∀ a ∈ rest, ∀ o',
            OutSock node a o' → pr.1 ≠ o' := by
          intro pr hpr a ha o' hOS'
          have hpr' : pr ∈ acc.singleFwd ++ (acc.vectorFwd ++ [(o, bb)]) := hpr
          rw [← List.append_assoc] at hpr'
          rcases List.mem_append.mp hpr' with hm | hm
          · exact hnew pr hm a (List.mem_cons_of_mem p ha) o' hOS'
          · rcases List.mem_singleton.mp hm with rfl
            show o ≠ o'
            intro hoo
            exact hinj p (List.mem_cons_self p rest) a (List.mem_cons_of_mem p ha)
              (fun hpa => hpnr (hpa ▸ ha)) o hOSp (hoo ▸ hOS')
        obtain ⟨acc', hfold, d1, d2, d3, d4, d5, d6, d7, d8, d9, d10, d11, d12, d13⟩ :=
          ih acc₁ (fun a ha => hok a (List.mem_cons_of_mem p ha)) hndr hinjr
            hwf hh₀ hlo hsfi hvfi₁ hbi₁ hsock₁ hnew₁
        refine ⟨acc', ?_, d1, d2, d3, d4, d5, d6, ?_, d8, d9, d10, d11, ?_, ?_⟩
        · rw [List.foldlM_cons, hstep]; exact hfold
        · intro pr hpr
          exact d7 pr (List.mem_append.mpr (Or.inl hpr))
        · intro pr hpr
          rcases d12 pr hpr with hm | ⟨a, ha, hOS⟩
          · have hm' : pr ∈ acc.singleFwd ++ (acc.vectorFwd ++ [(o, bb)]) := hm
            rw [← List.append_assoc] at hm'
            rcases List.mem_append.mp hm' with hmm | hmm
            · exact Or.inl hmm
            · rcases List.mem_singleton.mp hmm with rfl
              exact Or.inr ⟨p, List.mem_cons_self p rest, hOSp⟩
          · exact Or.inr ⟨a, List.mem_cons_of_mem p ha, hOS⟩
        · intro a ha pt' hpt' hout o' hOS'
          rcases List.mem_cons.mp ha with rfl | har
          · rw [hpt] at hpt'
            obtain rfl := Option.some_inj.mp hpt'
            have : o' = o := by
              rw [OutSock] at hOS' hOSp
              rw [hOSp] at hOS'
              exact (Option.some_inj.mp hOS').symm
            subst this
            exact ⟨bb, Or.inr (d7 (o', bb) (List.mem_append.mpr (Or.inr (List.mem_singleton.mpr rfl))))⟩
          · exact d13 a har pt' hpt' hout o' hOS'
      | SingleOutput =>
        obtain ⟨o, hOSp⟩ := hokp'.2.2.1 rfl
        have hstep := build_param_so node asz σ acc p o hpt hOSp
        set acc₁ : BuildAcc :=
          { acc with
            heap := (acc.heap.alloc (.single (List.replicate asz none))).2,
            builtParams := acc.builtParams ++ [⟨.SingleOutput, acc.heap.next⟩],
            singleFwd := acc.singleFwd ++ [(o, acc.heap.next)] } with hacc₁
        have hnext₁ : acc₁.heap.next = acc.heap.next + 1 := rfl
        have hread₁ : ∀ k, k ≠ acc.heap.next → acc₁.heap.read k = acc.heap.read k :=
          fun k hk => Heap.read_alloc_ne acc.heap _ hk
        have hreadn : acc₁.heap.read acc.heap.next =
            some (.single (List.replicate asz none)) :=
          Heap.read_alloc_self acc.heap _
        have hwf₁ : ∀ q ∈ acc₁.heap.mem, q.1 < acc₁.heap.next := by
          intro q hq
          rcases List.mem_cons.mp hq with rfl | hqm
          · exact Nat.lt_succ_self _
          · exact Nat.lt_succ_of_lt (hwf q hqm)
        have hh₀₁ : ∀ k c, h₀.read k = some c → acc₁.heap.read k = some c := by
          intro k c hc
          have hk := hh₀ k c hc
          have hklt : k < acc.heap.next := hwf _ (lookupA_mem hk)
          rw [hread₁ k (Nat.ne_of_lt hklt)]
          exact hk
        have honew : ∀ pr ∈ acc.singleFwd ++ acc.vectorFwd, pr.1 ≠ o :=
          fun pr hpr => hnew pr hpr p (List.mem_cons_self p rest) o hOSp
        have hsfi₁ : SingleFwdInv asz lo acc₁.heap.next acc₁.heap acc₁.singleFwd := by
          obtain ⟨hndup, hmem⟩ := hsfi
          constructor
          · show ((acc.singleFwd ++ [(o, acc.heap.next)]).map Prod.snd).Nodup
            rw [List.map_append]
            refine nodup_append_singleton hndup ?_
            intro hm
            obtain ⟨pr, hpr, hpr2⟩ := List.mem_map.mp hm
            have := (hmem pr hpr).2.1
            omega
          · intro pr hpr
            rcases List.mem_append.mp hpr with hm | hm
            · obtain ⟨ha, hb', hc⟩ := hmem pr hm
              exact ⟨ha, by omega, by rw [hread₁ pr.2 (Nat.ne_of_lt hb')]; exact hc⟩
            · rcases List.mem_singleton.mp hm with rfl
              exact ⟨hlo, Nat.lt_succ_self _, hreadn⟩
        have hvfi₁ : VectorFwdInv σ asz lo acc₁.heap.next acc₁.heap acc₁.vectorFwd := by
          intro pr hpr
          rcases hvfi pr hpr with ⟨ha, hb', hc⟩ | hex
          · exact Or.inl ⟨ha, by omega, by rw [hread₁ pr.2 (Nat.ne_of_lt hb')]; exact hc⟩
          · exact Or.inr hex
        have hbi₁ : BuiltInv σ asz lo acc₁.heap.next acc₁.heap acc₁.builtParams := by
          intro bp hbp
          rcases List.mem_append.mp hbp with hm | hm
          · obtain ⟨⟨c, hc⟩, hw, hso, hvo⟩ := hbi bp hm
            have hlt : bp.buf < acc.heap.next := hwf _ (lookupA_mem hc)
            refine ⟨⟨c, by rw [hread₁ bp.buf (Nat.ne_of_lt hlt)]; exact hc⟩, ?_, ?_, ?_⟩
            · intro hw'
              rcases hw hw' with ⟨hl, hh⟩ | hex
              · exact Or.inl ⟨hl, by omega⟩
              · exact Or.inr hex
            · intro hcat
              rw [hread₁ bp.buf (Nat.ne_of_lt hlt)]
              exact hso hcat
            · intro hcat
              rw [hread₁ bp.buf (Nat.ne_of_lt hlt)]
              exact hvo hcat
          · rcases List.mem_singleton.mp hm with rfl
            refine ⟨⟨_, hreadn⟩, ?_, ?_, ?_⟩
            · intro _
              exact Or.inl ⟨hlo, Nat.lt_succ_self _⟩
            · intro _
              exact hreadn
            · intro hc
              simp at hc
        have hsock₁ : ((acc₁.singleFwd ++ acc₁.vectorFwd).map Prod.fst).Nodup := by
          show (((acc.singleFwd ++ [(o, acc.heap.next)]) ++ acc.vectorFwd).map Prod.fst).Nodup
          have hperm : List.Perm ((acc.singleFwd ++ [(o, acc.heap.next)]) ++ acc.vectorFwd)
              ((acc.singleFwd ++ acc.vectorFwd) ++ [(o, acc.heap.next)]) := by
            have h1 : (acc.singleFwd ++ [(o, acc.heap.next)]) ++ acc.vectorFwd =
                acc.singleFwd ++ ([(o, acc.heap.next)] ++ acc.vectorFwd) := by
              rw [List.append_assoc]
            have h2 : (acc.singleFwd ++ acc.vectorFwd) ++ [(o, acc.heap.next)] =
                acc.singleFwd ++ (acc.vectorFwd ++ [(o, acc.heap.next)]) := by
              rw [List.append_assoc]
            rw [h1, h2]
            exact List.Perm.append_left _ List.perm_append_comm
          refine ((hperm.map Prod.fst).nodup_iff).mpr ?_
          rw [List.map_append]
          refine nodup_append_singleton hsock ?_
          intro hm
          obtain ⟨pr, hpr, hpr1⟩ := List.mem_map.mp hm
          exact honew pr hpr hpr1
        have hnew₁ : ∀ pr ∈ acc₁.singleFwd ++ acc₁.vectorFwd, ∀ a ∈ rest, ∀ o',
            OutSock node a o' → pr.1 ≠ o' := by
          intro pr hpr a ha o' hOS'
          have hpr' : pr ∈ (acc.singleFwd ++ [(o, acc.heap.next)]) ++ acc.vectorFwd := hpr
          rcases List.mem_append.mp hpr' with hm | hm
          · rcases List.mem_append.mp hm with hmm | hmm
            · exact hnew pr (List.mem_append.mpr (Or.inl hmm)) a
                (List.mem_cons_of_mem p ha) o' hOS'
            · rcases List.mem_singleton.mp hmm with rfl
              show o ≠ o'
              intro hoo
              exact hinj p (List.mem_cons_self p rest) a (List.mem_cons_of_mem p ha)
                (fun hpa => hpnr (hpa ▸ ha)) o hOSp (hoo ▸ hOS')
          · exact hnew pr (List.mem_append.mpr (Or.inr hm)) a
              (List.mem_cons_of_mem p ha) o' hOS'
        obtain ⟨acc', hfold, d1, d2, d3, d4, d5, d6, d7, d8, d9, d10, d11, d12, d13⟩ :=
          ih acc₁ (fun a ha => hok a (List.mem_cons_of_mem p ha)) hndr hinjr
            hwf₁ hh₀₁ (by omega) hsfi₁ hvfi₁ hbi₁ hsock₁ hnew₁
        rw [hnext₁] at d1
        refine ⟨acc', ?_, by omega, d2, ?_, ?_, ?_, ?_, d7, d8, d9, d10, d11, ?_, ?_⟩
        · rw [List.foldlM_cons, hstep]; exact hfold
        · intro k c hc
          apply d3
          have hklt : k < acc.heap.next := hwf _ (lookupA_mem hc)
          rw [hread₁ k (Nat.ne_of_lt hklt)]
          exact hc
        · intro k hk
          rw [d4 k (by rw [hnext₁]; omega), hread₁ k (Nat.ne_of_lt hk)]
        · intro q hq
          rcases d5 q hq with hm | ⟨hge, hmem⟩
          · rcases List.mem_cons.mp hm with rfl | hmm
            · refine Or.inr ⟨Nat.le_refl _, ?_⟩
              have : (o, acc.heap.next) ∈ acc'.singleFwd :=
                d6 (o, acc.heap.next) (List.mem_append.mpr (Or.inr (List.mem_singleton.mpr rfl)))
              rw [List.map_append]
              exact List.mem_append.mpr (Or.inl (List.mem_map.mpr ⟨_, this, rfl⟩))
            · exact Or.inl hmm
          · exact Or.inr ⟨by omega, hmem⟩
        · intro pr hpr
          exact d6 pr (List.mem_append.mpr (Or.inl hpr))
        · intro pr hpr
          rcases d12 pr hpr with hm | ⟨a, ha, hOS⟩
          · rcases List.mem_append.mp hm with hmm | hmm
            · rcases List.mem_append.mp hmm with h3 | h3
              · exact Or.inl (List.mem_append.mpr (Or.inl h3))
              · rcases List.mem_singleton.mp h3 with rfl
                exact Or.inr ⟨p, List.mem_cons_self p rest, hOSp⟩
            · exact Or.inl (List.mem_append.mpr (Or.inr hmm))
          · exact Or.inr ⟨a, List.mem_cons_of_mem p ha, hOS⟩
        · intro a ha pt' hpt' hout o' hOS'
          rcases List.mem_cons.mp ha with rfl | har
          · rw [hpt] at hpt'
            obtain rfl := Option.some_inj.mp hpt'
            have : o' = o := by
              rw [OutSock] at hOS' hOSp
              rw [hOSp] at hOS'
              exact (Option.some_inj.mp hOS').symm
            subst this
            refine ⟨acc.heap.next, Or.inl (d6 (o', acc.heap.next) ?_)⟩
            exact List.mem_append.mpr (Or.inr (List.mem_singleton.mpr rfl))
          · exact d13 a har pt' hpt' hout o' hOS'
      | VectorOutput =>
        obtain ⟨o, hOSp⟩ := hokp'.2.2.2.1 rfl
        have hstep := build_param_vo node asz σ acc p o hpt hOSp
        set acc₁ : BuildAcc :=
          { acc with
            heap := (acc.heap.alloc (.vector (List.replicate asz []))).2,
            builtParams := acc.builtParams ++ [⟨.VectorOutput, acc.heap.next⟩],
            vectorFwd := acc.vectorFwd ++ [(o, acc.heap.next)] } with hacc₁
        have hnext₁ : acc₁.heap.next = acc.heap.next + 1 := rfl
        have hread₁ : ∀ k, k ≠ acc.heap.next → acc₁.heap.read k = acc.heap.read k :=
          fun k hk => Heap.read_alloc_ne acc.heap _ hk
        have hreadn : acc₁.heap.read acc.heap.next =
            some (.vector (List.replicate asz [])) :=
          Heap.read_alloc_self acc.heap _
        have hwf₁ : ∀ q ∈ acc₁.heap.mem, q.1 < acc₁.heap.next := by
          intro q hq
          rcases List.mem_cons.mp hq with rfl | hqm
          · exact Nat.lt_succ_self _
          · exact Nat.lt_succ_of_lt (hwf q hqm)
        have hh₀₁ : ∀ k c, h₀.read k = some c → acc₁.heap.read k = some c := by
          intro k c hc
          have hk := hh₀ k c hc
          have hklt : k < acc.heap.next := hwf _ (lookupA_mem hk)
          rw [hread₁ k (Nat.ne_of_lt hklt)]
          exact hk
        have honew : ∀ pr ∈ acc.singleFwd ++ acc.vectorFwd, pr.1 ≠ o :=
          fun pr hpr => hnew pr hpr p (List.mem_cons_self p rest) o hOSp
        have hsfi₁ : SingleFwdInv asz lo acc₁.heap.next acc₁.heap acc₁.singleFwd := by
          obtain ⟨hndup, hmem⟩ := hsfi
          refine ⟨hndup, ?_⟩
          intro pr hpr
          obtain ⟨ha, hb', hc⟩ := hmem pr hpr
          exact ⟨ha, by omega, by rw [hread₁ pr.2 (Nat.ne_of_lt hb')]; exact hc⟩
        have hvfi₁ : VectorFwdInv σ asz lo acc₁.heap.next acc₁.heap acc₁.vectorFwd := by
          intro pr hpr
          rcases List.mem_append.mp hpr with hm | hm
          · rcases hvfi pr hm with ⟨ha, hb', hc⟩ | hex
            · exact Or.inl ⟨ha, by omega, by rw [hread₁ pr.2 (Nat.ne_of_lt hb')]; exact hc⟩
            · exact Or.inr hex
          · rcases List.mem_singleton.mp hm with rfl
            exact Or.inl ⟨hlo, Nat.lt_succ_self _, hreadn⟩
        have hbi₁ : BuiltInv σ asz lo acc₁.heap.next acc₁.heap acc₁.builtParams := by
          intro bp hbp
          rcases List.mem_append.mp hbp with hm | hm
          · obtain ⟨⟨c, hc⟩, hw, hso, hvo⟩ := hbi bp hm
            have hlt : bp.buf < acc.heap.next := hwf _ (lookupA_mem hc)
            refine ⟨⟨c, by rw [hread₁ bp.buf (Nat.ne_of_lt hlt)]; exact hc⟩, ?_, ?_, ?_⟩
            · intro hw'
              rcases hw hw' with ⟨hl, hh⟩ | hex
              · exact Or.inl ⟨hl, by omega⟩
              · exact Or.inr hex
            · intro hcat
              rw [hread₁ bp.buf (Nat.ne_of_lt hlt)]
              exact hso hcat
            · intro hcat
              rw [hread₁ bp.buf (Nat.ne_of_lt hlt)]
              exact hvo hcat
          · rcases List.mem_singleton.mp hm with rfl
            refine ⟨⟨_, hreadn⟩, ?_, ?_, ?_⟩
            · intro _
              exact Or.inl ⟨hlo, Nat.lt_succ_self _⟩
            · intro hc
              simp at hc
            · intro _
              exact hreadn
        have hsock₁ : ((acc₁.singleFwd ++ acc₁.vectorFwd).map Prod.fst).Nodup := by
          show ((acc.singleFwd ++ (acc.vectorFwd ++ [(o, acc.heap.next)])).map Prod.fst).Nodup
          rw [← List.append_assoc, List.map_append]
          refine nodup_append_singleton hsock ?_
          intro hmem
          obtain ⟨pr, hpr, hpr1⟩ := List.mem_map.mp hmem
          exact honew pr hpr hpr1
        have hnew₁ : ∀ pr ∈ acc₁.singleFwd ++ acc₁.vectorFwd, ∀ a ∈ rest, ∀ o',
            OutSock node a o' → pr.1 ≠ o' := by
          intro pr hpr a ha o' hOS'
          have hpr' : pr ∈ acc.singleFwd ++ (acc.vectorFwd ++ [(o, acc.heap.next)]) := hpr
          rw [← List.append_assoc] at hpr'
          rcases List.mem_append.mp hpr' with hm | hm
          · exact hnew pr hm a (List.mem_cons_of_mem p ha) o' hOS'
          · rcases List.mem_singleton.mp hm with rfl
            show o ≠ o'
            intro hoo
            exact hinj p (List.mem_cons_self p rest) a (List.mem_cons_of_mem p ha)
              (fun hpa => hpnr (hpa ▸ ha)) o hOSp (hoo ▸ hOS')
        obtain ⟨acc', hfold, d1, d2, d3, d4, d5, d6, d7, d8, d9, d10, d11, d12, d13⟩ :=
          ih acc₁ (fun a ha => hok a (List.mem_cons_of_mem p ha)) hndr hinjr
            hwf₁ hh₀₁ (by omega) hsfi₁ hvfi₁ hbi₁ hsock₁ hnew₁
        rw [hnext₁] at d1
        refine ⟨acc', ?_, by omega, d2, ?_, ?_, ?_, d6, ?_, d8, d9, d10, d11, ?_, ?_⟩
        · rw [List.foldlM_cons, hstep]; exact hfold
        · intro k c hc
          apply d3
          have hklt : k < acc.heap.next := hwf _ (lookupA_mem hc)
          rw [hread₁ k (Nat.ne_of_lt hklt)]
          exact hc
        · intro k hk
          rw [d4 k (by rw [hnext₁]; omega), hread₁ k (Nat.ne_of_lt hk)]
        · intro q hq
          rcases d5 q hq with hm | ⟨hge, hmem⟩
          · rcases List.mem_cons.mp hm with rfl | hmm
            · refine Or.inr ⟨Nat.le_refl _, ?_⟩
              have : (o, acc.heap.next) ∈ acc'.vectorFwd :=
                d7 (o, acc.heap.next) (List.mem_append.mpr (Or.inr (List.mem_singleton.mpr rfl)))
              rw [List.map_append]
              exact List.mem_append.mpr (Or.inr (List.mem_map.mpr ⟨_, this, rfl⟩))
            · exact Or.inl hmm
          · exact Or.inr ⟨by omega, hmem⟩
        · intro pr hpr
          exact d7 pr (List.mem_append.mpr (Or.inl hpr))
        · intro pr hpr
          rcases d12 pr hpr with hm | ⟨a, ha, hOS⟩
          · have hm' : pr ∈ acc.singleFwd ++ (acc.vectorFwd ++ [(o, acc.heap.next)]) := hm
            rw [← List.append_assoc] at hm'
            rcases List.mem_append.mp hm' with hmm | hmm
            · exact Or.inl hmm
            · rcases List.mem_singleton.mp hmm with rfl
              exact Or.inr ⟨p, List.mem_cons_self p rest, hOSp⟩
          · exact Or.inr ⟨a, List.mem_cons_of_mem p ha, hOS⟩
        · intro a ha pt' hpt' hout o' hOS'
          rcases List.mem_cons.mp ha with rfl | har
          · rw [hpt] at hpt'
            obtain rfl := Option.some_inj.mp hpt'
            have : o' = o := by
              rw [OutSock] at hOS' hOSp
              rw [hOSp] at hOS'
              exact (Option.some_inj.mp hOS').symm
            subst this
            refine ⟨acc.heap.next, Or.inr (d7 (o', acc.heap.next) ?_)⟩
            exact List.mem_append.mpr (Or.inr (List.mem_singleton.mpr rfl))
          · exact d13 a har pt' hpt' hout o' hOS'

/-! ## Running the leaf function and writing results back -/

theorem sameShape_symm {a b : BufContent} (h : sameShape a b) : sameShape b a := by
  cases a <;> cases b <;> simp_all [sameShape]

theorem sameShape_trans {a b c : BufContent} (h1 : sameShape a b)
    (h2 : sameShape b c) : sameShape a c := by
  cases a <;> cases b <;> cases c <;> simp_all [sameShape]

theorem writeResults_next : ∀ (built : List BuiltParam) (results : List BufContent)
    (hp : Heap), (writeResults built results hp).next = hp.next := by
  intro built
  induction built with
  | nil => intro results hp; cases results <;> rfl
  | cons bp bps ih =>
    intro results hp
    cases results with
    | nil => rfl
    | cons r rs =>
      show (writeResults bps rs _).next = hp.next
      rw [ih]
      by_cases hw : bp.cat.isWritten <;> simp [hw, Heap.write]

theorem writeResults_keys : ∀ (built : List BuiltParam) (results : List BufContent)
    (hp : Heap), (writeResults built results hp).mem.map Prod.fst = hp.mem.map Prod.fst := by
  intro built
  induction built with
  | nil => intro results hp; cases results <;> rfl
  | cons bp bps ih =>
    intro results hp
    cases results with
    | nil => rfl
    | cons r rs =>
      show (writeResults bps rs _).mem.map Prod.fst = hp.mem.map Prod.fst
      rw [ih]
      by_cases hw : bp.cat.isWritten <;> simp [hw, Heap.write, writeA_keys]

theorem writeResults_read_ne : ∀ (built : List BuiltParam) (results : List BufContent)
    (hp : Heap) (k : Nat),
    (∀ bp ∈ built, bp.cat.isWritten = true → k ≠ bp.buf) →
    (writeResults built results hp).read k = hp.read k := by
  intro built
  induction built with
  | nil => intro results hp k _; cases results <;> rfl
  | cons bp bps ih =>
    intro results hp k hk
    cases results with
    | nil => rfl
    | cons r rs =>
      show (writeResults bps rs _).read k = hp.read k
      rw [ih rs _ k (fun b hb => hk b (List.mem_cons_of_mem bp hb))]
      by_cases hw : bp.cat.isWritten
      · simp only [hw, if_true]
        exact Heap.read_write_ne hp bp.buf r (hk bp (List.mem_cons_self bp bps) hw)
      · simp [hw]

theorem writeResults_isSome : ∀ (built : List BuiltParam) (results : List BufContent)
    (hp : Heap) (k : Nat),
    ((writeResults built results hp).read k).isSome = (hp.read k).isSome := by
  intro built
  induction built with
  | nil => intro results hp k; cases results <;> rfl
  | cons bp bps ih =>
    intro results hp k
    cases results with
    | nil => rfl
    | cons r rs =>
      show ((writeResults bps rs _).read k).isSome = (hp.read k).isSome
      rw [ih]
      by_cases hw : bp.cat.isWritten
      · simp only [hw, if_true]
        exact lookupA_isSome_writeA hp.mem bp.buf r k
      · simp [hw]

theorem writeResults_shape_stable :
    ∀ (built : List BuiltParam) (results : List BufContent) (hp : Heap),
      (∀ i bp r c, built.get? i = some bp → results.get? i = some r →
        hp.read bp.buf = some c → sameShape c r) →
      ∀ k c', (writeResults built results hp).read k = some c' →
        ∃ c, hp.read k = some c ∧ (c' = c ∨ sameShape c c') := by
  intro built
  induction built with
  | nil =>
    intro results hp _ k c' h
    cases results <;> exact ⟨c', h, Or.inl rfl⟩
  | cons bp bps ih =>
    intro results hp hsc k c' h
    cases results with
    | nil => exact ⟨c', h, Or.inl rfl⟩
    | cons r rs =>
      have hstep : writeResults (bp :: bps) (r :: rs) hp =
          writeResults bps rs (if bp.cat.isWritten then hp.write bp.buf r else hp) := rfl
      rw [hstep] at h
      have hsc₁ : ∀ i bp' r' c, bps.get? i = some bp' → rs.get? i = some r' →
          (if bp.cat.isWritten then hp.write bp.buf r else hp).read bp'.buf = some c →
          sameShape c r' := by
        intro i bp' r' c hbp' hr' hread
        have horig := hsc (i + 1) bp' r' c hbp' hr'
        by_cases hw : bp.cat.isWritten
        · rw [if_pos hw] at hread
          by_cases hbuf : bp'.buf = bp.buf
          · rw [hbuf, Heap.read_write_self] at hread
            by_cases hs : (hp.read bp.buf).isSome
            · rw [if_pos hs] at hread
              have hrc : r = c := Option.some_inj.mp hread
              subst hrc
              obtain ⟨c₀, hc₀⟩ := Option.isSome_iff_exists.mp hs
              have h1 : sameShape c₀ r := hsc 0 bp r c₀ rfl rfl hc₀
              have h2 : sameShape c₀ r' := by
                apply hsc (i + 1) bp' r' c₀ hbp' hr'
                rw [hbuf]
                exact hc₀
              exact sameShape_trans (sameShape_symm h1) h2
            · rw [if_neg hs] at hread
              exact absurd hread (by simp)
          · rw [Heap.read_write_ne hp bp.buf r hbuf] at hread
            exact horig hread
        · rw [if_neg hw] at hread
          exact horig hread
      obtain ⟨c₁, hc₁, hrel⟩ := ih rs _ hsc₁ k c' h
      by_cases hw : bp.cat.isWritten
      · rw [if_pos hw] at hc₁
        by_cases hbuf : k = bp.buf
        · rw [hbuf, Heap.read_write_self] at hc₁
          by_cases hs : (hp.read bp.buf).isSome
          · rw [if_pos hs] at hc₁
            have hrc : r = c₁ := Option.some_inj.mp hc₁
            subst hrc
            obtain ⟨c₀, hc₀⟩ := Option.isSome_iff_exists.mp hs
            have h1 : sameShape c₀ r := hsc 0 bp r c₀ rfl rfl hc₀
            refine ⟨c₀, by rw [hbuf]; exact hc₀, Or.inr ?_⟩
            rcases hrel with rfl | hss
            · exact h1
            · exact sameShape_trans h1 hss
          · rw [if_neg hs] at hc₁
            exact absurd hc₁ (by simp)
        · rw [Heap.read_write_ne hp bp.buf r hbuf] at hc₁
          exact ⟨c₁, hc₁, hrel⟩
      · rw [if_neg hw] at hc₁
        exact ⟨c₁, hc₁, hrel⟩

theorem mapM_reads_ok (hp : Heap) :
    ∀ built : List BuiltParam,
      (∀ bp ∈ built, ∃ c, hp.read bp.buf = some c) →
      ∃ cs : List BufContent,
        built.mapM (fun p => match hp.read p.buf with
          | some c => (.ok c : Except Fault BufContent)
          | none => (.error .assert : Except Fault BufContent)) = .ok cs ∧
        cs.length = built.length ∧
        ∀ i bp, built.get? i = some bp → hp.read bp.buf = cs.get? i := by
  intro built
  induction built with
  | nil =>
    intro _
    exact ⟨[], rfl, rfl, fun i bp h => by simp at h⟩
  | cons bp bps ih =>
    intro hread
    obtain ⟨c, hc⟩ := hread bp (List.mem_cons_self bp bps)
    obtain ⟨cs, hcs, hlen, hpt⟩ := ih (fun b hb => hread b (List.mem_cons_of_mem bp hb))
    refine ⟨c :: cs, ?_, by simp [hlen], ?_⟩
    · rw [List.mapM_cons, hc, hcs]
      rfl
    · intro i b hb
      cases i with
      | zero =>
        obtain rfl := Option.some_inj.mp hb
        simpa using hc
      | succ i => simpa using hpt i b (by simpa using hb)

/-- Invoking the leaf function: reads succeed, the heap keeps its keys
and key count, only written parameters' buffers change, and every
buffer's content keeps its category and outer length
(`ImplWF`). -/
theorem runFunction_ok (f : MultiFunction) (mask : MFMask) (built : List BuiltParam)
    (hp : Heap) (hwf : ImplWF f)
    (hread : ∀ bp ∈ built, ∃ c, hp.read bp.buf = some c) :
    ∃ h', runFunction f mask built hp = .ok h' ∧
      h'.next = hp.next ∧
      h'.mem.map Prod.fst = hp.mem.map Prod.fst ∧
      (∀ k, (∀ bp ∈ built, bp.cat.isWritten = true → k ≠ bp.buf) →
        h'.read k = hp.read k) ∧
      (∀ k, (h'.read k).isSome = (hp.read k).isSome) ∧
      (∀ k c', h'.read k = some c' → ∃ c, hp.read k = some c ∧ (c' = c ∨ sameShape c c')) := by
  obtain ⟨cs, hcs, hlen, hpt⟩ := mapM_reads_ok hp built hread
  refine ⟨writeResults built (f.impl mask.indices cs) hp, ?_, writeResults_next _ _ _,
    writeResults_keys _ _ _, fun k hk => writeResults_read_ne _ _ _ k hk,
    fun k => writeResults_isSome _ _ _ k, ?_⟩
  · rw [runFunction, hcs]
    rfl
  · refine writeResults_shape_stable built (f.impl mask.indices cs) hp ?_
    intro i bp r c hbp hr hc
    have h1 := hpt i bp hbp
    rw [hc] at h1
    exact (hwf mask.indices cs).2 i c r h1.symm hr

/-! ## The scheduler loop as a step relation -/

/-- Iterated successful scheduler iterations, from one stack/state pair
to another. -/
inductive Steps (net : MF_EvaluateNetwork) (mask : MFMask) :
    (List SocketRef × EvalState) → (List SocketRef × EvalState) → Prop
  | refl (a : List SocketRef × EvalState) : Steps net mask a a
  | head {top : SocketRef} {rest : List SocketRef} {st : EvalState}
      {c b : List SocketRef × EvalState} :
      schedStep net mask top rest st = .ok c → Steps net mask c b →
      Steps net mask (top :: rest, st) b

theorem Steps.comp {net : MF_EvaluateNetwork} {mask : MFMask}
    {a b c : List SocketRef × EvalState} (h1 : Steps net mask a b)
    (h2 : Steps net mask b c) : Steps net mask a c := by
  induction h1 with
  | refl a => exact h2
  | head hstep _ ih => exact Steps.head hstep (ih h2)

/-- A step path ending with the empty stack is realized by `evalLoop`
with enough fuel. -/
theorem evalLoop_of_steps (net : MF_EvaluateNetwork) (mask : MFMask) :
    ∀ a b : List SocketRef × EvalState, Steps net mask a b → b.1 = [] →
      ∃ fuel, evalLoop net mask fuel a.1 a.2 = .ok b.2 := by
  intro a b h
  induction h with
  | refl a =>
    intro hnil
    obtain ⟨stk, st⟩ := a
    simp only at hnil
    subst hnil
    exact ⟨0, rfl⟩
  | head hstep _ ih =>
    intro hnil
    obtain ⟨fuel, hf⟩ := ih hnil
    refine ⟨fuel + 1, ?_⟩
    show (do
      let (stack', st') ← schedStep _ _ _ _ _
      evalLoop _ _ fuel stack' st') = _
    rw [hstep]
    exact hf

/-- `evalLoop` is deterministic along a step path: any successful run
from the same configuration returns the path's final state. -/
theorem evalLoop_agrees (net : MF_EvaluateNetwork) (mask : MFMask) :
    ∀ a b : List SocketRef × EvalState, Steps net mask a b → b.1 = [] →
      ∀ fuel r, evalLoop net mask fuel a.1 a.2 = .ok r → r = b.2 := by
  intro a b h
  induction h with
  | refl a =>
    intro hnil fuel r hr
    obtain ⟨stk, st⟩ := a
    simp only at hnil
    subst hnil
    cases fuel <;> exact (Option.some_inj.mp (congrArg (fun e => Except.toOption e) hr)).symm ▸
      (by cases hr; rfl)
  | head hstep _ ih =>
    intro hnil fuel r hr
    cases fuel with
    | zero => exact absurd hr (by simp [evalLoop])
    | succ fuel =>
      have hr' : (do
          let (stack', st') ← schedStep net mask _ _ _
          evalLoop net mask fuel stack' st') = .ok r := hr
      rw [hstep] at hr'
      exact ih hnil fuel r hr'

/-! ## Characterizing single scheduler iterations -/

theorem schedStep_input_computed (net : MF_EvaluateNetwork) (mask : MFMask)
    (s : Nat) (rest : List SocketRef) (st : EvalState) (sdata : MFInputSocketData)
    (hs : net.graph.inputSockets.get? s = some sdata)
    (hc : st.storage.input_is_computed s = true) :
    schedStep net mask (.input s) rest st = .ok (rest, st) := by
  rw [List.get?_eq_getElem?] at hs
  simp only [schedStep, List.get?_eq_getElem?, hs, hc, if_true]

theorem schedStep_input_uncomputed (net : MF_EvaluateNetwork) (mask : MFMask)
    (s : Nat) (rest : List SocketRef) (st : EvalState) (sdata : MFInputSocketData)
    (hs : net.graph.inputSockets.get? s = some sdata)
    (hc : st.storage.input_is_computed s = false) :
    schedStep net mask (.input s) rest st =
      .ok (.output sdata.origin :: .input s :: rest, st) := by
  rw [List.get?_eq_getElem?] at hs
  simp only [schedStep, List.get?_eq_getElem?, hs, hc, Bool.false_eq_true, if_false]

theorem schedStep_output_invoke (net : MF_EvaluateNetwork) (mask : MFMask)
    (o : Nat) (rest : List SocketRef) (st : EvalState) (odata : MFOutputSocketData)
    (node : MFFunctionNodeData)
    (ho : net.graph.outputSockets.get? o = some odata)
    (hfn : odata.nodeIsFunction = true)
    (hnode : net.graph.functionNodes.get? odata.node = some node)
    (hready : (node.inputs.filter (fun s => !(st.storage.input_is_computed s))).isEmpty = true) :
    schedStep net mask (.output o) rest st =
      (compute_and_forward_outputs net mask odata.node node st).map (fun st' => (rest, st')) := by
  rw [List.get?_eq_getElem?] at ho hnode
  simp only [schedStep, List.get?_eq_getElem?, ho, hfn, hnode, hready, if_true]
  cases compute_and_forward_outputs net mask odata.node node st <;> rfl

theorem schedStep_output_push (net : MF_EvaluateNetwork) (mask : MFMask)
    (o : Nat) (rest : List SocketRef) (st : EvalState) (odata : MFOutputSocketData)
    (node : MFFunctionNodeData)
    (ho : net.graph.outputSockets.get? o = some odata)
    (hfn : odata.nodeIsFunction = true)
    (hnode : net.graph.functionNodes.get? odata.node = some node)
    (hnotready :
      (node.inputs.filter (fun s => !(st.storage.input_is_computed s))).isEmpty = false) :
    schedStep net mask (.output o) rest st =
      .ok (((node.inputs.filter
              (fun s => !(st.storage.input_is_computed s))).reverse.map SocketRef.input) ++
            .output o :: rest, st) := by
  rw [List.get?_eq_getElem?] at ho hnode
  simp only [schedStep, List.get?_eq_getElem?, ho, hfn, hnode, hnotready,
    Bool.false_eq_true, if_false, if_true]

/-! ## The global evaluation invariant -/

/-- `o` is an output socket owned by function node `n`. -/
def OutputOf (net : MF_EvaluateNetwork) (n o : Nat) : Prop :=
  ∃ odata, net.graph.outputSockets.get? o = some odata ∧
    odata.nodeIsFunction = true ∧ odata.node = n

/-- An input socket the evaluation may demand or bind when forwarding:
a function node's input, or a declared network output. -/
def Relevant (net : MF_EvaluateNetwork) (t : Nat) : Prop :=
  (∃ td, net.graph.inputSockets.get? t = some td ∧ td.nodeIsFunction = true) ∨
    t ∈ net.m_outputs

/-- The consumer of input socket `s` is a mutable-vector function
parameter. -/
def MutConsumer (net : MF_EvaluateNetwork) (s : Nat) : Prop :=
  ∃ sdata node pidx, net.graph.inputSockets.get? s = some sdata ∧
    sdata.nodeIsFunction = true ∧
    net.graph.functionNodes.get? sdata.node = some node ∧
    node.input_param_indices.get? sdata.index = some pidx ∧
    node.function.paramTypes.get? pidx = some .MutableVector

/-- Each stored value names an existing socket, has the kind of the
socket's data category, points to readable content of that kind, and a
mutable-vector consumer always holds a private vector array. -/
def StoredOK (net : MF_EvaluateNetwork) (st : EvalState) : Prop :=
  ∀ s v, lookupA st.storage.values s = some v →
    ∃ sdata, net.graph.inputSockets.get? s = some sdata ∧
      (∀ b, v = .singleRef b →
        sdata.category = .Single ∧ ∃ cs, st.heap.read b = some (.single cs)) ∧
      (∀ b, v = .vectorRef b ∨ v = .vectorArray b →
        sdata.category = .Vector ∧ ∃ cs, st.heap.read b = some (.vector cs)) ∧
      (MutConsumer net s → ∃ b, v = .vectorArray b)

/-- The invariant holding between scheduler iterations, relative to the
heap watermark `n₀` at call start: a well-formed heap that only grew,
well-kinded readable storage values, sound ownership bookkeeping, every
engine-allocated buffer registered for release, every target of a
caller-bound network input computed, and an invocation log without
repetition whose nodes have forwarded to exactly the computed
sockets. -/
structure Inv (net : MF_EvaluateNetwork) (n₀ : Nat) (st : EvalState) : Prop where
  keysLt : ∀ p ∈ st.heap.mem, p.1 < st.heap.next
  base : n₀ ≤ st.heap.next
  stored : StoredOK net st
  owned : OwnedInv st
  vaFresh : ∀ s b, lookupA st.storage.values s = some (.vectorArray b) → n₀ ≤ b
  heapReg : ∀ p ∈ st.heap.mem, p.1 < n₀ ∨ p.1 ∈ st.storage.registered
  boundary : ∀ s sdata, net.graph.inputSockets.get? s = some sdata →
    sdata.origin ∈ net.m_inputs → st.storage.input_is_computed s = true
  invokedNodup : st.invoked.Nodup
  invokedForward : ∀ n ∈ st.invoked, ∀ o, OutputOf net n o →
    ∀ t ∈ (outD net.graph o).targets, Relevant net t →
      st.storage.input_is_computed t = true
  computedOrigin : ∀ s, st.storage.input_is_computed s = true →
    ∃ sdata, net.graph.inputSockets.get? s = some sdata ∧
      (sdata.origin ∈ net.m_inputs ∨ ∃ m, m ∈ st.invoked ∧ OutputOf net m sdata.origin)

/-- Monotone evolution of the state during evaluation: the heap only
grows and is untouched below the call-start watermark, storage values
are never removed or replaced, and the invocation log only appends. -/
structure Mono (n₀ : Nat) (st st' : EvalState) : Prop where
  nextLe : st.heap.next ≤ st'.heap.next
  readLow : ∀ k, k < n₀ → st'.heap.read k = st.heap.read k
  valuesPres : ∀ s v, lookupA st.storage.values s = some v →
    lookupA st'.storage.values s = some v
  valuesHigh : ∀ s v, lookupA st'.storage.values s = some v →
    lookupA st.storage.values s = some v ∨ n₀ ≤ v.buf
  invokedExt : ∃ l, st'.invoked = st.invoked ++ l

theorem Mono.refl (n₀ : Nat) (st : EvalState) : Mono n₀ st st :=
  ⟨Nat.le_refl _, fun _ _ => rfl, fun _ _ h => h, fun _ _ h => Or.inl h,
    ⟨[], (List.append_nil _).symm⟩⟩

theorem Mono.compose {n₀ : Nat} {a b c : EvalState} (h1 : Mono n₀ a b)
    (h2 : Mono n₀ b c) : Mono n₀ a c := by
  refine ⟨Nat.le_trans h1.nextLe h2.nextLe,
    fun k hk => (h2.readLow k hk).trans (h1.readLow k hk),
    fun s v hv => h2.valuesPres s v (h1.valuesPres s v hv), ?_, ?_⟩
  · intro s v hv
    rcases h2.valuesHigh s v hv with hm | hm
    · exact h1.valuesHigh s v hm
    · exact Or.inr hm
  obtain ⟨l1, hl1⟩ := h1.invokedExt
  obtain ⟨l2, hl2⟩ := h2.invokedExt
  exact ⟨l1 ++ l2, by rw [hl2, hl1, List.append_assoc]⟩

theorem Mono.computedPres {n₀ : Nat} {a b : EvalState} (h : Mono n₀ a b)
    {s : Nat} (hc : a.storage.input_is_computed s = true) :
    b.storage.input_is_computed s = true := by
  rw [Storage.input_is_computed] at hc ⊢
  obtain ⟨v, hv⟩ := Option.isSome_iff_exists.mp hc
  rw [h.valuesPres s v hv]
  rfl

/-! ## Bridging `get?` and `getD` access -/

theorem get?_eq_getD_of_lt {α : Type} (l : List α) (d : α) {i : Nat}
    (h : i < l.length) : l.get? i = some (l.getD i d) := by
  rw [List.getD_eq_get?, List.get?_eq_get h]
  rfl

theorem inpD_eq {g : MFNetworkGraph} {s : Nat} {d : MFInputSocketData}
    (h : g.inputSockets.get? s = some d) : inpD g s = d := by
  rw [inpD, List.getD_eq_get?, h]
  rfl

theorem outD_eq {g : MFNetworkGraph} {o : Nat} {d : MFOutputSocketData}
    (h : g.outputSockets.get? o = some d) : outD g o = d := by
  rw [outD, List.getD_eq_get?, h]
  rfl

theorem fnD_eq {g : MFNetworkGraph} {n : Nat} {d : MFFunctionNodeData}
    (h : g.functionNodes.get? n = some d) : fnD g n = d := by
  rw [fnD, List.getD_eq_get?, h]
  rfl

theorem get?_lt_length {α : Type} {l : List α} {i : Nat} {a : α}
    (h : l.get? i = some a) : i < l.length := by
  by_contra hge
  rw [List.get?_eq_none.mpr (Nat.le_of_not_lt hge)] at h
  exact absurd h (by simp)

theorem nodup_get?_inj {α : Type} {l : List α} (hnd : l.Nodup) {i j : Nat} {a : α}
    (hi : l.get? i = some a) (hj : l.get? j = some a) : i = j := by
  have hil := get?_lt_length hi
  exact List.get?_inj hil hnd (hi.trans hj.symm)

/-! ## Inverting one parameter-builder step -/

theorem err_bind_ne_ok {α : Type} {e : Fault} {a : α}
    (h : (Except.error e : Except Fault α) = .ok a) : False := by
  exact absurd h (by simp)

theorem build_param_cases (node : MFFunctionNodeData) (asz : Nat) (σ : Storage)
    (acc : BuildAcc) (p : Nat) (acc₁ : BuildAcc)
    (h : build_param node asz σ acc p = .ok acc₁) :
    (acc₁.heap = acc.heap ∧ acc₁.singleFwd = acc.singleFwd ∧
      acc₁.vectorFwd = acc.vectorFwd) ∨
    (∃ o, node.function.paramTypes.get? p = some .SingleOutput ∧ OutSock node p o ∧
      acc₁.heap.next = acc.heap.next + 1 ∧
      acc₁.singleFwd = acc.singleFwd ++ [(o, acc.heap.next)] ∧
      acc₁.vectorFwd = acc.vectorFwd) ∨
    (∃ o, node.function.paramTypes.get? p = some .VectorOutput ∧ OutSock node p o ∧
      acc₁.heap.next = acc.heap.next + 1 ∧
      acc₁.singleFwd = acc.singleFwd ∧
      acc₁.vectorFwd = acc.vectorFwd ++ [(o, acc.heap.next)]) ∨
    (∃ o bb s, node.function.paramTypes.get? p = some .MutableVector ∧ OutSock node p o ∧
      lookupA σ.values s = some (.vectorArray bb) ∧
      acc₁.heap = acc.heap ∧ acc₁.singleFwd = acc.singleFwd ∧
      acc₁.vectorFwd = acc.vectorFwd ++ [(o, bb)]) := by
  cases hpt : node.function.paramTypes.get? p with
  | none =>
    rw [List.get?_eq_getElem?] at hpt
    simp only [build_param, List.get?_eq_getElem?, hpt] at h
    exact absurd h err_bind_ne_ok
  | some pt =>
    cases pt with
    | ReadonlySingleInput =>
      cases hs : node.inputs.get? (node.input_param_indices.indexOf p) with
      | none =>
        rw [List.get?_eq_getElem?] at hpt hs
        simp only [build_param, List.get?_eq_getElem?, hpt, hs] at h
        exact absurd h err_bind_ne_ok
      | some s =>
        cases hlv : lookupA σ.values s with
        | none =>
          rw [List.get?_eq_getElem?] at hpt hs
          simp only [build_param, List.get?_eq_getElem?, hpt, hs,
            Storage.get_virtual_list_for_input, hlv, Bind.bind, Except.bind] at h
          exact absurd h err_bind_ne_ok
        | some v =>
          cases v with
          | singleRef bb =>
            rw [build_param_rsi node asz σ acc p s bb hpt hs hlv] at h
            obtain rfl := (Except.ok.inj h).symm
            exact Or.inl ⟨rfl, rfl, rfl⟩
          | vectorRef bb =>
            rw [List.get?_eq_getElem?] at hpt hs
            simp only [build_param, List.get?_eq_getElem?, hpt, hs,
              Storage.get_virtual_list_for_input, hlv, Bind.bind, Except.bind] at h
            exact absurd h err_bind_ne_ok
          | vectorArray bb =>
            rw [List.get?_eq_getElem?] at hpt hs
            simp only [build_param, List.get?_eq_getElem?, hpt, hs,
              Storage.get_virtual_list_for_input, hlv, Bind.bind, Except.bind] at h
            exact absurd h err_bind_ne_ok
    | ReadonlyVectorInput =>
      cases hs : node.inputs.get? (node.input_param_indices.indexOf p) with
      | none =>
        rw [List.get?_eq_getElem?] at hpt hs
        simp only [build_param, List.get?_eq_getElem?, hpt, hs] at h
        exact absurd h err_bind_ne_ok
      | some s =>
        cases hlv : lookupA σ.values s with
        | none =>
          rw [List.get?_eq_getElem?] at hpt hs
          simp only [build_param, List.get?_eq_getElem?, hpt, hs,
            Storage.get_virtual_list_list_for_input, hlv, Bind.bind, Except.bind] at h
          exact absurd h err_bind_ne_ok
        | some v =>
          cases v with
          | singleRef bb =>
            rw [List.get?_eq_getElem?] at hpt hs
            simp only [build_param, List.get?_eq_getElem?, hpt, hs,
              Storage.get_virtual_list_list_for_input, hlv, Bind.bind, Except.bind] at h
            exact absurd h err_bind_ne_ok
          | vectorRef bb =>
            rw [build_param_rvi node asz σ acc p s bb hpt hs (Or.inl hlv)] at h
            obtain rfl := (Except.ok.inj h).symm
            exact Or.inl ⟨rfl, rfl, rfl⟩
          | vectorArray bb =>
            rw [build_param_rvi node asz σ acc p s bb hpt hs (Or.inr hlv)] at h
            obtain rfl := (Except.ok.inj h).symm
            exact Or.inl ⟨rfl, rfl, rfl⟩
    | SingleOutput =>
      cases ho : node.outputs.get? (node.output_param_indices.indexOf p) with
      | none =>
        rw [List.get?_eq_getElem?] at hpt ho
        simp only [build_param, List.get?_eq_getElem?, hpt, ho] at h
        exact absurd h err_bind_ne_ok
      | some o =>
        rw [build_param_so node asz σ acc p o hpt ho] at h
        obtain rfl := (Except.ok.inj h).symm
        exact Or.inr (Or.inl ⟨o, rfl, ho, rfl, rfl, rfl⟩)
    | VectorOutput =>
      cases ho : node.outputs.get? (node.output_param_indices.indexOf p) with
      | none =>
        rw [List.get?_eq_getElem?] at hpt ho
        simp only [build_param, List.get?_eq_getElem?, hpt, ho] at h
        exact absurd h err_bind_ne_ok
      | some o =>
        rw [build_param_vo node asz σ acc p o hpt ho] at h
        obtain rfl := (Except.ok.inj h).symm
        exact Or.inr (Or.inr (Or.inl ⟨o, rfl, ho, rfl, rfl, rfl⟩))
    | MutableVector =>
      cases hs : node.inputs.get? (node.input_param_indices.indexOf p) with
      | none =>
        rw [List.get?_eq_getElem?] at hpt hs
        simp only [build_param, List.get?_eq_getElem?, hpt, hs] at h
        exact absurd h err_bind_ne_ok
      | some s =>
        cases ho : node.outputs.get? (node.output_param_indices.indexOf p) with
        | none =>
          rw [List.get?_eq_getElem?] at hpt hs ho
          simp only [build_param, List.get?_eq_getElem?, hpt, hs, ho] at h
          exact absurd h err_bind_ne_ok
        | some o =>
          cases hlv : lookupA σ.values s with
          | none =>
            rw [List.get?_eq_getElem?] at hpt hs ho
            simp only [build_param, List.get?_eq_getElem?, hpt, hs, ho,
              Storage.get_vector_array_for_input, hlv, Bind.bind, Except.bind] at h
            exact absurd h err_bind_ne_ok
          | some v =>
            cases v with
            | singleRef bb =>
              rw [List.get?_eq_getElem?] at hpt hs ho
              simp only [build_param, List.get?_eq_getElem?, hpt, hs, ho,
                Storage.get_vector_array_for_input, hlv, Bind.bind, Except.bind] at h
              exact absurd h err_bind_ne_ok
            | vectorRef bb =>
              rw [List.get?_eq_getElem?] at hpt hs ho
              simp only [build_param, List.get?_eq_getElem?, hpt, hs, ho,
                Storage.get_vector_array_for_input, hlv, Bind.bind, Except.bind] at h
              exact absurd h err_bind_ne_ok
            | vectorArray bb =>
              rw [build_param_mv node asz σ acc p s bb o hpt hs ho hlv] at h
              obtain rfl := (Except.ok.inj h).symm
              exact Or.inr (Or.inr (Or.inr ⟨o, bb, s, rfl, ho, hlv, rfl, rfl, rfl⟩))

/-- Provenance of the forwarding lists: single pairs come exactly from
single-output parameters, vector pairs from vector-output or
mutable-vector parameters. -/
theorem build_params_provenance (node : MFFunctionNodeData) (asz : Nat) (σ : Storage) :
    ∀ (ps : List Nat) (acc acc' : BuildAcc),
      ps.foldlM (build_param node asz σ) acc = .ok acc' →
      (∀ pr ∈ acc'.singleFwd, pr ∈ acc.singleFwd ∨
        ∃ p ∈ ps, node.function.paramTypes.get? p = some .SingleOutput ∧
          OutSock node p pr.1) ∧
      (∀ pr ∈ acc'.vectorFwd, pr ∈ acc.vectorFwd ∨
        ∃ p ∈ ps, (node.function.paramTypes.get? p = some .VectorOutput ∨
          node.function.paramTypes.get? p = some .MutableVector) ∧
          OutSock node p pr.1) := by
  intro ps
  induction ps with
  | nil =>
    intro acc acc' h
    have hae : (Except.ok acc : Except Fault BuildAcc) = .ok acc' := h
    obtain rfl := Except.ok.inj hae
    exact ⟨fun pr hpr => Or.inl hpr, fun pr hpr => Or.inl hpr⟩
  | cons p rest ih =>
    intro acc acc' h
    rw [List.foldlM_cons] at h
    cases hstep : build_param node asz σ acc p with
    | error e =>
      rw [hstep] at h
      exact absurd h (by simp [Bind.bind, Except.bind])
    | ok acc₁ =>
      rw [hstep] at h
      have h' : rest.foldlM (build_param node asz σ) acc₁ = .ok acc' := h
      obtain ⟨ihs, ihv⟩ := ih acc₁ acc' h'
      have hmono : ∀ {β : Type} (q : Nat → Prop),
          (∃ a ∈ rest, q a) → ∃ a ∈ p :: rest, q a :=
        fun q ⟨a, ha, hq⟩ => ⟨a, List.mem_cons_of_mem p ha, hq⟩
      rcases build_param_cases node asz σ acc p acc₁ hstep with
        ⟨_, hsf, hvf⟩ | ⟨o, hp, hOS, _, hsf, hvf⟩ | ⟨o, hp, hOS, _, hsf, hvf⟩ |
        ⟨o, bb, s, hp, hOS, _, _, hsf, hvf⟩
      · refine ⟨fun pr hpr => ?_, fun pr hpr => ?_⟩
        · rcases ihs pr hpr with hm | ⟨a, ha, h1, h2⟩
          · rw [hsf] at hm
            exact Or.inl hm
          · exact Or.inr ⟨a, List.mem_cons_of_mem p ha, h1, h2⟩
        · rcases ihv pr hpr with hm | ⟨a, ha, h1, h2⟩
          · rw [hvf] at hm
            exact Or.inl hm
          · exact Or.inr ⟨a, List.mem_cons_of_mem p ha, h1, h2⟩
      · refine ⟨fun pr hpr => ?_, fun pr hpr => ?_⟩
        · rcases ihs pr hpr with hm | ⟨a, ha, h1, h2⟩
          · rw [hsf] at hm
            rcases List.mem_append.mp hm with hmm | hmm
            · exact Or.inl hmm
            · rcases List.mem_singleton.mp hmm with rfl
              exact Or.inr ⟨p, List.mem_cons_self p rest, hp, hOS⟩
          · exact Or.inr ⟨a, List.mem_cons_of_mem p ha, h1, h2⟩
        · rcases ihv pr hpr with hm | ⟨a, ha, h1, h2⟩
          · rw [hvf] at hm
            exact Or.inl hm
          · exact Or.inr ⟨a, List.mem_cons_of_mem p ha, h1, h2⟩
      · refine ⟨fun pr hpr => ?_, fun pr hpr => ?_⟩
        · rcases ihs pr hpr with hm | ⟨a, ha, h1, h2⟩
          · rw [hsf] at hm
            exact Or.inl hm
          · exact Or.inr ⟨a, List.mem_cons_of_mem p ha, h1, h2⟩
        · rcases ihv pr hpr with hm | ⟨a, ha, h1, h2⟩
          · rw [hvf] at hm
            rcases List.mem_append.mp hm with hmm | hmm
            · exact Or.inl hmm
            · rcases List.mem_singleton.mp hmm with rfl
              exact Or.inr ⟨p, List.mem_cons_self p rest, Or.inl hp, hOS⟩
          · exact Or.inr ⟨a, List.mem_cons_of_mem p ha, h1, h2⟩
      · refine ⟨fun pr hpr => ?_, fun pr hpr => ?_⟩
        · rcases ihs pr hpr with hm | ⟨a, ha, h1, h2⟩
          · rw [hsf] at hm
            exact Or.inl hm
          · exact Or.inr ⟨a, List.mem_cons_of_mem p ha, h1, h2⟩
        · rcases ihv pr hpr with hm | ⟨a, ha, h1, h2⟩
          · rw [hvf] at hm
            rcases List.mem_append.mp hm with hmm | hmm
            · exact Or.inl hmm
            · rcases List.mem_singleton.mp hmm with rfl
              exact Or.inr ⟨p, List.mem_cons_self p rest, Or.inr hp, hOS⟩
          · exact Or.inr ⟨a, List.mem_cons_of_mem p ha, h1, h2⟩

/-- The freshly allocated forwarding buffers (at or above the
watermark `lo`). -/
def freshBufs (lo : Nat) (acc : BuildAcc) : List Nat :=
  (acc.singleFwd.map Prod.snd ++ acc.vectorFwd.map Prod.snd).filter
    (fun b => decide (lo ≤ b))

/-- The parameter builder hands out pairwise distinct fresh buffers,
across the single and vector forwarding lists together. -/
theorem build_params_bufs_nodup (node : MFFunctionNodeData) (asz : Nat) (σ : Storage)
    (lo : Nat)
    (hva : ∀ s bb, lookupA σ.values s = some (.vectorArray bb) → bb < lo) :
    ∀ (ps : List Nat) (acc : BuildAcc),
      lo ≤ acc.heap.next →
      (∀ x ∈ acc.singleFwd.map Prod.snd ++ acc.vectorFwd.map Prod.snd,
        x < acc.heap.next) →
      (freshBufs lo acc).Nodup →
      ∀ acc', ps.foldlM (build_param node asz σ) acc = .ok acc' →
        (∀ x ∈ acc'.singleFwd.map Prod.snd ++ acc'.vectorFwd.map Prod.snd,
          x < acc'.heap.next) ∧
        (freshBufs lo acc').Nodup := by
  intro ps
  induction ps with
  | nil =>
    intro acc hlo hbd hnd acc' h
    have hae : (Except.ok acc : Except Fault BuildAcc) = .ok acc' := h
    obtain rfl := Except.ok.inj hae
    exact ⟨hbd, hnd⟩
  | cons p rest ih =>
    intro acc hlo hbd hnd acc' h
    rw [List.foldlM_cons] at h
    cases hstep : build_param node asz σ acc p with
    | error e =>
      rw [hstep] at h
      exact absurd h (by simp [Bind.bind, Except.bind])
    | ok acc₁ =>
      rw [hstep] at h
      have h' : rest.foldlM (build_param node asz σ) acc₁ = .ok acc' := h
      rcases build_param_cases node asz σ acc p acc₁ hstep with
        ⟨hh, hsf, hvf⟩ | ⟨o, hp, hOS, hnx, hsf, hvf⟩ | ⟨o, hp, hOS, hnx, hsf, hvf⟩ |
        ⟨o, bb, s, hp, hOS, hlv, hh, hsf, hvf⟩
      · refine ih acc₁ ?_ ?_ ?_ acc' h'
        · rw [hh]; exact hlo
        · rw [hh, hsf, hvf]; exact hbd
        · show ((acc₁.singleFwd.map Prod.snd ++ acc₁.vectorFwd.map Prod.snd).filter
            (fun b => decide (lo ≤ b))).Nodup
          rw [hsf, hvf]; exact hnd
      · refine ih acc₁ (by omega) ?_ ?_ acc' h'
        · intro x hx
          rw [hsf, hvf] at hx
          rw [List.map_append] at hx
          rw [hnx]
          rcases List.mem_append.mp hx with hm | hm
          · rcases List.mem_append.mp hm with hmm | hmm
            · have := hbd x (List.mem_append.mpr (Or.inl hmm)); omega
            · rcases List.mem_singleton.mp hmm with rfl
              exact Nat.lt_succ_self _
          · have := hbd x (List.mem_append.mpr (Or.inr hm)); omega
        · show ((acc₁.singleFwd.map Prod.snd ++ acc₁.vectorFwd.map Prod.snd).filter
            (fun b => decide (lo ≤ b))).Nodup
          have hlist : acc₁.singleFwd.map Prod.snd ++ acc₁.vectorFwd.map Prod.snd =
              (acc.singleFwd.map Prod.snd ++ [acc.heap.next]) ++
                acc.vectorFwd.map Prod.snd := by
            rw [hsf, hvf]
            simp
          rw [hlist]
          have hperm : List.Perm
              ((acc.singleFwd.map Prod.snd ++ [acc.heap.next]) ++ acc.vectorFwd.map Prod.snd)
              ((acc.singleFwd.map Prod.snd ++ acc.vectorFwd.map Prod.snd) ++ [acc.heap.next]) := by
            rw [List.append_assoc, List.append_assoc]
            exact List.Perm.append_left _ List.perm_append_comm
          refine ((hperm.filter (fun b => decide (lo ≤ b))).nodup_iff).mpr ?_
          rw [List.filter_append]
          have hkeep : List.filter (fun b => decide (lo ≤ b)) [acc.heap.next] =
              [acc.heap.next] := by
            simp [hlo]
          rw [hkeep]
          refine nodup_append_singleton hnd ?_
          intro hmem
          have hmem' := List.mem_of_mem_filter hmem
          have := hbd _ hmem'
          omega
      · refine ih acc₁ (by omega) ?_ ?_ acc' h'
        · intro x hx
          rw [hsf, hvf] at hx
          rw [List.map_append] at hx
          rw [hnx]
          rcases List.mem_append.mp hx with hm | hm
          · have := hbd x (List.mem_append.mpr (Or.inl hm)); omega
          · rcases List.mem_append.mp hm with hmm | hmm
            · have := hbd x (List.mem_append.mpr (Or.inr hmm)); omega
            · rcases List.mem_singleton.mp hmm with rfl
              exact Nat.lt_succ_self _
        · show ((acc₁.singleFwd.map Prod.snd ++ acc₁.vectorFwd.map Prod.snd).filter
            (fun b => decide (lo ≤ b))).Nodup
          have hlist : acc₁.singleFwd.map Prod.snd ++ acc₁.vectorFwd.map Prod.snd =
              (acc.singleFwd.map Prod.snd ++ acc.vectorFwd.map Prod.snd) ++
                [acc.heap.next] := by
            rw [hsf, hvf]
            simp
          rw [hlist, List.filter_append]
          have hkeep : List.filter (fun b => decide (lo ≤ b)) [acc.heap.next] =
              [acc.heap.next] := by
            simp [hlo]
          rw [hkeep]
          refine nodup_append_singleton hnd ?_
          intro hmem
          have hmem' := List.mem_of_mem_filter hmem
          have := hbd _ hmem'
          omega
      · refine ih acc₁ ?_ ?_ ?_ acc' h'
        · rw [hh]; exact hlo
        · intro x hx
          rw [hsf, hvf] at hx
          rw [List.map_append] at hx
          rw [hh]
          rcases List.mem_append.mp hx with hm | hm
          · exact hbd x (List.mem_append.mpr (Or.inl hm))
          · rcases List.mem_append.mp hm with hmm | hmm
            · exact hbd x (List.mem_append.mpr (Or.inr hmm))
            · rcases List.mem_singleton.mp hmm with rfl
              have := hva s x hlv
              omega
        · show ((acc₁.singleFwd.map Prod.snd ++ acc₁.vectorFwd.map Prod.snd).filter
            (fun b => decide (lo ≤ b))).Nodup
          have hlist : acc₁.singleFwd.map Prod.snd ++ acc₁.vectorFwd.map Prod.snd =
              (acc.singleFwd.map Prod.snd ++ acc.vectorFwd.map Prod.snd) ++ [bb] := by
            rw [hsf, hvf]
            simp
          rw [hlist, List.filter_append]
          have hdrop : List.filter (fun b => decide (lo ≤ b)) [bb] = [] := by
            have hlt := hva s bb hlv
            simp [Nat.not_le.mpr hlt]
          rw [hdrop, List.append_nil]
          exact hnd

/-! ## Category coherence helpers -/

theorem catMatchIn_rsi {c : MFDataCategory}
    (h : catMatchIn .ReadonlySingleInput c = true) : c = .Single := by
  cases c
  · rfl
  · exact absurd h (by decide)

theorem catMatchIn_rvi {c : MFDataCategory}
    (h : catMatchIn .ReadonlyVectorInput c = true) : c = .Vector := by
  cases c
  · exact absurd h (by decide)
  · rfl

theorem catMatchIn_mv {c : MFDataCategory}
    (h : catMatchIn .MutableVector c = true) : c = .Vector := by
  cases c
  · exact absurd h (by decide)
  · rfl

theorem catMatchOut_so {c : MFDataCategory}
    (h : catMatchOut .SingleOutput c = true) : c = .Single := by
  cases c
  · rfl
  · exact absurd h (by decide)

theorem catMatchOut_vo {c : MFDataCategory}
    (h : catMatchOut .VectorOutput c = true) : c = .Vector := by
  cases c
  · exact absurd h (by decide)
  · rfl

theorem catMatchOut_mv {c : MFDataCategory}
    (h : catMatchOut .MutableVector c = true) : c = .Vector := by
  cases c
  · exact absurd h (by decide)
  · rfl

/-- A validated graph and well-kinded storage with all of the node's
inputs computed provide everything the parameter builder needs. -/
theorem buildOK_of_inv (net : MF_EvaluateNetwork) (hwf : NetWF net)
    (n : Nat) (node : MFFunctionNodeData)
    (hn : net.graph.functionNodes.get? n = some node)
    (st : EvalState) (hstored : StoredOK net st)
    (hcomp : ∀ s ∈ node.inputs, st.storage.input_is_computed s = true) :
    ∀ p, p < node.function.paramTypes.length →
      BuildParamOK node st.storage st.heap p := by
  have hnlt : n < net.graph.functionNodes.length := get?_lt_length hn
  have hfd : fnD net.graph n = node := fnD_eq hn
  intro p hplt
  cases hpt : node.function.paramTypes.get? p with
  | none => exact absurd (List.get?_eq_none.mp hpt) (by omega)
  | some pt =>
  refine ⟨⟨pt, hpt⟩, ?_⟩
  intro pt' hpt'
  rw [hpt] at hpt'
  obtain rfl := Option.some_inj.mp hpt'
  have hptD : node.function.paramTypes.getD p .ReadonlySingleInput = pt := by
    have hh := get?_eq_getD_of_lt node.function.paramTypes .ReadonlySingleInput hplt
    rw [hpt] at hh
    exact (Option.some_inj.mp hh).symm
  have hout : pt.hasOutputSocket = true → ∃ o, OutSock node p o := by
    intro hhas
    have hcov := (hwf.ptCover n hnlt p (by rw [hfd]; exact hplt)).2
    rw [hfd, hptD] at hcov
    have hpm : p ∈ node.output_param_indices := hcov hhas
    have hjlt := List.indexOf_lt_length.mpr hpm
    have hjlt2 : node.output_param_indices.indexOf p < node.outputs.length := by
      have hl := (hwf.nodeLens n hnlt).2.1
      rw [hfd] at hl
      omega
    exact ⟨node.outputs.getD (node.output_param_indices.indexOf p) 0,
      get?_eq_getD_of_lt _ _ hjlt2⟩
  have hin : pt.hasInputSocket = true →
      ∃ s v sdata, node.inputs.get? (node.input_param_indices.indexOf p) = some s ∧
        lookupA st.storage.values s = some v ∧
        net.graph.inputSockets.get? s = some sdata ∧
        (∀ b, v = .singleRef b → sdata.category = .Single ∧
          ∃ cs, st.heap.read b = some (.single cs)) ∧
        (∀ b, v = .vectorRef b ∨ v = .vectorArray b → sdata.category = .Vector ∧
          ∃ cs, st.heap.read b = some (.vector cs)) ∧
        (MutConsumer net s → ∃ b, v = .vectorArray b) ∧
        catMatchIn pt sdata.category = true ∧
        sdata.nodeIsFunction = true ∧ sdata.node = n ∧
        sdata.index = node.input_param_indices.indexOf p ∧
        node.input_param_indices.get? (node.input_param_indices.indexOf p) = some p := by
    intro hhas
    have hcov := (hwf.ptCover n hnlt p (by rw [hfd]; exact hplt)).1
    rw [hfd, hptD] at hcov
    have hpm : p ∈ node.input_param_indices := hcov hhas
    have hjlt := List.indexOf_lt_length.mpr hpm
    have hjget : node.input_param_indices.get?
        (node.input_param_indices.indexOf p) = some p := by
      rw [List.get?_eq_get hjlt, List.indexOf_get hjlt]
    have hlens := hwf.nodeLens n hnlt
    rw [hfd] at hlens
    have hjlt2 : node.input_param_indices.indexOf p < node.inputs.length := by
      have hl := hlens.1
      omega
    set j := node.input_param_indices.indexOf p with hj
    set s := node.inputs.getD j 0 with hsdef
    have hsget : node.inputs.get? j = some s := get?_eq_getD_of_lt _ _ hjlt2
    have hni := hwf.nodeInputs n hnlt j (by rw [hfd]; exact hjlt2)
    rw [hfd] at hni
    have hsm : s ∈ node.inputs := List.get?_mem hsget
    have hcs := hcomp s hsm
    rw [Storage.input_is_computed] at hcs
    obtain ⟨v, hv⟩ := Option.isSome_iff_exists.mp hcs
    obtain ⟨sdata, hsd, hsingle, hvec, hmut⟩ := hstored s v hv
    have hinpd : inpD net.graph s = sdata := inpD_eq hsd
    rw [hinpd] at hni
    have hips := hwf.ipiSpec n hnlt j (by rw [hfd]; exact hjlt)
    rw [hfd] at hips
    have hgd : node.input_param_indices.getD j 0 = p := by
      have hh := get?_eq_getD_of_lt node.input_param_indices 0 hjlt
      rw [hjget] at hh
      exact (Option.some_inj.mp hh).symm
    rw [hgd, hptD, hinpd] at hips
    exact ⟨s, v, sdata, hsget, hv, hsd, hsingle, hvec, hmut, hips.2.2.2,
      hni.2.1, hni.2.2.1, hni.2.2.2, hjget⟩
  cases pt with
  | ReadonlySingleInput =>
    obtain ⟨s, v, sdata, hsget, hv, hsd, hsingle, hvec, hmut, hcm, hfn2, hnd2, hidx2, hjget⟩ :=
      hin rfl
    have hcat : sdata.category = .Single := catMatchIn_rsi hcm
    refine ⟨?_, ?_, ?_, ?_, ?_⟩
    · intro _
      cases v with
      | singleRef bb =>
        obtain ⟨_, cs, hcs⟩ := hsingle bb rfl
        exact ⟨s, bb, hsget, hv, cs, hcs⟩
      | vectorRef bb =>
        have h2 := (hvec bb (Or.inl rfl)).1
        rw [hcat] at h2
        exact absurd h2 (by decide)
      | vectorArray bb =>
        have h2 := (hvec bb (Or.inr rfl)).1
        rw [hcat] at h2
        exact absurd h2 (by decide)
    · intro hh; exact absurd hh (by decide)
    · intro hh; exact absurd hh (by decide)
    · intro hh; exact absurd hh (by decide)
    · intro hh; exact absurd hh (by decide)
  | ReadonlyVectorInput =>
    obtain ⟨s, v, sdata, hsget, hv, hsd, hsingle, hvec, hmut, hcm, hfn2, hnd2, hidx2, hjget⟩ :=
      hin rfl
    have hcat : sdata.category = .Vector := catMatchIn_rvi hcm
    refine ⟨?_, ?_, ?_, ?_, ?_⟩
    · intro hh; exact absurd hh (by decide)
    · intro _
      cases v with
      | singleRef bb =>
        have h2 := (hsingle bb rfl).1
        rw [hcat] at h2
        exact absurd h2 (by decide)
      | vectorRef bb =>
        obtain ⟨_, cs, hcs⟩ := hvec bb (Or.inl rfl)
        exact ⟨s, bb, hsget, Or.inl hv, cs, hcs⟩
      | vectorArray bb =>
        obtain ⟨_, cs, hcs⟩ := hvec bb (Or.inr rfl)
        exact ⟨s, bb, hsget, Or.inr hv, cs, hcs⟩
    · intro hh; exact absurd hh (by decide)
    · intro hh; exact absurd hh (by decide)
    · intro hh; exact absurd hh (by decide)
  | SingleOutput =>
    refine ⟨?_, ?_, ?_, ?_, ?_⟩
    · intro hh; exact absurd hh (by decide)
    · intro hh; exact absurd hh (by decide)
    · intro _; exact hout rfl
    · intro hh; exact absurd hh (by decide)
    · intro hh; exact absurd hh (by decide)
  | VectorOutput =>
    refine ⟨?_, ?_, ?_, ?_, ?_⟩
    · intro hh; exact absurd hh (by decide)
    · intro hh; exact absurd hh (by decide)
    · intro hh; exact absurd hh (by decide)
    · intro _; exact hout rfl
    · intro hh; exact absurd hh (by decide)
  | MutableVector =>
    obtain ⟨s, v, sdata, hsget, hv, hsd, hsingle, hvec, hmut, hcm, hfn2, hnd2, hidx2, hjget⟩ :=
      hin rfl
    refine ⟨?_, ?_, ?_, ?_, ?_⟩
    · intro hh; exact absurd hh (by decide)
    · intro hh; exact absurd hh (by decide)
    · intro hh; exact absurd hh (by decide)
    · intro hh; exact absurd hh (by decide)
    · intro _
      constructor
      · have hmc : MutConsumer net s :=
          ⟨sdata, node, p, hsd, hfn2, by rw [hnd2]; exact hn,
            by rw [hidx2]; exact hjget, hpt⟩
        obtain ⟨bb, rfl⟩ := hmut hmc
        obtain ⟨_, cs, hcs⟩ := hvec bb (Or.inr rfl)
        exact ⟨s, bb, hsget, hv, cs, hcs⟩
      · exact hout rfl

/-! ## Forwarding all produced single outputs -/

/-- What forwarding one single output needs: an existing output socket
whose distinct fan-out targets are all unset single-typed sockets wired
back to it. -/
def SingleOutOK (net : MF_EvaluateNetwork) (st : EvalState) (o : Nat) : Prop :=
  ∃ odata, net.graph.outputSockets.get? o = some odata ∧ odata.targets.Nodup ∧
    ∀ t ∈ odata.targets, lookupA st.storage.values t = none ∧
      ∃ td, net.graph.inputSockets.get? t = some td ∧ td.category = .Single ∧
        td.origin = o

theorem forward_singles_fold (net : MF_EvaluateNetwork) :
    ∀ (sl : List (Nat × Nat)) (st : EvalState),
      (sl.map Prod.fst).Nodup →
      (sl.map Prod.snd).Nodup →
      (∀ pr ∈ sl, SingleOutOK net st pr.1) →
      (∀ pr ∈ sl, ∃ cs, st.heap.read pr.2 = some (.single cs)) →
      (∀ pr ∈ sl, pr.2 ∉ st.storage.registered) →
      OwnedInv st →
      ∃ st', sl.foldlM (fun st p => forward_single_output net p.1 p.2 st) st = .ok st' ∧
        st'.heap = st.heap ∧
        st'.invoked = st.invoked ∧
        st'.storage.ownedVectorArrays = st.storage.ownedVectorArrays ∧
        (∀ x ∈ st.storage.ownedArrays, x ∈ st'.storage.ownedArrays) ∧
        (∀ pr ∈ sl, pr.2 ∈ st'.storage.ownedArrays) ∧
        (∀ x ∈ st'.storage.ownedArrays,
          x ∈ st.storage.ownedArrays ∨ x ∈ sl.map Prod.snd) ∧
        OwnedInv st' ∧
        (∀ s v, lookupA st.storage.values s = some v →
          lookupA st'.storage.values s = some v) ∧
        (∀ u, lookupA st'.storage.values u = lookupA st.storage.values u ∨
          ∃ pr ∈ sl, ∃ odata, net.graph.outputSockets.get? pr.1 = some odata ∧
            u ∈ odata.targets) ∧
        (∀ pr ∈ sl, ∀ odata, net.graph.outputSockets.get? pr.1 = some odata →
          ∀ t ∈ odata.targets,
            lookupA st'.storage.values t = some (.singleRef pr.2)) := by
  intro sl
  induction sl with
  | nil =>
    intro st _ _ _ _ _ hown
    exact ⟨st, rfl, rfl, rfl, rfl, fun x hx => hx,
      fun pr hpr => absurd hpr (List.not_mem_nil pr),
      fun x hx => Or.inl hx, hown, fun s v hv => hv, fun u => Or.inl rfl,
      fun pr hpr => absurd hpr (List.not_mem_nil pr)⟩
  | cons hd rest ih =>
    intro st hfst hsnd hOK hb hdisj hown
    obtain ⟨o, b⟩ := hd
    obtain ⟨odata, hodata, hndt, htg⟩ := hOK (o, b) (List.mem_cons_self _ rest)
    obtain ⟨cs0, hcs0⟩ := hb (o, b) (List.mem_cons_self _ rest)
    have hbreg : b ∉ st.storage.registered := hdisj (o, b) (List.mem_cons_self _ rest)
    have hfstr : (rest.map Prod.fst).Nodup := (List.nodup_cons.mp (by simpa using hfst)).2
    have honr : o ∉ rest.map Prod.fst := (List.nodup_cons.mp (by simpa using hfst)).1
    have hsndr : (rest.map Prod.snd).Nodup := (List.nodup_cons.mp (by simpa using hsnd)).2
    have hbnr : b ∉ rest.map Prod.snd := (List.nodup_cons.mp (by simpa using hsnd)).1
    have hstep : forward_single_output net o b st =
        odata.targets.foldlM (fun st t => do
          let σ ← st.storage.set_virtual_list_for_input__non_owning t b
          pure { st with storage := σ })
          { st with storage := st.storage.take_array_ref_ownership b } := by
      rw [List.get?_eq_getElem?] at hodata
      simp only [forward_single_output, List.get?_eq_getElem?, hodata]
    set st1 : EvalState := { st with storage := st.storage.take_array_ref_ownership b }
      with hst1
    have hv1 : st1.storage.values = st.storage.values := rfl
    obtain ⟨stA, hfoldA, e1, e2, e3, e4, e5, e6⟩ :=
      set_single_targets_fold net b odata.targets st1
        (fun t ht => by rw [hv1]; exact (htg t ht).1) hndt
    have hA_oa : stA.storage.ownedArrays = b :: st.storage.ownedArrays := by
      rw [e2]; rfl
    have hA_ova : stA.storage.ownedVectorArrays = st.storage.ownedVectorArrays := by
      rw [e3]; rfl
    have hA_heap : stA.heap = st.heap := by rw [e1]
    have hA_inv : stA.invoked = st.invoked := by rw [e4]
    -- values in stA: unset targets became singleRef b, the rest untouched
    have hA_untouched : ∀ u, u ∉ odata.targets →
        lookupA stA.storage.values u = lookupA st.storage.values u := by
      intro u hu
      rw [e5 u hu, hv1]
    have hA_pres : ∀ s v, lookupA st.storage.values s = some v →
        lookupA stA.storage.values s = some v := by
      intro s v hv
      by_cases hts : s ∈ odata.targets
      · exact absurd hv (by rw [(htg s hts).1]; simp)
      · rw [hA_untouched s hts]; exact hv
    have hownA : OwnedInv stA := by
      obtain ⟨hnd, hoa, hova⟩ := hown
      refine ⟨?_, ?_, ?_⟩
      · show (stA.storage.registered).Nodup
        rw [Storage.registered, hA_oa, hA_ova]
        exact List.nodup_cons.mpr ⟨by simpa [Storage.registered] using hbreg,
          by simpa [Storage.registered] using hnd⟩
      · intro x hx
        rw [hA_oa] at hx
        rw [hA_heap]
        rcases List.mem_cons.mp hx with rfl | hx
        · exact ⟨cs0, hcs0⟩
        · exact hoa x hx
      · intro x hx
        rw [hA_ova] at hx
        rw [hA_heap]
        exact hova x hx
    -- preconditions for the rest
    have hOKr : ∀ pr ∈ rest, SingleOutOK net stA pr.1 := by
      intro pr hpr
      obtain ⟨od', hod', hnd', htg'⟩ := hOK pr (List.mem_cons_of_mem _ hpr)
      refine ⟨od', hod', hnd', ?_⟩
      intro t ht
      obtain ⟨hun, td, htd, hcat, horig⟩ := htg' t ht
      refine ⟨?_, td, htd, hcat, horig⟩
      have htno : t ∉ odata.targets := by
        intro hto
        obtain ⟨_, td2, htd2, _, horig2⟩ := htg t hto
        rw [htd] at htd2
        obtain rfl := Option.some_inj.mp htd2
        apply honr
        rw [horig] at horig2
        exact List.mem_map.mpr ⟨pr, hpr, horig2⟩
      rw [hA_untouched t htno]
      exact hun
    obtain ⟨st', hfold', f1, f2, f3, f4, f5, f6, f7, f8, f9, f10⟩ :=
      ih stA hfstr hsndr hOKr
        (fun pr hpr => by rw [hA_heap]; exact hb pr (List.mem_cons_of_mem _ hpr))
        (fun pr hpr => by
          show pr.2 ∉ stA.storage.registered
          rw [Storage.registered, hA_oa, hA_ova]
          intro hmem
          rcases List.mem_append.mp hmem with hm | hm
          · rcases List.mem_cons.mp hm with heq | hm
            · exact hbnr (heq ▸ List.mem_map.mpr ⟨pr, hpr, rfl⟩)
            · exact hdisj pr (List.mem_cons_of_mem _ hpr)
                (List.mem_append.mpr (Or.inl hm))
          · exact hdisj pr (List.mem_cons_of_mem _ hpr)
              (List.mem_append.mpr (Or.inr hm)))
        hownA
    refine ⟨st', ?_, by rw [f1, hA_heap], by rw [f2, hA_inv],
      by rw [f3, hA_ova], ?_, ?_, ?_, f7, ?_, ?_, ?_⟩
    · rw [List.foldlM_cons, hstep, hfoldA]
      exact hfold'
    · intro x hx
      apply f4
      rw [hA_oa]
      exact List.mem_cons_of_mem b hx
    · intro pr hpr
      rcases List.mem_cons.mp hpr with rfl | hpr
      · apply f4
        rw [hA_oa]
        exact List.mem_cons_self b _
      · exact f5 pr hpr
    · intro x hx
      rcases f6 x hx with hm | hm
      · rw [hA_oa] at hm
        rcases List.mem_cons.mp hm with rfl | hm
        · exact Or.inr (by simp)
        · exact Or.inl hm
      · exact Or.inr (by simp [hm])
    · intro s v hv
      exact f8 s v (hA_pres s v hv)
    · intro u
      rcases f9 u with hu | ⟨pr, hpr, od', hod', hm⟩
      · by_cases hts : u ∈ odata.targets
        · exact Or.inr ⟨(o, b), List.mem_cons_self _ rest, odata, hodata, hts⟩
        · rw [hu, hA_untouched u hts]
          exact Or.inl rfl
      · exact Or.inr ⟨pr, List.mem_cons_of_mem _ hpr, od', hod', hm⟩
    · intro pr hpr od' hod' t ht
      rcases List.mem_cons.mp hpr with rfl | hpr
      · rw [hodata] at hod'
        obtain rfl := Option.some_inj.mp hod'
        apply f8
        exact e6 t ht
      · obtain ⟨od2, hod2, _, _⟩ := hOKr pr hpr
        rw [hod'] at hod2
        obtain rfl := Option.some_inj.mp hod2
        exact f10 pr hpr od' hod' t ht

/-! ## Forwarding all produced or mutated vector collections -/

theorem Storage.not_twice_ownedArrays (σ : Storage) (b : Nat) :
    (σ.take_vector_array_ownership__not_twice b).ownedArrays = σ.ownedArrays := by
  unfold Storage.take_vector_array_ownership__not_twice
  split <;> rfl

theorem Storage.not_twice_ova_grow (σ : Storage) (b : Nat) :
    ∀ x ∈ σ.ownedVectorArrays,
      x ∈ (σ.take_vector_array_ownership__not_twice b).ownedVectorArrays := by
  intro x hx
  unfold Storage.take_vector_array_ownership__not_twice
  split
  · exact hx
  · exact List.mem_cons_of_mem b hx

theorem Storage.not_twice_self_mem (σ : Storage) (b : Nat) :
    b ∈ (σ.take_vector_array_ownership__not_twice b).ownedVectorArrays := by
  unfold Storage.take_vector_array_ownership__not_twice
  split
  · assumption
  · exact List.mem_cons_self b _

/-- Transporting a per-target forwarding outcome along growth of the
heap and untouched storage entries. -/
theorem VecTargetPost.widen {net : MF_EvaluateNetwork} {b : Nat}
    {cells : List (List Val)} {lo hi lo' hi' : Nat}
    {σ₁ σ₂ : List (Nat × StoredVal)} {h₁ h₂ : Heap} {t : Nat}
    (hpost : VecTargetPost net b cells lo hi σ₁ h₁ t)
    (hlo : lo' ≤ lo) (hhi : hi ≤ hi')
    (hσ : lookupA σ₂ t = lookupA σ₁ t)
    (hread : ∀ k c, h₁.read k = some c → h₂.read k = some c) :
    VecTargetPost net b cells lo' hi' σ₂ h₂ t := by
  intro tdata htd
  obtain ⟨hfn, hdum⟩ := hpost tdata htd
  refine ⟨?_, ?_⟩
  · intro hf node pidx pt hnode hpidx hpt
    obtain ⟨hrvi, hmv⟩ := hfn hf node pidx pt hnode hpidx hpt
    refine ⟨?_, ?_⟩
    · intro hr
      rw [hσ]
      exact hrvi hr
    · intro hm
      obtain ⟨nb, h1, h2, h3, h4⟩ := hmv hm
      exact ⟨nb, by omega, by omega, by rw [hσ]; exact h3, hread _ _ h4⟩
  · intro hf
    obtain ⟨hin, hout⟩ := hdum hf
    exact ⟨fun hm => by rw [hσ]; exact hin hm, fun hm => by rw [hσ]; exact hout hm⟩

/-- What forwarding one vector collection needs: an existing output
socket whose distinct fan-out targets are bindable vector-typed sockets
wired back to it. -/
def VectorOutOK (net : MF_EvaluateNetwork) (st : EvalState) (o : Nat) : Prop :=
  ∃ odata, net.graph.outputSockets.get? o = some odata ∧ odata.targets.Nodup ∧
    ∀ t ∈ odata.targets, VecTargetOK net st.storage t ∧
      ∃ td, net.graph.inputSockets.get? t = some td ∧ td.category = .Vector ∧
        td.origin = o

theorem forward_vectors_fold (net : MF_EvaluateNetwork) :
    ∀ (vl : List (Nat × Nat)) (st : EvalState),
      (vl.map Prod.fst).Nodup →
      (∀ pr ∈ vl, VectorOutOK net st pr.1) →
      (∀ pr ∈ vl, ∃ cs, st.heap.read pr.2 = some (.vector cs)) →
      (∀ p ∈ st.heap.mem, p.1 < st.heap.next) →
      OwnedInv st →
      ∃ st', vl.foldlM (fun st p => forward_vector_output net p.1 p.2 st) st = .ok st' ∧
        st.heap.next ≤ st'.heap.next ∧
        (∀ p ∈ st'.heap.mem, p.1 < st'.heap.next) ∧
        (∀ k, k < st.heap.next → st'.heap.read k = st.heap.read k) ∧
        (∀ k c, st.heap.read k = some c → st'.heap.read k = some c) ∧
        st'.invoked = st.invoked ∧
        st'.storage.ownedArrays = st.storage.ownedArrays ∧
        (∀ x ∈ st.storage.ownedVectorArrays, x ∈ st'.storage.ownedVectorArrays) ∧
        (∀ pr ∈ vl, pr.2 ∈ st'.storage.ownedVectorArrays) ∧
        (∀ p ∈ st'.heap.mem,
          p.1 ∈ st.heap.mem.map Prod.fst ∨ p.1 ∈ st'.storage.ownedVectorArrays) ∧
        OwnedInv st' ∧
        (∀ s v, lookupA st.storage.values s = some v →
          lookupA st'.storage.values s = some v) ∧
        (∀ u, lookupA st'.storage.values u = lookupA st.storage.values u ∨
          ∃ pr ∈ vl, ∃ odata, net.graph.outputSockets.get? pr.1 = some odata ∧
            u ∈ odata.targets) ∧
        (∀ pr ∈ vl, ∃ cells, st.heap.read pr.2 = some (.vector cells) ∧
          ∀ odata, net.graph.outputSockets.get? pr.1 = some odata →
            ∀ t ∈ odata.targets, VecTargetPost net pr.2 cells
              st.heap.next st'.heap.next st'.storage.values st'.heap t) ∧
        (∀ u nb, lookupA st'.storage.values u = some (.vectorArray nb) →
          lookupA st.storage.values u = some (.vectorArray nb) ∨
            (st.heap.next ≤ nb ∧ nb < st'.heap.next)) := by
  intro vl
  induction vl with
  | nil =>
    intro st _ _ _ hwfh hown
    exact ⟨st, rfl, Nat.le_refl _, hwfh, fun k _ => rfl, fun k c hc => hc, rfl, rfl,
      fun x hx => hx, fun pr hpr => absurd hpr (List.not_mem_nil pr),
      fun p hp => Or.inl (List.mem_map_of_mem Prod.fst hp), hown,
      fun s v hv => hv, fun u => Or.inl rfl,
      fun pr hpr => absurd hpr (List.not_mem_nil pr),
      fun u nb h => Or.inl h⟩
  | cons hd rest ih =>
    intro st hfst hOK hb hwfh hown
    obtain ⟨o, b⟩ := hd
    obtain ⟨odata, hodata, hndt, htg⟩ := hOK (o, b) (List.mem_cons_self _ rest)
    obtain ⟨cs0, hcs0⟩ := hb (o, b) (List.mem_cons_self _ rest)
    have hfstr : (rest.map Prod.fst).Nodup := (List.nodup_cons.mp (by simpa using hfst)).2
    have honr : o ∉ rest.map Prod.fst := (List.nodup_cons.mp (by simpa using hfst)).1
    have hstep : forward_vector_output net o b st =
        odata.targets.foldlM (fun st t => forward_vector_target net b t st)
          { st with storage := st.storage.take_vector_array_ownership__not_twice b } := by
      rw [List.get?_eq_getElem?] at hodata
      simp only [forward_vector_output, List.get?_eq_getElem?, hodata]
    set st1 : EvalState :=
      { st with storage := st.storage.take_vector_array_ownership__not_twice b }
      with hst1
    have h1vals : st1.storage.values = st.storage.values :=
      Storage.not_twice_values st.storage b
    have h1oa : st1.storage.ownedArrays = st.storage.ownedArrays :=
      Storage.not_twice_ownedArrays st.storage b
    have hbnoa : b ∉ st.storage.ownedArrays := by
      intro hmem
      obtain ⟨cs1, hcs1⟩ := hown.2.1 b hmem
      rw [hcs0] at hcs1
      exact absurd (Option.some_inj.mp hcs1) (by simp)
    have hown1 : OwnedInv st1 := by
      obtain ⟨hnd, hoa, hova⟩ := hown
      rw [Storage.registered] at hnd
      obtain ⟨hnoa, hnova, hdisj2⟩ := List.nodup_append.mp hnd
      refine ⟨?_, ?_, ?_⟩
      · show (st1.storage.ownedArrays ++ st1.storage.ownedVectorArrays).Nodup
        rw [h1oa]
        refine List.nodup_append.mpr ⟨hnoa, ?_, ?_⟩
        · show (st.storage.take_vector_array_ownership__not_twice b).ownedVectorArrays.Nodup
          unfold Storage.take_vector_array_ownership__not_twice
          split
          · exact hnova
          · exact List.nodup_cons.mpr ⟨by assumption, hnova⟩
        · intro a ha hamem
          have hamem' : a = b ∨ a ∈ st.storage.ownedVectorArrays := by
            revert hamem
            show a ∈ (st.storage.take_vector_array_ownership__not_twice b).ownedVectorArrays → _
            unfold Storage.take_vector_array_ownership__not_twice
            split
            · exact fun hh => Or.inr hh
            · intro hh
              rcases List.mem_cons.mp hh with rfl | hh
              · exact Or.inl rfl
              · exact Or.inr hh
          rcases hamem' with rfl | hamem'
          · exact hbnoa ha
          · exact hdisj2 ha hamem'
      · intro x hx
        rw [h1oa] at hx
        exact hoa x hx
      · intro x hx
        have hx' : x = b ∨ x ∈ st.storage.ownedVectorArrays := by
          revert hx
          show x ∈ (st.storage.take_vector_array_ownership__not_twice b).ownedVectorArrays → _
          unfold Storage.take_vector_array_ownership__not_twice
          split
          · exact fun hh => Or.inr hh
          · intro hh
            rcases List.mem_cons.mp hh with rfl | hh
            · exact Or.inl rfl
            · exact Or.inr hh
        rcases hx' with rfl | hx'
        · exact ⟨cs0, hcs0⟩
        · exact hova x hx'
    have hOK1 : ∀ t ∈ odata.targets, VecTargetOK net st1.storage t := by
      intro t ht
      obtain ⟨htOK, _⟩ := htg t ht
      obtain ⟨td, htd, hun, hfnOK⟩ := htOK
      exact ⟨td, htd, by rw [h1vals]; exact hun, hfnOK⟩
    obtain ⟨stA, hfoldA, q1, q2, q3, q3b, q4, q5, q6, q7, q8, q9, q10, q11, q12⟩ :=
      forward_vector_targets_fold net b cs0 odata.targets st1 hwfh hcs0 hOK1 hndt
    have hA_next : st.heap.next ≤ stA.heap.next := q1
    have hA_valsPres : ∀ s v, lookupA st.storage.values s = some v →
        lookupA stA.storage.values s = some v := by
      intro s v hv
      by_cases hts : s ∈ odata.targets
      · obtain ⟨⟨td, htd, hun, _⟩, _⟩ := htg s hts
        exact absurd hv (by rw [hun]; simp)
      · rw [q4 s hts, h1vals]
        exact hv
    -- preconditions for the rest
    have hdisjoint : ∀ pr ∈ rest, ∀ od', net.graph.outputSockets.get? pr.1 = some od' →
        ∀ t ∈ od'.targets, t ∉ odata.targets := by
      intro pr hpr od' hod' t ht hto
      obtain ⟨od2, hod2, _, htg2⟩ := hOK pr (List.mem_cons_of_mem _ hpr)
      rw [hod'] at hod2
      obtain rfl := Option.some_inj.mp hod2
      obtain ⟨_, td1, htd1, _, horig1⟩ := htg2 t ht
      obtain ⟨_, td2, htd2, _, horig2⟩ := htg t hto
      rw [htd1] at htd2
      obtain rfl := Option.some_inj.mp htd2
      apply honr
      rw [horig2] at horig1
      exact List.mem_map.mpr ⟨pr, hpr, horig1.symm⟩
    have hOKr : ∀ pr ∈ rest, VectorOutOK net stA pr.1 := by
      intro pr hpr
      obtain ⟨od', hod', hnd', htg'⟩ := hOK pr (List.mem_cons_of_mem _ hpr)
      refine ⟨od', hod', hnd', ?_⟩
      intro t ht
      obtain ⟨⟨td, htd, hun, hfnOK⟩, hcatinfo⟩ := htg' t ht
      refine ⟨⟨td, htd, ?_, hfnOK⟩, hcatinfo⟩
      rw [q4 t (hdisjoint pr hpr od' hod' t ht), h1vals]
      exact hun
    obtain ⟨st', hfold', g1, g2, g3, g3b, g4, g5, g6, g7, g8, g9, g10, g11, g12, g13⟩ :=
      ih stA hfstr hOKr
        (fun pr hpr => by
          obtain ⟨cs, hcs⟩ := hb pr (List.mem_cons_of_mem _ hpr)
          exact ⟨cs, q3b _ _ hcs⟩)
        q2 (q9 hown1)
    refine ⟨st', ?_, by omega, g2, ?_, ?_, by rw [g4, q6], by rw [g5, q5, h1oa],
      ?_, ?_, ?_, g9, ?_, ?_, ?_, ?_⟩
    · rw [List.foldlM_cons, hstep, hfoldA]
      exact hfold'
    · intro k hk
      rw [g3 k (by omega), q3 k hk]
    · intro k c hc
      exact g3b k c (q3b k c hc)
    · intro x hx
      exact g6 x (q7 x (Storage.not_twice_ova_grow st.storage b x hx))
    · intro pr hpr
      rcases List.mem_cons.mp hpr with rfl | hpr
      · exact g6 _ (q7 _ (Storage.not_twice_self_mem st.storage b))
      · exact g7 pr hpr
    · intro p hp
      rcases g8 p hp with hm | hm
      · obtain ⟨q, hq, hq1⟩ := List.mem_map.mp hm
        rcases q8 q hq with hm2 | hm2
        · rw [← hq1]
          exact Or.inl hm2
        · rw [← hq1]
          exact Or.inr (g6 _ hm2)
      · exact Or.inr hm
    · intro s v hv
      exact g10 s v (hA_valsPres s v hv)
    · intro u
      rcases g11 u with hu | ⟨pr, hpr, od', hod', hm⟩
      · by_cases hts : u ∈ odata.targets
        · exact Or.inr ⟨(o, b), List.mem_cons_self _ rest, odata, hodata, hts⟩
        · rw [hu, q4 u hts, h1vals]
          exact Or.inl rfl
      · exact Or.inr ⟨pr, List.mem_cons_of_mem _ hpr, od', hod', hm⟩
    · intro pr hpr
      rcases List.mem_cons.mp hpr with rfl | hpr
      · refine ⟨cs0, hcs0, ?_⟩
        intro od' hod' t ht
        rw [hodata] at hod'
        obtain rfl := Option.some_inj.mp hod'
        refine VecTargetPost.widen (q10 t ht) (Nat.le_refl _) g1 ?_ g3b
        rcases g11 t with hu | ⟨pr2, hpr2, od2, hod2, hm2⟩
        · exact hu
        · exact absurd ht (hdisjoint pr2 hpr2 od2 hod2 t hm2)
      · obtain ⟨cells, hcells, hpost⟩ := g12 pr hpr
        obtain ⟨cs1, hcs1⟩ := hb pr (List.mem_cons_of_mem _ hpr)
        have hcc : cells = cs1 := by
          have hh := q3b _ _ hcs1
          rw [hcells] at hh
          exact BufContent.vector.inj (Option.some_inj.mp hh)
        subst hcc
        refine ⟨cells, hcs1, ?_⟩
        intro od' hod' t ht
        exact VecTargetPost.widen (hpost od' hod' t ht) hA_next (Nat.le_refl _)
          rfl (fun k c hc => hc)
    · intro u nb hu
      rcases g13 u nb hu with hm | hm
      · by_cases hts : u ∈ odata.targets
        · have hq := q11 u hts nb hm
          have hstnx : st1.heap.next = st.heap.next := rfl
          right
          omega
        · rw [q4 u hts, h1vals] at hm
          exact Or.inl hm
      · right
        omega

/-! ## Wiring packages derived from graph well-formedness -/

theorem sameShape_single {cs : List (Option Val)} {c : BufContent}
    (h : sameShape (.single cs) c) : ∃ cs', c = .single cs' := by
  cases c with
  | single cs' => exact ⟨cs', rfl⟩
  | vector cs' => exact absurd h (by simp [sameShape])

theorem sameShape_vector {cs : List (List Val)} {c : BufContent}
    (h : sameShape (.vector cs) c) : ∃ cs', c = .vector cs' := by
  cases c with
  | single cs' => exact absurd h (by simp [sameShape])
  | vector cs' => exact ⟨cs', rfl⟩

/-- Everything the forwarding passes need to know about the output
socket wired to parameter `p` of a function node. -/
theorem OutSock_package (net : MF_EvaluateNetwork) (hwf : NetWF net)
    (n : Nat) (node : MFFunctionNodeData)
    (hn : net.graph.functionNodes.get? n = some node)
    (p o : Nat) (pt : MFParamCategory)
    (hpt : node.function.paramTypes.get? p = some pt)
    (hOS : OutSock node p o) :
    o < net.graph.outputSockets.length ∧
    net.graph.outputSockets.get? o = some (outD net.graph o) ∧
    (outD net.graph o).nodeIsFunction = true ∧
    (outD net.graph o).node = n ∧
    catMatchOut pt ((outD net.graph o).category) = true ∧
    (outD net.graph o).targets.Nodup ∧
    ∀ t ∈ (outD net.graph o).targets, t < net.graph.inputSockets.length ∧
      (inpD net.graph t).origin = o ∧
      (inpD net.graph t).category = (outD net.graph o).category := by
  have hnlt : n < net.graph.functionNodes.length := get?_lt_length hn
  have hfd : fnD net.graph n = node := fnD_eq hn
  rw [OutSock] at hOS
  set j := node.output_param_indices.indexOf p with hj
  have hjlt : j < node.outputs.length := get?_lt_length hOS
  have hlens := hwf.nodeLens n hnlt
  rw [hfd] at hlens
  have hjlt2 : j < node.output_param_indices.length := by
    have hl := hlens.2.1
    omega
  have hpm : p ∈ node.output_param_indices := List.indexOf_lt_length.mp hjlt2
  have hgdp : node.output_param_indices.getD j 0 = p := by
    have hh := get?_eq_getD_of_lt node.output_param_indices 0 hjlt2
    rw [List.get?_eq_get hjlt2, List.indexOf_get hjlt2] at hh
    exact (Option.some_inj.mp hh).symm
  have hgdo : node.outputs.getD j 0 = o := by
    have hh := get?_eq_getD_of_lt node.outputs 0 hjlt
    rw [hOS] at hh
    exact (Option.some_inj.mp hh).symm
  have hno := hwf.nodeOutputs n hnlt j (by rw [hfd]; exact hjlt)
  rw [hfd, hgdo] at hno
  have hops := hwf.opiSpec n hnlt j (by rw [hfd]; exact hjlt2)
  rw [hfd, hgdp, hgdo] at hops
  have hptD : node.function.paramTypes.getD p .ReadonlySingleInput = pt := by
    have hh := get?_eq_getD_of_lt node.function.paramTypes .ReadonlySingleInput
      (get?_lt_length hpt)
    rw [hpt] at hh
    exact (Option.some_inj.mp hh).symm
  rw [hptD] at hops
  have holt : o < net.graph.outputSockets.length := hno.1
  have hoget : net.graph.outputSockets.get? o = some (outD net.graph o) := by
    rw [outD]
    exact get?_eq_getD_of_lt _ _ holt
  have htgts := hwf.outTargets o holt
  refine ⟨holt, hoget, hno.2.1, hno.2.2.1, hops.2.2.2, htgts.1, ?_⟩
  intro t ht
  obtain ⟨htlt, horig⟩ := htgts.2 t ht
  have hio := hwf.inOrigin t htlt
  rw [horig] at hio
  exact ⟨htlt, horig, hio.2.2⟩

/-- The function parameter a function-node input socket is wired to,
with its category coherence. -/
theorem consumer_package (net : MF_EvaluateNetwork) (hwf : NetWF net)
    (t : Nat) (td : MFInputSocketData)
    (htd : net.graph.inputSockets.get? t = some td)
    (hfn : td.nodeIsFunction = true) :
    ∃ node pidx pt, net.graph.functionNodes.get? td.node = some node ∧
      node.input_param_indices.get? td.index = some pidx ∧
      node.function.paramTypes.get? pidx = some pt ∧
      catMatchIn pt td.category = true := by
  have htlt : t < net.graph.inputSockets.length := get?_lt_length htd
  have hitd : inpD net.graph t = td := inpD_eq htd
  have hinn := hwf.inNode t htlt
  rw [hitd] at hinn
  obtain ⟨hnlt, hsget⟩ := hinn hfn
  set node := fnD net.graph td.node with hnode
  have hnget : net.graph.functionNodes.get? td.node = some node := by
    rw [hnode, fnD]
    exact get?_eq_getD_of_lt _ _ hnlt
  have hjlt : td.index < node.inputs.length := get?_lt_length hsget
  have hlens := hwf.nodeLens td.node hnlt
  rw [← hnode] at hlens
  have hjlt2 : td.index < node.input_param_indices.length := by
    have hl := hlens.1
    omega
  set pidx := node.input_param_indices.getD td.index 0 with hpidx
  have hpget : node.input_param_indices.get? td.index = some pidx :=
    get?_eq_getD_of_lt _ _ hjlt2
  have hips := hwf.ipiSpec td.node hnlt td.index (by rw [← hnode] at *; exact hjlt2)
  rw [← hnode] at hips
  have hsgd : node.inputs.getD td.index 0 = t := by
    have hh := get?_eq_getD_of_lt node.inputs 0 hjlt
    rw [hsget] at hh
    exact (Option.some_inj.mp hh).symm
  rw [hsgd, hitd] at hips
  refine ⟨node, pidx, node.function.paramTypes.getD pidx .ReadonlySingleInput,
    hnget, hpget, ?_, hips.2.2.2⟩
  exact get?_eq_getD_of_lt _ _ hips.1

/-! ## One node invocation preserves the invariant -/

theorem ok_bind_eq {α β : Type} (a : α) (f : α → Except Fault β) :
    (Except.ok a >>= f) = f a := rfl

theorem mem_getD_of_mem {l : List Nat} {x : Nat} (h : x ∈ l) :
    l.getD (l.indexOf x) 0 = x := by
  have hil := List.indexOf_lt_length.mpr h
  have hh := get?_eq_getD_of_lt l 0 hil
  rw [List.get?_eq_get hil, List.indexOf_get hil] at hh
  exact (Option.some_inj.mp hh).symm

theorem compute_and_forward_ok (net : MF_EvaluateNetwork) (mask : MFMask) (n₀ : Nat)
    (hwf : NetWF net) (n : Nat) (node : MFFunctionNodeData)
    (hn : net.graph.functionNodes.get? n = some node)
    (st : EvalState) (hinv : Inv net n₀ st) (hfresh : n ∉ st.invoked)
    (hcomp : ∀ s ∈ node.inputs, st.storage.input_is_computed s = true) :
    ∃ st', compute_and_forward_outputs net mask n node st = .ok st' ∧
      Mono n₀ st st' ∧ st'.invoked = st.invoked ++ [n] ∧ Inv net n₀ st' := by
  have hnlt : n < net.graph.functionNodes.length := get?_lt_length hn
  have hfd : fnD net.graph n = node := fnD_eq hn
  set asz := mask.min_array_size with hasz
  set lo := st.heap.next with hlo
  -- boundary sockets of the network are never function sockets
  have hmInFn : ∀ o ∈ net.m_inputs, (outD net.graph o).nodeIsFunction = false := by
    intro o ho
    have hil := List.indexOf_lt_length.mpr ho
    have hh := (hwf.mInputsOK _ hil).2
    rw [mem_getD_of_mem ho] at hh
    exact hh
  have hmOutFn : ∀ t ∈ net.m_outputs, (inpD net.graph t).nodeIsFunction = false := by
    intro t ht
    have hil := List.indexOf_lt_length.mpr ht
    have hh := (hwf.mOutputsOK _ hil).2
    rw [mem_getD_of_mem ht] at hh
    exact hh
  -- a target of one of this node's outputs cannot be computed yet
  have huncomputed : ∀ o, (outD net.graph o).nodeIsFunction = true →
      (outD net.graph o).node = n → ∀ t td, net.graph.inputSockets.get? t = some td →
      td.origin = o → lookupA st.storage.values t = none := by
    intro o hofn honode t td htd horig
    cases hlv : lookupA st.storage.values t with
    | none => rfl
    | some v =>
      exfalso
      have hcomp' : st.storage.input_is_computed t = true := by
        rw [Storage.input_is_computed, hlv]
        rfl
      obtain ⟨td', htd', hcases⟩ := hinv.computedOrigin t hcomp'
      rw [htd] at htd'
      obtain rfl := Option.some_inj.mp htd'
      rcases hcases with hm | ⟨m, hmem, hOo⟩
      · rw [horig] at hm
        rw [hmInFn o hm] at hofn
        exact absurd hofn (by simp)
      · obtain ⟨od2, hod2, _, hnd2⟩ := hOo
        rw [horig] at hod2
        rw [outD_eq hod2] at honode
        have hmn : m = n := hnd2.symm.trans honode
        rw [hmn] at hmem
        exact hfresh hmem
  have hreglo : ∀ x ∈ st.storage.registered, x < st.heap.next := by
    intro x hx
    rcases List.mem_append.mp hx with hm | hm
    · obtain ⟨cs, hcs⟩ := hinv.owned.2.1 x hm
      exact hinv.keysLt _ (lookupA_mem hcs)
    · obtain ⟨cs, hcs⟩ := hinv.owned.2.2 x hm
      exact hinv.keysLt _ (lookupA_mem hcs)
  -- Phase A: the parameter builder
  have hinj : ∀ p ∈ List.range node.function.paramTypes.length,
      ∀ p' ∈ List.range node.function.paramTypes.length, p ≠ p' →
      ∀ o, OutSock node p o → OutSock node p' o → False := by
    intro p _ p' _ hne o hOS hOS'
    have hlt1 := get?_lt_length hOS
    have hnodup : node.outputs.Nodup := by
      have hh := (hwf.nodeLens n hnlt).2.2.2
      rw [hfd] at hh
      exact hh
    have heq : node.output_param_indices.indexOf p =
        node.output_param_indices.indexOf p' :=
      List.get?_inj hlt1 hnodup (hOS.trans hOS'.symm)
    have hlt2 := get?_lt_length hOS'
    have hlens := hwf.nodeLens n hnlt
    rw [hfd] at hlens
    have hp1 : p ∈ node.output_param_indices := List.indexOf_lt_length.mp (by
      have hl := hlens.2.1
      omega)
    have hp2 : p' ∈ node.output_param_indices := List.indexOf_lt_length.mp (by
      have hl := hlens.2.1
      omega)
    have h1 := mem_getD_of_mem hp1
    have h2 := mem_getD_of_mem hp2
    rw [heq] at h1
    rw [h1] at h2
    exact hne h2
  have hps : ∀ p ∈ List.range node.function.paramTypes.length,
      BuildParamOK node st.storage st.heap p := fun p hp =>
    buildOK_of_inv net hwf n node hn st hinv.stored hcomp p (List.mem_range.mp hp)
  obtain ⟨acc', hfold, d1, d2, d3, d4, d5, d6, d7, d8, d9, d10, d11, d12, d13⟩ :=
    build_params_fold node asz st.storage st.heap lo
      (List.range node.function.paramTypes.length) ⟨st.heap, [], [], []⟩
      hps (List.nodup_range _) hinj hinv.keysLt (fun k c hc => hc) (Nat.le_refl _)
      ⟨List.nodup_nil, fun pr hpr => absurd hpr (List.not_mem_nil pr)⟩
      (fun pr hpr => absurd hpr (List.not_mem_nil pr))
      (fun bp hbp => absurd hbp (List.not_mem_nil bp))
      List.nodup_nil
      (fun pr hpr => absurd hpr (List.not_mem_nil pr))
  obtain ⟨hprovS, hprovV⟩ := build_params_provenance node asz st.storage
    (List.range node.function.paramTypes.length) ⟨st.heap, [], [], []⟩ acc' hfold
  have hSOprov : ∀ pr ∈ acc'.singleFwd,
      ∃ p, p ∈ List.range node.function.paramTypes.length ∧
        node.function.paramTypes.get? p = some .SingleOutput ∧ OutSock node p pr.1 := by
    intro pr hpr
    rcases hprovS pr hpr with hm | ⟨p, hp1, hp2, hp3⟩
    · exact absurd hm (List.not_mem_nil pr)
    · exact ⟨p, hp1, hp2, hp3⟩
  have hVOprov : ∀ pr ∈ acc'.vectorFwd,
      ∃ p, p ∈ List.range node.function.paramTypes.length ∧
        (node.function.paramTypes.get? p = some .VectorOutput ∨
          node.function.paramTypes.get? p = some .MutableVector) ∧
        OutSock node p pr.1 := by
    intro pr hpr
    rcases hprovV pr hpr with hm | ⟨p, hp1, hp2, hp3⟩
    · exact absurd hm (List.not_mem_nil pr)
    · exact ⟨p, hp1, hp2, hp3⟩
  -- Phase B: running the leaf function
  have himpl : ImplWF node.function := by
    have hh := hwf.implWF n hnlt
    rw [hfd] at hh
    exact hh
  obtain ⟨hH, r1, r2, r3, r4, r5, r6⟩ :=
    runFunction_ok node.function mask acc'.builtParams acc'.heap himpl
      (fun bp hbp => (d10 bp hbp).1)
  set st1 : EvalState := { heap := hH, storage := st.storage, invoked := st.invoked }
    with hst1
  have hkindSA : ∀ b cs, acc'.heap.read b = some (.single cs) →
      ∃ cs', hH.read b = some (.single cs') := by
    intro b cs hb
    have hsome : (hH.read b).isSome = true := by
      rw [r5, hb]
      rfl
    obtain ⟨c', hc'⟩ := Option.isSome_iff_exists.mp hsome
    obtain ⟨c, hc, hrel⟩ := r6 b c' hc'
    rw [hb] at hc
    obtain rfl := Option.some_inj.mp hc
    rcases hrel with rfl | hss
    · exact ⟨cs, hc'⟩
    · obtain ⟨cs', rfl⟩ := sameShape_single hss
      exact ⟨cs', hc'⟩
  have hkindVA : ∀ b cs, acc'.heap.read b = some (.vector cs) →
      ∃ cs', hH.read b = some (.vector cs') := by
    intro b cs hb
    have hsome : (hH.read b).isSome = true := by
      rw [r5, hb]
      rfl
    obtain ⟨c', hc'⟩ := Option.isSome_iff_exists.mp hsome
    obtain ⟨c, hc, hrel⟩ := r6 b c' hc'
    rw [hb] at hc
    obtain rfl := Option.some_inj.mp hc
    rcases hrel with rfl | hss
    · exact ⟨cs, hc'⟩
    · obtain ⟨cs', rfl⟩ := sameShape_vector hss
      exact ⟨cs', hc'⟩
  have hwfH : ∀ p ∈ hH.mem, p.1 < hH.next := by
    intro p hp
    have hk : p.1 ∈ acc'.heap.mem.map Prod.fst := by
      rw [← r3]
      exact List.mem_map_of_mem Prod.fst hp
    obtain ⟨q, hq, hq1⟩ := List.mem_map.mp hk
    rw [r2, ← hq1]
    exact d2 q hq
  -- reads below the watermark survive the run
  have hlowH : ∀ k, k < n₀ → hH.read k = st.heap.read k := by
    intro k hk
    have hklo : k < lo := by
      have hb := hinv.base
      omega
    rw [r4 k ?_, d4 k hklo]
    intro bp hbp hw
    rcases (d10 bp hbp).2.1 hw with ⟨hl, _⟩ | ⟨s, hs⟩
    · omega
    · have := hinv.vaFresh s bp.buf hs
      omega
  -- Phase C: forwarding the single outputs
  have hsfst : (acc'.singleFwd.map Prod.fst).Nodup := by
    have hd := d11
    rw [List.map_append] at hd
    exact hd.of_append_left
  have hfstdisj : ∀ x, x ∈ acc'.singleFwd.map Prod.fst →
      x ∈ acc'.vectorFwd.map Prod.fst → False := by
    have hd := d11
    rw [List.map_append] at hd
    obtain ⟨_, _, hdisj2⟩ := List.nodup_append.mp hd
    exact fun x hx1 hx2 => hdisj2 hx1 hx2
  have hSOOK : ∀ pr ∈ acc'.singleFwd, SingleOutOK net st1 pr.1 := by
    intro pr hpr
    obtain ⟨p, hpmem, hptp, hOS⟩ := hSOprov pr hpr
    obtain ⟨holt, hoget, hofn, honode, hcatm, hndtg, htgts⟩ :=
      OutSock_package net hwf n node hn p pr.1 _ hptp hOS
    have hocat : (outD net.graph pr.1).category = .Single := catMatchOut_so hcatm
    refine ⟨outD net.graph pr.1, hoget, hndtg, ?_⟩
    intro t ht
    obtain ⟨htlt, horig, hcat⟩ := htgts t ht
    have htds : net.graph.inputSockets.get? t = some (inpD net.graph t) := by
      rw [inpD]
      exact get?_eq_getD_of_lt _ _ htlt
    refine ⟨?_, inpD net.graph t, htds, by rw [hcat, hocat], horig⟩
    exact huncomputed pr.1 hofn honode t _ htds horig
  have hownH : OwnedInv st1 := by
    refine ⟨hinv.owned.1, ?_, ?_⟩
    · intro x hx
      obtain ⟨cs, hcs⟩ := hinv.owned.2.1 x hx
      exact hkindSA x cs (d3 _ _ hcs)
    · intro x hx
      obtain ⟨cs, hcs⟩ := hinv.owned.2.2 x hx
      exact hkindVA x cs (d3 _ _ hcs)
  obtain ⟨stB, hfoldS, f1, f2, f3, f4, f5, f6, f7, f8, f9, f10⟩ :=
    forward_singles_fold net acc'.singleFwd st1 hsfst d8.1 hSOOK
      (fun pr hpr => hkindSA pr.2 _ (d8.2 pr hpr).2.2)
      (fun pr hpr => by
        intro hmem
        have ha := hreglo pr.2 hmem
        have hb2 := (d8.2 pr hpr).1
        omega)
      hownH
  have hnextB : stB.heap.next = acc'.heap.next := by
    rw [f1]
    exact r2
  have hreadB : ∀ b c, hH.read b = some c → stB.heap.read b = some c := by
    intro b c hb
    rw [f1]
    exact hb
  have hsinglereadB : ∀ pr ∈ acc'.singleFwd,
      ∃ cs, stB.heap.read pr.2 = some (.single cs) := by
    intro pr hpr
    obtain ⟨cs', hcs'⟩ := hkindSA pr.2 _ (d8.2 pr hpr).2.2
    exact ⟨cs', hreadB _ _ hcs'⟩
  -- Phase D: forwarding the vector outputs
  have hvfst : (acc'.vectorFwd.map Prod.fst).Nodup := by
    have hd := d11
    rw [List.map_append] at hd
    exact hd.of_append_right
  have hconsVec : ∀ t td, net.graph.inputSockets.get? t = some td →
      td.category = .Vector → td.nodeIsFunction = true →
      ∃ node' pidx pt', net.graph.functionNodes.get? td.node = some node' ∧
        node'.input_param_indices.get? td.index = some pidx ∧
        node'.function.paramTypes.get? pidx = some pt' ∧
        (pt'.is_readonly_vector_input = true ∨ pt'.is_mutable_vector = true) := by
    intro t td htd hcat hfn
    obtain ⟨node', pidx, pt', h1, h2, h3, h4⟩ := consumer_package net hwf t td htd hfn
    rw [hcat] at h4
    refine ⟨node', pidx, pt', h1, h2, h3, ?_⟩
    cases pt' with
    | ReadonlySingleInput => exact absurd h4 (by decide)
    | ReadonlyVectorInput => exact Or.inl rfl
    | SingleOutput => exact absurd h4 (by decide)
    | VectorOutput => exact absurd h4 (by decide)
    | MutableVector => exact Or.inr rfl
  have hVOpkg : ∀ pr ∈ acc'.vectorFwd,
      pr.1 < net.graph.outputSockets.length ∧
      net.graph.outputSockets.get? pr.1 = some (outD net.graph pr.1) ∧
      (outD net.graph pr.1).nodeIsFunction = true ∧
      (outD net.graph pr.1).node = n ∧
      (outD net.graph pr.1).category = .Vector ∧
      (outD net.graph pr.1).targets.Nodup ∧
      ∀ t ∈ (outD net.graph pr.1).targets, t < net.graph.inputSockets.length ∧
        (inpD net.graph t).origin = pr.1 ∧
        (inpD net.graph t).category = (outD net.graph pr.1).category := by
    intro pr hpr
    obtain ⟨p, hpmem, hptv, hOS⟩ := hVOprov pr hpr
    rcases hptv with h | h
    · obtain ⟨a1, a2, a3, a4, a5, a6, a7⟩ :=
        OutSock_package net hwf n node hn p pr.1 _ h hOS
      exact ⟨a1, a2, a3, a4, catMatchOut_vo a5, a6, a7⟩
    · obtain ⟨a1, a2, a3, a4, a5, a6, a7⟩ :=
        OutSock_package net hwf n node hn p pr.1 _ h hOS
      exact ⟨a1, a2, a3, a4, catMatchOut_mv a5, a6, a7⟩
  have hVOOK : ∀ pr ∈ acc'.vectorFwd, VectorOutOK net stB pr.1 := by
    intro pr hpr
    obtain ⟨holt, hoget, hofn, honode, hocat, hndtg, htgts⟩ := hVOpkg pr hpr
    refine ⟨outD net.graph pr.1, hoget, hndtg, ?_⟩
    intro t ht
    obtain ⟨htlt, horig, hcat⟩ := htgts t ht
    have htds : net.graph.inputSockets.get? t = some (inpD net.graph t) := by
      rw [inpD]
      exact get?_eq_getD_of_lt _ _ htlt
    have hunset : lookupA stB.storage.values t = none := by
      rcases f9 t with hfeq | ⟨prs, hprs, ods, hods, hts⟩
      · rw [hfeq]
        exact huncomputed pr.1 hofn honode t _ htds horig
      · exfalso
        obtain ⟨ps2, hps2mem, hptp2, hOS2⟩ := hSOprov prs hprs
        obtain ⟨b1, b2, b3, b4, b5, b6, b7⟩ :=
          OutSock_package net hwf n node hn ps2 prs.1 _ hptp2 hOS2
        rw [b2] at hods
        obtain rfl := Option.some_inj.mp hods
        obtain ⟨_, horig2, _⟩ := b7 t hts
        rw [horig] at horig2
        exact hfstdisj prs.1 (List.mem_map.mpr ⟨prs, hprs, rfl⟩)
          (by rw [← horig2]; exact List.mem_map.mpr ⟨pr, hpr, rfl⟩)
    have hvcat : (inpD net.graph t).category = .Vector := by
      rw [hcat, hocat]
    refine ⟨⟨inpD net.graph t, htds, hunset, ?_⟩,
      inpD net.graph t, htds, hvcat, horig⟩
    intro hfn
    exact hconsVec t _ htds hvcat hfn
  have hvecreadB : ∀ pr ∈ acc'.vectorFwd,
      ∃ cs, stB.heap.read pr.2 = some (.vector cs) := by
    intro pr hpr
    rcases d9 pr hpr with ⟨_, _, hrd⟩ | ⟨s, hs⟩
    · obtain ⟨cs', hcs'⟩ := hkindVA pr.2 _ hrd
      exact ⟨cs', hreadB _ _ hcs'⟩
    · obtain ⟨sdata, hsd, _, hvec, _⟩ := hinv.stored s _ hs
      obtain ⟨_, cs, hcs⟩ := hvec pr.2 (Or.inr rfl)
      obtain ⟨cs', hcs'⟩ := hkindVA pr.2 cs (d3 _ _ hcs)
      exact ⟨cs', hreadB _ _ hcs'⟩
  have hwfB : ∀ p ∈ stB.heap.mem, p.1 < stB.heap.next := by
    intro p hp
    rw [f1] at hp ⊢
    exact hwfH p hp
  obtain ⟨stC, hfoldV, g1, g2, g3, g3b, g4, g5, g6, g7, g8, g9, g10, g11, g12, g13⟩ :=
    forward_vectors_fold net acc'.vectorFwd stB hvfst hVOOK hvecreadB hwfB f7
  -- assembled facts
  have hnextStB : st.heap.next ≤ stB.heap.next := by
    rw [hnextB]
    exact d1
  have hvaluesPresC : ∀ s v, lookupA st.storage.values s = some v →
      lookupA stC.storage.values s = some v :=
    fun s v hv => g10 s v (f8 s v hv)
  have hcomputedPresC : ∀ s, st.storage.input_is_computed s = true →
      stC.storage.input_is_computed s = true := by
    intro s hc
    rw [Storage.input_is_computed] at hc ⊢
    obtain ⟨v, hv⟩ := Option.isSome_iff_exists.mp hc
    rw [hvaluesPresC s v hv]
    rfl
  have hkindC_single : ∀ b cs, st.heap.read b = some (.single cs) →
      ∃ cs', stC.heap.read b = some (.single cs') := by
    intro b cs hb
    obtain ⟨cs', hcs'⟩ := hkindSA b cs (d3 _ _ hb)
    exact ⟨cs', g3b _ _ (hreadB _ _ hcs')⟩
  have hkindC_vector : ∀ b cs, st.heap.read b = some (.vector cs) →
      ∃ cs', stC.heap.read b = some (.vector cs') := by
    intro b cs hb
    obtain ⟨cs', hcs'⟩ := hkindVA b cs (d3 _ _ hb)
    exact ⟨cs', g3b _ _ (hreadB _ _ hcs')⟩
  have hregPres : ∀ x ∈ st.storage.registered, x ∈ stC.storage.registered := by
    intro x hx
    rcases List.mem_append.mp hx with hm | hm
    · apply List.mem_append.mpr
      left
      rw [g5]
      exact f4 x hm
    · apply List.mem_append.mpr
      right
      apply g6
      rw [f3]
      exact hm
  have hrun : compute_and_forward_outputs net mask n node st =
      .ok { stC with invoked := stC.invoked ++ [n] } := by
    simp only [compute_and_forward_outputs]
    rw [hfold, ok_bind_eq, r1, ok_bind_eq]
    rw [show (({ heap := hH, storage := st.storage, invoked := st.invoked } : EvalState)) =
      st1 from rfl]
    rw [hfoldS, ok_bind_eq, hfoldV, ok_bind_eq]
  refine ⟨{ stC with invoked := stC.invoked ++ [n] }, hrun, ?_, ?_, ?_⟩
  · -- Mono
    refine ⟨?_, ?_, fun s v hv => hvaluesPresC s v hv, ?_, ⟨[n], by rw [g4, f2]⟩⟩
    · show st.heap.next ≤ stC.heap.next
      omega
    · intro k hk
      show stC.heap.read k = st.heap.read k
      rw [g3 k (by have hbase := hinv.base; omega), f1]
      exact hlowH k hk
    · -- every value added during the invocation names an engine buffer
      intro s v hv
      rcases g11 s with hgeq | ⟨prv, hprv, odv, hodv, htv⟩
      · rw [hgeq] at hv
        rcases f9 s with hfeq | ⟨prs, hprs, ods, hods, hts⟩
        · rw [hfeq] at hv
          exact Or.inl hv
        · have hvB := f10 prs hprs ods hods s hts
          obtain rfl : v = .singleRef prs.2 := Option.some_inj.mp (hv.symm.trans hvB)
          right
          show n₀ ≤ prs.2
          have hb1 := (d8.2 prs hprs).1
          have hbase := hinv.base
          omega
      · obtain ⟨holt, hoget, hofn, honode, hocat, hndtg, htgts⟩ := hVOpkg prv hprv
        rw [hoget] at hodv
        obtain rfl := Option.some_inj.mp hodv
        obtain ⟨cells, hcellsB, hpost⟩ := g12 prv hprv
        obtain ⟨htlt, horig, hcat⟩ := htgts s htv
        have hsd : net.graph.inputSockets.get? s = some (inpD net.graph s) := by
          rw [inpD]
          exact get?_eq_getD_of_lt _ _ htlt
        have hcatV : (inpD net.graph s).category = .Vector := by
          rw [hcat, hocat]
        have hpostS := hpost (outD net.graph prv.1) hoget s htv (inpD net.graph s) hsd
        have hprvhigh : n₀ ≤ prv.2 := by
          rcases d9 prv hprv with ⟨hl, _, _⟩ | ⟨s2, hs2⟩
          · have hbase := hinv.base
            omega
          · exact hinv.vaFresh s2 prv.2 hs2
        by_cases hfn : (inpD net.graph s).nodeIsFunction = true
        · obtain ⟨node', pidx, pt', h1, h2, h3, h4⟩ := hconsVec s _ hsd hcatV hfn
          obtain ⟨hrvi, hmv⟩ := hpostS.1 hfn node' pidx pt' h1 h2 h3
          rcases h4 with hrv | hmvb
          · obtain rfl : v = .vectorRef prv.2 :=
              Option.some_inj.mp (hv.symm.trans (hrvi hrv))
            exact Or.inr hprvhigh
          · obtain ⟨nb, hnb1, hnb2, hlk, hrd⟩ := hmv hmvb
            obtain rfl : v = .vectorArray nb := Option.some_inj.mp (hv.symm.trans hlk)
            right
            show n₀ ≤ nb
            have hbase := hinv.base
            omega
        · have hfnF : (inpD net.graph s).nodeIsFunction = false :=
            Bool.eq_false_iff.mpr hfn
          obtain ⟨hinm, houtm⟩ := hpostS.2 hfnF
          by_cases hmem : s ∈ net.m_outputs
          · obtain rfl : v = .vectorRef prv.2 :=
              Option.some_inj.mp (hv.symm.trans (hinm hmem))
            exact Or.inr hprvhigh
          · exact absurd (hv.symm.trans (houtm hmem)) (by simp)
  · rw [g4, f2]
  · -- Inv
    refine ⟨g2, by show n₀ ≤ stC.heap.next; have := hinv.base; omega, ?_, g9, ?_, ?_, ?_,
      ?_, ?_, ?_⟩
    · -- StoredOK
      intro s v hv
      rcases g11 s with hgeq | ⟨prv, hprv, odv, hodv, htv⟩
      · rw [hgeq] at hv
        rcases f9 s with hfeq | ⟨prs, hprs, ods, hods, hts⟩
        · rw [hfeq] at hv
          obtain ⟨sdata, hsd, hsingle, hvec, hmut⟩ := hinv.stored s v hv
          refine ⟨sdata, hsd, ?_, ?_, hmut⟩
          · intro b hb
            obtain ⟨hcat, cs, hcs⟩ := hsingle b hb
            obtain ⟨cs', hcs'⟩ := hkindC_single b cs hcs
            exact ⟨hcat, cs', hcs'⟩
          · intro b hb
            obtain ⟨hcat, cs, hcs⟩ := hvec b hb
            obtain ⟨cs', hcs'⟩ := hkindC_vector b cs hcs
            exact ⟨hcat, cs', hcs'⟩
        · -- bound by the single-output pass
          have hvB := f10 prs hprs ods hods s hts
          obtain rfl : v = .singleRef prs.2 := Option.some_inj.mp (hv.symm.trans hvB)
          obtain ⟨p, hpmem, hptp, hOS⟩ := hSOprov prs hprs
          obtain ⟨holt, hoget, hofn, honode, hcatm, hndtg, htgts⟩ :=
            OutSock_package net hwf n node hn p prs.1 _ hptp hOS
          rw [hoget] at hods
          obtain rfl := Option.some_inj.mp hods
          obtain ⟨htlt, horig, hcat⟩ := htgts s hts
          have hsd : net.graph.inputSockets.get? s = some (inpD net.graph s) := by
            rw [inpD]
            exact get?_eq_getD_of_lt _ _ htlt
          have hcatS : (inpD net.graph s).category = .Single := by
            rw [hcat]
            exact catMatchOut_so hcatm
          refine ⟨inpD net.graph s, hsd, ?_, ?_, ?_⟩
          · intro b hb
            obtain rfl : prs.2 = b := StoredVal.singleRef.inj hb
            obtain ⟨cs, hcs⟩ := hsinglereadB prs hprs
            exact ⟨hcatS, cs, g3b _ _ hcs⟩
          · intro b hb
            rcases hb with hb | hb <;> exact absurd hb (by simp)
          · intro hmc
            exfalso
            obtain ⟨td2, node2, pidx2, htd2, hfn2, hnode2, hpidx2, hpt2⟩ := hmc
            rw [hsd] at htd2
            obtain rfl := Option.some_inj.mp htd2
            obtain ⟨node3, pidx3, pt3, h1, h2, h3, h4⟩ :=
              consumer_package net hwf s _ hsd hfn2
            have e1 : node3 = node2 := Option.some_inj.mp (h1.symm.trans hnode2)
            subst e1
            have e2 : pidx3 = pidx2 := Option.some_inj.mp (h2.symm.trans hpidx2)
            subst e2
            have e3 : pt3 = .MutableVector := Option.some_inj.mp (h3.symm.trans hpt2)
            subst e3
            rw [hcatS] at h4
            exact absurd h4 (by decide)
      · -- bound by the vector-output pass
        obtain ⟨holt, hoget, hofn, honode, hocat, hndtg, htgts⟩ := hVOpkg prv hprv
        rw [hoget] at hodv
        obtain rfl := Option.some_inj.mp hodv
        obtain ⟨cells, hcellsB, hpost⟩ := g12 prv hprv
        obtain ⟨htlt, horig, hcat⟩ := htgts s htv
        have hsd : net.graph.inputSockets.get? s = some (inpD net.graph s) := by
          rw [inpD]
          exact get?_eq_getD_of_lt _ _ htlt
        have hcatV : (inpD net.graph s).category = .Vector := by
          rw [hcat, hocat]
        have hpostS := hpost (outD net.graph prv.1) hoget s htv (inpD net.graph s) hsd
        by_cases hfn : (inpD net.graph s).nodeIsFunction = true
        · obtain ⟨node', pidx, pt', h1, h2, h3, h4⟩ := hconsVec s _ hsd hcatV hfn
          obtain ⟨hrvi, hmv⟩ := hpostS.1 hfn node' pidx pt' h1 h2 h3
          have hMCcase : ∀ hmc : MutConsumer net s, pt' = .MutableVector := by
            intro hmc
            obtain ⟨td2, node2, pidx2, htd2, hfn2, hnode2, hpidx2, hpt2⟩ := hmc
            rw [hsd] at htd2
            obtain rfl := Option.some_inj.mp htd2
            have e1 : node' = node2 := Option.some_inj.mp (h1.symm.trans hnode2)
            subst e1
            have e2 : pidx = pidx2 := Option.some_inj.mp (h2.symm.trans hpidx2)
            subst e2
            exact Option.some_inj.mp (h3.symm.trans hpt2)
          rcases h4 with hrv | hmvb
          · -- read-only vector consumer: shared reference
            have hlk := hrvi hrv
            obtain rfl : v = .vectorRef prv.2 := Option.some_inj.mp (hv.symm.trans hlk)
            refine ⟨inpD net.graph s, hsd, ?_, ?_, ?_⟩
            · intro b hb
              exact absurd hb (by simp)
            · intro b hb
              have hbeq : prv.2 = b := by
                rcases hb with hb | hb
                · exact StoredVal.vectorRef.inj hb
                · exact absurd hb (by simp)
              obtain rfl := hbeq
              exact ⟨hcatV, cells, g3b _ _ hcellsB⟩
            · intro hmc
              have hpt' := hMCcase hmc
              rw [hpt'] at hrv
              exact absurd hrv (by decide)
          · -- mutable consumer: private deep copy
            obtain ⟨nb, hnb1, hnb2, hlk, hrd⟩ := hmv hmvb
            obtain rfl : v = .vectorArray nb := Option.some_inj.mp (hv.symm.trans hlk)
            refine ⟨inpD net.graph s, hsd, ?_, ?_, fun _ => ⟨nb, rfl⟩⟩
            · intro b hb
              exact absurd hb (by simp)
            · intro b hb
              have hbeq : nb = b := by
                rcases hb with hb | hb
                · exact absurd hb (by simp)
                · exact StoredVal.vectorArray.inj hb
              obtain rfl := hbeq
              exact ⟨hcatV, cells, hrd⟩
        · -- non-function consumer: network boundary output
          have hfnF : (inpD net.graph s).nodeIsFunction = false :=
            Bool.eq_false_iff.mpr hfn
          obtain ⟨hinm, houtm⟩ := hpostS.2 hfnF
          by_cases hmem : s ∈ net.m_outputs
          · have hlk := hinm hmem
            obtain rfl : v = .vectorRef prv.2 := Option.some_inj.mp (hv.symm.trans hlk)
            refine ⟨inpD net.graph s, hsd, ?_, ?_, ?_⟩
            · intro b hb
              exact absurd hb (by simp)
            · intro b hb
              have hbeq : prv.2 = b := by
                rcases hb with hb | hb
                · exact StoredVal.vectorRef.inj hb
                · exact absurd hb (by simp)
              obtain rfl := hbeq
              exact ⟨hcatV, cells, g3b _ _ hcellsB⟩
            · intro hmc
              exfalso
              obtain ⟨td2, _, _, htd2, hfn2, _⟩ := hmc
              rw [hsd] at htd2
              obtain rfl := Option.some_inj.mp htd2
              rw [hfn2] at hfnF
              exact absurd hfnF (by simp)
          · exact absurd (hv.symm.trans (houtm hmem)) (by simp)
    · -- vaFresh
      intro s b hv
      rcases g13 s b hv with hm | hm
      · rcases f9 s with hfeq | ⟨prs, hprs, ods, hods, hts⟩
        · rw [hfeq] at hm
          exact hinv.vaFresh s b hm
        · have hvB := f10 prs hprs ods hods s hts
          rw [hm] at hvB
          exact absurd (Option.some_inj.mp hvB) (by simp)
      · have hb := hinv.base
        omega
    · -- heapReg
      intro q hq
      rcases g8 q hq with hm | hm
      · obtain ⟨q2, hq2, hq21⟩ := List.mem_map.mp hm
        rw [f1] at hq2
        have hq2' : q2.1 ∈ acc'.heap.mem.map Prod.fst := by
          rw [← r3]
          exact List.mem_map_of_mem Prod.fst hq2
        obtain ⟨q3, hq3, hq31⟩ := List.mem_map.mp hq2'
        rcases d5 q3 hq3 with hmem | ⟨hge, hmm⟩
        · rcases hinv.heapReg q3 hmem with hlt | hreg
          · left
            rw [← hq21, ← hq31]
            exact hlt
          · right
            rw [← hq21, ← hq31]
            exact hregPres q3.1 hreg
        · right
          rw [← hq21, ← hq31]
          obtain ⟨pr, hpr, hpr2⟩ := List.mem_map.mp hmm
          rcases List.mem_append.mp hpr with hps | hpv
          · apply List.mem_append.mpr
            left
            rw [g5, ← hpr2]
            exact f5 pr hps
          · apply List.mem_append.mpr
            right
            rw [← hpr2]
            exact g7 pr hpv
      · exact Or.inr (List.mem_append.mpr (Or.inr hm))
    · -- boundary
      intro s sdata hsd hm
      exact hcomputedPresC s (hinv.boundary s sdata hsd hm)
    · -- invokedNodup
      rw [g4, f2]
      show (st.invoked ++ [n]).Nodup
      exact nodup_append_singleton hinv.invokedNodup hfresh
    · -- invokedForward
      intro m hm o hOo t ht hrel
      rw [g4, f2] at hm
      rcases List.mem_append.mp (by exact hm) with hm | hm
      · exact hcomputedPresC t (hinv.invokedForward m hm o hOo t ht hrel)
      · rcases List.mem_singleton.mp hm with rfl
        obtain ⟨od, hod, hodfn, hodnode⟩ := hOo
        have holt := get?_lt_length hod
        have hodd : outD net.graph o = od := outD_eq hod
        have hon := hwf.outNode o holt (by rw [hodd]; exact hodfn)
        rw [hodd, hodnode, hfd] at hon
        have hjlt : od.index < node.outputs.length := get?_lt_length hon.2
        have hlens := hwf.nodeLens m hnlt
        rw [hfd] at hlens
        have hjlt2 : od.index < node.output_param_indices.length := by
          have hl := hlens.2.1
          omega
        have hops := hwf.opiSpec m hnlt od.index (by rw [hfd]; exact hjlt2)
        rw [hfd] at hops
        have hOS : OutSock node (node.output_param_indices.getD od.index 0) o := by
          rw [OutSock, hops.2.1]
          exact hon.2
        have hptp : node.function.paramTypes.get?
            (node.output_param_indices.getD od.index 0) =
            some (node.function.paramTypes.getD
              (node.output_param_indices.getD od.index 0) .ReadonlySingleInput) :=
          get?_eq_getD_of_lt _ _ hops.1
        obtain ⟨bb, hbb⟩ := d13 _ (List.mem_range.mpr hops.1) _ hptp hops.2.2.1 o hOS
        rcases hbb with hbb | hbb
        · -- a single pair covers socket o
          have htod : t ∈ od.targets := by rw [← hodd]; exact ht
          have hvB := f10 (o, bb) hbb od hod t htod
          rw [Storage.input_is_computed, g10 t _ hvB]
          rfl
        · -- a vector pair covers socket o
          obtain ⟨holt2, hoget2, hofn2, honode2, hocat2, hndtg2, htgts2⟩ :=
            hVOpkg (o, bb) hbb
          obtain ⟨cells, hcellsB, hpost⟩ := g12 (o, bb) hbb
          have hod' : net.graph.outputSockets.get? o = some (outD net.graph o) := hoget2
          obtain ⟨htlt3, horig3, hcat3⟩ := htgts2 t ht
          have htds3 : net.graph.inputSockets.get? t = some (inpD net.graph t) := by
            rw [inpD]
            exact get?_eq_getD_of_lt _ _ htlt3
          have hpostT := hpost (outD net.graph o) hoget2 t ht
            (inpD net.graph t) htds3
          have hcatV3 : (inpD net.graph t).category = .Vector := by
            rw [hcat3]
            exact hocat2
          rw [Storage.input_is_computed]
          by_cases hfn3 : (inpD net.graph t).nodeIsFunction = true
          · obtain ⟨node', pidx, pt', h1, h2, h3, h4⟩ := hconsVec t _ htds3 hcatV3 hfn3
            obtain ⟨hrvi, hmv⟩ := hpostT.1 hfn3 node' pidx pt' h1 h2 h3
            rcases h4 with hrv | hmvb
            · rw [hrvi hrv]
              rfl
            · obtain ⟨nb, _, _, hlk, _⟩ := hmv hmvb
              rw [hlk]
              rfl
          · have hfnF3 : (inpD net.graph t).nodeIsFunction = false :=
              Bool.eq_false_iff.mpr hfn3
            obtain ⟨hinm, _⟩ := hpostT.2 hfnF3
            rcases hrel with ⟨td4, htd4, hfn4⟩ | hmem4
            · rw [htds3] at htd4
              obtain rfl := Option.some_inj.mp htd4
              rw [hfn4] at hfnF3
              exact absurd hfnF3 (by simp)
            · rw [hinm hmem4]
              rfl
    · -- computedOrigin
      intro s hcomp'
      rw [Storage.input_is_computed] at hcomp'
      obtain ⟨v, hv⟩ := Option.isSome_iff_exists.mp hcomp'
      rcases g11 s with hgeq | ⟨prv, hprv, odv, hodv, htv⟩
      · rw [hgeq] at hv
        rcases f9 s with hfeq | ⟨prs, hprs, ods, hods, hts⟩
        · rw [hfeq] at hv
          have hcst : st.storage.input_is_computed s = true := by
            rw [Storage.input_is_computed, hv]
            rfl
          obtain ⟨sdata, hsd, hcase⟩ := hinv.computedOrigin s hcst
          refine ⟨sdata, hsd, ?_⟩
          rcases hcase with h | ⟨m, hmm, hOo⟩
          · exact Or.inl h
          · exact Or.inr ⟨m, by rw [g4, f2]; exact List.mem_append.mpr (Or.inl hmm), hOo⟩
        · obtain ⟨p, hpmem, hptp, hOS⟩ := hSOprov prs hprs
          obtain ⟨holt, hoget, hofn, honode, hcatm, hndtg, htgts⟩ :=
            OutSock_package net hwf n node hn p prs.1 _ hptp hOS
          rw [hoget] at hods
          obtain rfl := Option.some_inj.mp hods
          obtain ⟨htlt, horig, _⟩ := htgts s hts
          have hsd : net.graph.inputSockets.get? s = some (inpD net.graph s) := by
            rw [inpD]
            exact get?_eq_getD_of_lt _ _ htlt
          refine ⟨inpD net.graph s, hsd, Or.inr ⟨n,
            by rw [g4, f2]; exact List.mem_append.mpr (Or.inr (List.mem_singleton.mpr rfl)),
            ?_⟩⟩
          rw [horig]
          exact ⟨outD net.graph prs.1, hoget, hofn, honode⟩
      · obtain ⟨holt, hoget, hofn, honode, hocat, hndtg, htgts⟩ := hVOpkg prv hprv
        rw [hoget] at hodv
        obtain rfl := Option.some_inj.mp hodv
        obtain ⟨htlt, horig, _⟩ := htgts s htv
        have hsd : net.graph.inputSockets.get? s = some (inpD net.graph s) := by
          rw [inpD]
          exact get?_eq_getD_of_lt _ _ htlt
        refine ⟨inpD net.graph s, hsd, Or.inr ⟨n,
          by rw [g4, f2]; exact List.mem_append.mpr (Or.inr (List.mem_singleton.mpr rfl)),
          ?_⟩⟩
        rw [horig]
        exact ⟨outD net.graph prv.1, hoget, hofn, honode⟩

/-! ## Resolving sockets by well-founded induction on the demand order -/

theorem wf_no_self {α : Type} (r : α → α → Prop) (h : WellFounded r) (a : α) :
    ¬ r a a := by
  induction a using WellFounded.induction h with
  | _ a ih =>
    intro hr
    exact ih a hr hr

/-- Demand-reachability between sockets. -/
def ReachB (net : MF_EvaluateNetwork) : SocketRef → SocketRef → Prop :=
  Relation.ReflTransGen (fun a b => demandsDirectB net.graph a b = true)

theorem no_demand_cycle (net : MF_EvaluateNetwork) (hwf : NetWF net) (a : SocketRef) :
    ¬ Relation.TransGen (fun a b => demandsDirectB net.graph a b = true) a a := by
  intro hcy
  exact wf_no_self _ (hwf.acyclic).transGen a (Relation.TransGen.swap hcy)

/-- A socket the scheduler can fully resolve from the current state: an
existing relevant input socket, or an existing function output socket
whose node has not been invoked yet. -/
def Resolvable (net : MF_EvaluateNetwork) (st : EvalState) : SocketRef → Prop
  | .input s => s < net.graph.inputSockets.length ∧ Relevant net s
  | .output o => o < net.graph.outputSockets.length ∧
      (outD net.graph o).nodeIsFunction = true ∧ (outD net.graph o).node ∉ st.invoked

/-- Resolving a list of input sockets pushed above a tail, given that
each can be resolved individually from any invariant state. -/
theorem resolve_inputs_list (net : MF_EvaluateNetwork) (mask : MFMask) (n₀ : Nat) :
    ∀ us : List Nat,
      (∀ u ∈ us, ∀ st, Inv net n₀ st → Resolvable net st (.input u) →
        ∀ rest, ∃ st', Steps net mask (.input u :: rest, st) (rest, st') ∧
          Mono n₀ st st' ∧ Inv net n₀ st' ∧
          st'.storage.input_is_computed u = true ∧
          (∀ m ∈ st'.invoked, m ∈ st.invoked ∨
            ∃ oid, OutputOf net m oid ∧ ReachB net (.input u) (.output oid))) →
      (∀ u ∈ us, u < net.graph.inputSockets.length ∧ Relevant net u) →
      ∀ st tail, Inv net n₀ st →
        ∃ st', Steps net mask (us.map .input ++ tail, st) (tail, st') ∧
          Mono n₀ st st' ∧ Inv net n₀ st' ∧
          (∀ u ∈ us, st'.storage.input_is_computed u = true) ∧
          (∀ m ∈ st'.invoked, m ∈ st.invoked ∨
            ∃ oid, OutputOf net m oid ∧
              ∃ u ∈ us, ReachB net (.input u) (.output oid)) := by
  intro us
  induction us with
  | nil =>
    intro _ _ st tail hinv
    exact ⟨st, Steps.refl _, Mono.refl n₀ st, hinv,
      fun u hu => absurd hu (List.not_mem_nil u),
      fun m hm => Or.inl hm⟩
  | cons u us' ih =>
    intro hresolve hok st tail hinv
    obtain ⟨hult, hurel⟩ := hok u (List.mem_cons_self u us')
    obtain ⟨st₁, hsteps₁, hmono₁, hinv₁, hcomp₁, hnew₁⟩ :=
      hresolve u (List.mem_cons_self u us') st hinv ⟨hult, hurel⟩
        (us'.map .input ++ tail)
    obtain ⟨st', hsteps₂, hmono₂, hinv₂, hcomp₂, hnew₂⟩ :=
      ih (fun v hv => hresolve v (List.mem_cons_of_mem u hv))
        (fun v hv => hok v (List.mem_cons_of_mem u hv)) st₁ tail hinv₁
    refine ⟨st', hsteps₁.comp hsteps₂, hmono₁.compose hmono₂, hinv₂, ?_, ?_⟩
    · intro v hv
      rcases List.mem_cons.mp hv with rfl | hv
      · exact hmono₂.computedPres hcomp₁
      · exact hcomp₂ v hv
    · intro m hm
      rcases hnew₂ m hm with hm1 | ⟨oid, hOo, v, hv, hreach⟩
      · rcases hnew₁ m hm1 with hm2 | ⟨oid, hOo, hreach⟩
        · exact Or.inl hm2
        · exact Or.inr ⟨oid, hOo, u, List.mem_cons_self u us', hreach⟩
      · exact Or.inr ⟨oid, hOo, v, List.mem_cons_of_mem u hv, hreach⟩

/-- The resolution theorem: from any invariant state, a resolvable
socket placed on top of the stack is fully resolved after finitely many
scheduler iterations — an input socket ends up computed, an output
socket's node invoked — with the invariant restored and every new
invocation lying demand-below the resolved socket. -/
theorem resolve_socket (net : MF_EvaluateNetwork) (mask : MFMask) (n₀ : Nat)
    (hwf : NetWF net) :
    ∀ x : SocketRef, ∀ st : EvalState, Inv net n₀ st → Resolvable net st x →
      ∀ rest, ∃ st', Steps net mask (x :: rest, st) (rest, st') ∧
        Mono n₀ st st' ∧ Inv net n₀ st' ∧
        (∀ s, x = .input s → st'.storage.input_is_computed s = true) ∧
        (∀ o, x = .output o → (outD net.graph o).node ∈ st'.invoked) ∧
        (∀ m, m ∈ st'.invoked → m ∈ st.invoked ∨
          ∃ oid, OutputOf net m oid ∧ ReachB net x (.output oid)) := by
  intro x
  induction x using WellFounded.induction hwf.acyclic with
  | _ x ih =>
  intro st hinv hres rest
  match x with
  | .input s =>
    obtain ⟨hslt, hsrel⟩ := hres
    have hsget : net.graph.inputSockets.get? s = some (inpD net.graph s) := by
      rw [inpD]
      exact get?_eq_getD_of_lt _ _ hslt
    by_cases hc : st.storage.input_is_computed s = true
    · have hstep := schedStep_input_computed net mask s rest st _ hsget hc
      refine ⟨st, Steps.head hstep (Steps.refl _), Mono.refl n₀ st, hinv,
        fun s' hs' => ?_, ?_, fun m hm => Or.inl hm⟩
      · obtain rfl := SocketRef.input.inj hs'
        exact hc
      · intro o' ho'
        exact nomatch ho'
    · have hcf : st.storage.input_is_computed s = false := Bool.eq_false_iff.mpr hc
      set o := (inpD net.graph s).origin with ho
      obtain ⟨holt, hstgt, _⟩ := hwf.inOrigin s hslt
      by_cases hofn : (outD net.graph o).nodeIsFunction = true
      · -- the origin is a function output; resolve it first
        have hgeto : net.graph.outputSockets.get? o = some (outD net.graph o) := by
          rw [outD]
          exact get?_eq_getD_of_lt _ _ holt
        have hOo : OutputOf net ((outD net.graph o).node) o :=
          ⟨outD net.graph o, hgeto, hofn, rfl⟩
        have hninv : (outD net.graph o).node ∉ st.invoked := by
          intro hmem
          rw [hinv.invokedForward _ hmem o hOo s hstgt hsrel] at hcf
          exact absurd hcf (by simp)
        have hdem : demandsDirectB net.graph (.input s) (.output o) = true := by
          have hsget' := hsget
          rw [List.get?_eq_getElem?] at hsget'
          simp [demandsDirectB, hsget', ← ho]
        obtain ⟨st₁, hsteps₁, hmono₁, hinv₁, _, hout₁, hnew₁⟩ :=
          ih (.output o) hdem st hinv ⟨holt, hofn, hninv⟩ (.input s :: rest)
        have hc₁ : st₁.storage.input_is_computed s = true :=
          hinv₁.invokedForward _ (hout₁ o rfl) o hOo s hstgt hsrel
        have hstep0 := schedStep_input_uncomputed net mask s rest st _ hsget hcf
        have hstep2 := schedStep_input_computed net mask s rest st₁ _ hsget hc₁
        refine ⟨st₁, ?_, hmono₁, hinv₁, fun s' hs' => ?_, ?_,
          fun m hm => ?_⟩
        · exact Steps.head hstep0 (hsteps₁.comp (Steps.head hstep2 (Steps.refl _)))
        · obtain rfl := SocketRef.input.inj hs'
          exact hc₁
        · intro o' ho'
          exact nomatch ho'
        · rcases hnew₁ m hm with hm1 | ⟨oid, hOo2, hreach⟩
          · exact Or.inl hm1
          · exact Or.inr ⟨oid, hOo2, Relation.ReflTransGen.head hdem hreach⟩
      · -- the origin is a caller-bound network input: already computed
        exfalso
        have hofn' : (outD net.graph o).nodeIsFunction = false :=
          Bool.eq_false_iff.mpr hofn
        have hcov := hwf.dummyCovered s hslt hofn'
        rw [hinv.boundary s _ hsget hcov] at hcf
        exact absurd hcf (by simp)
  | .output o =>
    obtain ⟨holt, hofn, hninv⟩ := hres
    have hgeto : net.graph.outputSockets.get? o = some (outD net.graph o) := by
      rw [outD]
      exact get?_eq_getD_of_lt _ _ holt
    have hon := hwf.outNode o holt hofn
    have hnodelt : (outD net.graph o).node < net.graph.functionNodes.length := hon.1
    set nodedata := fnD net.graph ((outD net.graph o).node) with hnodedata
    have hnget : net.graph.functionNodes.get? ((outD net.graph o).node) = some nodedata := by
      rw [hnodedata, fnD]
      exact get?_eq_getD_of_lt _ _ hnodelt
    have hinputsOK : ∀ u ∈ nodedata.inputs,
        u < net.graph.inputSockets.length ∧ Relevant net u := by
      intro u hu
      obtain ⟨j, hj⟩ := List.mem_iff_get?.mp hu
      have hjlt : j < nodedata.inputs.length := get?_lt_length hj
      have hni := hwf.nodeInputs ((outD net.graph o).node) hnodelt j
        (by rw [← hnodedata] at *; exact hjlt)
      rw [← hnodedata] at hni
      have hgd : nodedata.inputs.getD j 0 = u := by
        have hh := get?_eq_getD_of_lt nodedata.inputs 0 hjlt
        rw [hj] at hh
        exact (Option.some_inj.mp hh).symm
      rw [hgd] at hni
      refine ⟨hni.1, Or.inl ⟨inpD net.graph u, ?_, hni.2.1⟩⟩
      rw [inpD]
      exact get?_eq_getD_of_lt _ _ hni.1
    have hdemu : ∀ u ∈ nodedata.inputs,
        demandsDirectB net.graph (.output o) (.input u) = true := by
      intro u hu
      have hgeto' := hgeto
      have hnget' := hnget
      rw [List.get?_eq_getElem?] at hgeto' hnget'
      simp only [demandsDirectB, hgeto, hgeto', hofn, if_true, hnget, hnget']
      exact List.elem_eq_true_of_mem hu
    by_cases hU : (nodedata.inputs.filter
        (fun s => !(st.storage.input_is_computed s))).isEmpty = true
    · -- all inputs computed: invoke immediately
      have hallc : ∀ s ∈ nodedata.inputs, st.storage.input_is_computed s = true := by
        have hnil := List.isEmpty_iff.mp hU
        intro s hs
        have hh := List.filter_eq_nil.mp hnil s hs
        simpa using hh
      obtain ⟨st', hCAF, hmono, hinvoked, hinv'⟩ :=
        compute_and_forward_ok net mask n₀ hwf ((outD net.graph o).node) nodedata
          hnget st hinv hninv hallc
      have hstep : schedStep net mask (.output o) rest st = .ok (rest, st') := by
        rw [schedStep_output_invoke net mask o rest st _ nodedata hgeto hofn hnget hU, hCAF]
        rfl
      refine ⟨st', Steps.head hstep (Steps.refl _), hmono, hinv',
        ?_, fun o' ho' => ?_, fun m hm => ?_⟩
      · intro s' hs'
        exact nomatch hs'
      · obtain rfl := SocketRef.output.inj ho'
        rw [hinvoked]
        exact List.mem_append.mpr (Or.inr (List.mem_singleton.mpr rfl))
      · rw [hinvoked] at hm
        rcases List.mem_append.mp hm with hm1 | hm1
        · exact Or.inl hm1
        · rcases List.mem_singleton.mp hm1 with rfl
          exact Or.inr ⟨o, ⟨outD net.graph o, hgeto, hofn, rfl⟩, Relation.ReflTransGen.refl⟩
    · -- push the not yet computed inputs, resolve them, then invoke
      have hUf : (nodedata.inputs.filter
          (fun s => !(st.storage.input_is_computed s))).isEmpty = false :=
        Bool.eq_false_iff.mpr hU
      set U := nodedata.inputs.filter (fun s => !(st.storage.input_is_computed s))
        with hUdef
      have hstep0 := schedStep_output_push net mask o rest st _ nodedata hgeto hofn
        hnget hUf
      have hUsub : ∀ u ∈ U.reverse, u ∈ nodedata.inputs := by
        intro u hu
        exact List.mem_of_mem_filter (List.mem_reverse.mp hu)
      obtain ⟨stM, hstepsM, hmonoM, hinvM, hcompM, hnewM⟩ :=
        resolve_inputs_list net mask n₀ U.reverse
          (fun u hu st2 hinv2 hres2 rest2 => by
            obtain ⟨st3, a1, a2, a3, a4, _, a6⟩ :=
              ih (.input u) (hdemu u (hUsub u hu)) st2 hinv2 hres2 rest2
            exact ⟨st3, a1, a2, a3, a4 u rfl, a6⟩)
          (fun u hu => hinputsOK u (hUsub u hu))
          st (.output o :: rest) hinv
      have hallcM : ∀ s ∈ nodedata.inputs, stM.storage.input_is_computed s = true := by
        intro s hs
        by_cases hsU : s ∈ U
        · exact hcompM s (List.mem_reverse.mpr hsU)
        · have hcs : st.storage.input_is_computed s = true := by
            by_contra hcs
            exact hsU (List.mem_filter.mpr ⟨hs, by simpa using hcs⟩)
          exact hmonoM.computedPres hcs
      have hninvM : (outD net.graph o).node ∉ stM.invoked := by
        intro hmem
        rcases hnewM _ hmem with hm1 | ⟨oid, hOo2, u, hu, hreach⟩
        · exact hninv hm1
        · obtain ⟨od4, hod4, hfn4, hnd4⟩ := hOo2
          have hdem2 : demandsDirectB net.graph (.output oid) (.input u) = true := by
            have hod4' := hod4
            have hnget' := hnget
            rw [List.get?_eq_getElem?] at hod4' hnget'
            simp only [demandsDirectB, hod4, hod4', hfn4, if_true, hnd4, hnget, hnget']
            exact List.elem_eq_true_of_mem (hUsub u hu)
          exact no_demand_cycle net hwf (.output oid)
            (Relation.TransGen.head' hdem2 hreach)
      have hUMf : (nodedata.inputs.filter
          (fun s => !(stM.storage.input_is_computed s))).isEmpty = true := by
        rw [List.isEmpty_iff]
        apply List.filter_eq_nil.mpr
        intro a ha
        simp only [Bool.not_eq_true', Bool.not_eq_false]
        exact hallcM a ha
      obtain ⟨stF, hCAF, hmonoF, hinvokedF, hinvF⟩ :=
        compute_and_forward_ok net mask n₀ hwf ((outD net.graph o).node) nodedata
          hnget stM hinvM hninvM hallcM
      have hstep2 : schedStep net mask (.output o) rest stM = .ok (rest, stF) := by
        rw [schedStep_output_invoke net mask o rest stM _ nodedata hgeto hofn hnget hUMf,
          hCAF]
        rfl
      refine ⟨stF, ?_, hmonoM.compose hmonoF, hinvF, ?_,
        fun o' ho' => ?_, fun m hm => ?_⟩
      · exact Steps.head hstep0 (hstepsM.comp (Steps.head hstep2 (Steps.refl _)))
      · intro s' hs'
        exact nomatch hs'
      · obtain rfl := SocketRef.output.inj ho'
        rw [hinvokedF]
        exact List.mem_append.mpr (Or.inr (List.mem_singleton.mpr rfl))
      · rw [hinvokedF] at hm
        rcases List.mem_append.mp hm with hm1 | hm1
        · rcases hnewM m hm1 with hm2 | ⟨oid, hOo2, u, hu, hreach⟩
          · exact Or.inl hm2
          · exact Or.inr ⟨oid, hOo2,
              Relation.ReflTransGen.head (hdemu u (hUsub u hu)) hreach⟩
        · rcases List.mem_singleton.mp hm1 with rfl
          exact Or.inr ⟨o, ⟨outD net.graph o, hgeto, hofn, rfl⟩, Relation.ReflTransGen.refl⟩

/-! ## The whole scheduler phase -/

/-- From any invariant state, the demand-driven scheduler seeded with
the declared network outputs reaches the empty stack, computing every
requested output socket. -/
theorem eval_network_steps (net : MF_EvaluateNetwork) (mask : MFMask) (n₀ : Nat)
    (hwf : NetWF net) (st : EvalState) (hinv : Inv net n₀ st) :
    ∃ st', Steps net mask ((net.m_outputs.map SocketRef.input).reverse, st) ([], st') ∧
      Mono n₀ st st' ∧ Inv net n₀ st' ∧
      ∀ s ∈ net.m_outputs, st'.storage.input_is_computed s = true := by
  have hok : ∀ u ∈ net.m_outputs.reverse,
      u < net.graph.inputSockets.length ∧ Relevant net u := by
    intro u hu
    rw [List.mem_reverse] at hu
    have hil := List.indexOf_lt_length.mpr hu
    have hlt := (hwf.mOutputsOK _ hil).1
    rw [mem_getD_of_mem hu] at hlt
    exact ⟨hlt, Or.inr hu⟩
  obtain ⟨st', hsteps, hmono, hinv', hcomp, _⟩ :=
    resolve_inputs_list net mask n₀ net.m_outputs.reverse
      (fun u hu st2 hinv2 hres2 rest2 => by
        obtain ⟨st3, a1, a2, a3, a4, _, a6⟩ :=
          resolve_socket net mask n₀ hwf (.input u) st2 hinv2 hres2 rest2
        exact ⟨st3, a1, a2, a3, a4 u rfl, a6⟩)
      hok st [] hinv
  refine ⟨st', ?_, hmono, hinv', fun s hs => hcomp s (List.mem_reverse.mpr hs)⟩
  have hstack : net.m_outputs.reverse.map SocketRef.input ++ ([] : List SocketRef) =
      (net.m_outputs.map SocketRef.input).reverse := by
    rw [List.append_nil, List.map_reverse]
  rw [← hstack]
  exact hsteps

/-- The scheduler phase: some fuel suffices, the result is unique
across all sufficient fuels, the invariant is preserved and every
requested output ends up computed. -/
theorem evaluate_network_total (net : MF_EvaluateNetwork) (mask : MFMask) (n₀ : Nat)
    (hwf : NetWF net) (st : EvalState) (hinv : Inv net n₀ st) :
    ∃ fuel st', evaluate_network_to_compute_outputs net mask fuel st = .ok st' ∧
      Mono n₀ st st' ∧ Inv net n₀ st' ∧
      (∀ s ∈ net.m_outputs, st'.storage.input_is_computed s = true) ∧
      ∀ fuel' r, evaluate_network_to_compute_outputs net mask fuel' st = .ok r →
        r = st' := by
  obtain ⟨st', hsteps, hmono, hinv', hcomp⟩ :=
    eval_network_steps net mask n₀ hwf st hinv
  obtain ⟨fuel, hfuel⟩ := evalLoop_of_steps net mask _ ([], st') hsteps rfl
  refine ⟨fuel, st', hfuel, hmono, hinv', hcomp, ?_⟩
  intro fuel' r hr
  exact evalLoop_agrees net mask _ ([], st') hsteps rfl fuel' r hr

/-! ## Caller-argument inversions and consumer-category helpers -/

theorem paramEntryOK_singleIn {h₀ : Heap} {minSz : Nat} {pv : MFParamValue}
    (hok : paramEntryOK h₀ minSz .Single false pv = true) :
    ∃ b cells, pv = .singleIn b ∧ h₀.read b = some (.single cells) ∧
      minSz ≤ cells.length := by
  cases pv with
  | singleIn b =>
    cases hrd : h₀.read b with
    | none => simp [paramEntryOK, hrd] at hok
    | some c =>
      cases c with
      | single cells =>
        simp only [paramEntryOK, hrd, decide_eq_true_eq] at hok
        exact ⟨b, cells, rfl, hrd, hok⟩
      | vector cells => simp [paramEntryOK, hrd] at hok
  | vectorIn b => simp [paramEntryOK] at hok
  | singleOut b => simp [paramEntryOK] at hok
  | vectorOut b => simp [paramEntryOK] at hok

theorem paramEntryOK_vectorIn {h₀ : Heap} {minSz : Nat} {pv : MFParamValue}
    (hok : paramEntryOK h₀ minSz .Vector false pv = true) :
    ∃ b cells, pv = .vectorIn b ∧ h₀.read b = some (.vector cells) ∧
      minSz ≤ cells.length := by
  cases pv with
  | vectorIn b =>
    cases hrd : h₀.read b with
    | none => simp [paramEntryOK, hrd] at hok
    | some c =>
      cases c with
      | single cells => simp [paramEntryOK, hrd] at hok
      | vector cells =>
        simp only [paramEntryOK, hrd, decide_eq_true_eq] at hok
        exact ⟨b, cells, rfl, hrd, hok⟩
  | singleIn b => simp [paramEntryOK] at hok
  | singleOut b => simp [paramEntryOK] at hok
  | vectorOut b => simp [paramEntryOK] at hok

theorem paramEntryOK_singleOut {h₀ : Heap} {minSz : Nat} {pv : MFParamValue}
    (hok : paramEntryOK h₀ minSz .Single true pv = true) :
    ∃ b cells, pv = .singleOut b ∧ h₀.read b = some (.single cells) ∧
      minSz ≤ cells.length := by
  cases pv with
  | singleOut b =>
    cases hrd : h₀.read b with
    | none => simp [paramEntryOK, hrd] at hok
    | some c =>
      cases c with
      | single cells =>
        simp only [paramEntryOK, hrd, decide_eq_true_eq] at hok
        exact ⟨b, cells, rfl, hrd, hok⟩
      | vector cells => simp [paramEntryOK, hrd] at hok
  | singleIn b => simp [paramEntryOK] at hok
  | vectorIn b => simp [paramEntryOK] at hok
  | vectorOut b => simp [paramEntryOK] at hok

theorem paramEntryOK_vectorOut {h₀ : Heap} {minSz : Nat} {pv : MFParamValue}
    (hok : paramEntryOK h₀ minSz .Vector true pv = true) :
    ∃ b cells, pv = .vectorOut b ∧ h₀.read b = some (.vector cells) ∧
      minSz ≤ cells.length := by
  cases pv with
  | vectorOut b =>
    cases hrd : h₀.read b with
    | none => simp [paramEntryOK, hrd] at hok
    | some c =>
      cases c with
      | single cells => simp [paramEntryOK, hrd] at hok
      | vector cells =>
        simp only [paramEntryOK, hrd, decide_eq_true_eq] at hok
        exact ⟨b, cells, rfl, hrd, hok⟩
  | singleIn b => simp [paramEntryOK] at hok
  | vectorIn b => simp [paramEntryOK] at hok
  | singleOut b => simp [paramEntryOK] at hok

theorem readonly_single_input_eq {ps : MFParams} {i b : Nat}
    (h : ps.get? i = some (.singleIn b)) : readonly_single_input ps i = .ok b := by
  have h' := h
  rw [List.get?_eq_getElem?] at h'
  simp [readonly_single_input, h, h']

theorem readonly_vector_input_eq {ps : MFParams} {i b : Nat}
    (h : ps.get? i = some (.vectorIn b)) : readonly_vector_input ps i = .ok b := by
  have h' := h
  rw [List.get?_eq_getElem?] at h'
  simp [readonly_vector_input, h, h']

theorem single_output_eq {ps : MFParams} {i b : Nat}
    (h : ps.get? i = some (.singleOut b)) : single_output ps i = .ok b := by
  have h' := h
  rw [List.get?_eq_getElem?] at h'
  simp [single_output, h, h']

theorem vector_output_eq {ps : MFParams} {i b : Nat}
    (h : ps.get? i = some (.vectorOut b)) : vector_output ps i = .ok b := by
  have h' := h
  rw [List.get?_eq_getElem?] at h'
  simp [vector_output, h, h']

/-- A single-typed socket never feeds a mutable-vector parameter. -/
theorem mutConsumer_not_single (net : MF_EvaluateNetwork) (hwf : NetWF net)
    {s : Nat} {td : MFInputSocketData}
    (htd : net.graph.inputSockets.get? s = some td) (hcat : td.category = .Single) :
    ¬ MutConsumer net s := by
  intro hmc
  obtain ⟨td2, node2, pidx2, htd2, hfn2, hnode2, hpidx2, hpt2⟩ := hmc
  rw [htd] at htd2
  obtain rfl := Option.some_inj.mp htd2
  obtain ⟨node3, pidx3, pt3, h1, h2, h3, h4⟩ := consumer_package net hwf s _ htd hfn2
  have e1 : node3 = node2 := Option.some_inj.mp (h1.symm.trans hnode2)
  subst e1
  have e2 : pidx3 = pidx2 := Option.some_inj.mp (h2.symm.trans hpidx2)
  subst e2
  have e3 : pt3 = .MutableVector := Option.some_inj.mp (h3.symm.trans hpt2)
  subst e3
  rw [hcat] at h4
  exact absurd h4 (by decide)

/-- The consumer parameter of a vector-typed function input is one of
the two recognized vector kinds. -/
theorem consVec_of_vector (net : MF_EvaluateNetwork) (hwf : NetWF net)
    {t : Nat} {td : MFInputSocketData}
    (htd : net.graph.inputSockets.get? t = some td)
    (hcat : td.category = .Vector) (hfn : td.nodeIsFunction = true) :
    ∃ node' pidx pt', net.graph.functionNodes.get? td.node = some node' ∧
      node'.input_param_indices.get? td.index = some pidx ∧
      node'.function.paramTypes.get? pidx = some pt' ∧
      (pt'.is_readonly_vector_input = true ∨ pt'.is_mutable_vector = true) := by
  obtain ⟨node', pidx, pt', h1, h2, h3, h4⟩ := consumer_package net hwf t td htd hfn
  rw [hcat] at h4
  refine ⟨node', pidx, pt', h1, h2, h3, ?_⟩
  cases pt' with
  | ReadonlySingleInput => exact absurd h4 (by decide)
  | ReadonlyVectorInput => exact Or.inl rfl
  | SingleOutput => exact absurd h4 (by decide)
  | VectorOutput => exact absurd h4 (by decide)
  | MutableVector => exact Or.inr rfl

/-! ## Binding the caller inputs establishes the invariant -/

theorem copy_inputs_fold (net : MF_EvaluateNetwork) (mask : MFMask)
    (params : MFParams) (h₀ : Heap) (hwf : NetWF net)
    (hvp : ValidParams net mask params h₀) :
    ∀ is : List Nat, is.Nodup → (∀ j ∈ is, j < net.m_inputs.length) →
      ∀ st : EvalState,
      (∀ p ∈ st.heap.mem, p.1 < st.heap.next) →
      h₀.next ≤ st.heap.next →
      (∀ k, k < h₀.next → st.heap.read k = h₀.read k) →
      (∀ k c, h₀.read k = some c → st.heap.read k = some c) →
      st.invoked = [] →
      StoredOK net st →
      (∀ u v, lookupA st.storage.values u = some v →
        ∃ td, net.graph.inputSockets.get? u = some td ∧ td.origin ∈ net.m_inputs) →
      OwnedInv st →
      st.storage.ownedArrays = [] →
      (∀ u b, lookupA st.storage.values u = some (.vectorArray b) → h₀.next ≤ b) →
      (∀ u v, lookupA st.storage.values u = some v → StoredVal.buf v < h₀.next →
        StoredVal.buf v ∈ inBufs net params) →
      (∀ p ∈ st.heap.mem, p.1 < h₀.next ∨ p.1 ∈ st.storage.registered) →
      (∀ j ∈ is, ∀ t td, net.graph.inputSockets.get? t = some td →
        td.origin = net.m_inputs.getD j 0 → lookupA st.storage.values t = none) →
      ∃ st', is.foldlM (fun st i =>
          match net.m_inputs.get? i with
          | none => (.error .assert : Except Fault EvalState)
          | some oid =>
            match net.graph.outputSockets.get? oid with
            | none => .error .assert
            | some odata =>
              match odata.category with
              | .Single => do
                let b ← readonly_single_input params i
                odata.targets.foldlM (fun st t => do
                  let σ ← st.storage.set_virtual_list_for_input__non_owning t b
                  pure { st with storage := σ }) st
              | .Vector => do
                let b ← readonly_vector_input params i
                odata.targets.foldlM (fun st t => bind_vector_input_target net b t st) st)
          st = .ok st' ∧
        (∀ p ∈ st'.heap.mem, p.1 < st'.heap.next) ∧
        h₀.next ≤ st'.heap.next ∧
        (∀ k, k < h₀.next → st'.heap.read k = h₀.read k) ∧
        (∀ k c, h₀.read k = some c → st'.heap.read k = some c) ∧
        st'.invoked = [] ∧
        StoredOK net st' ∧
        (∀ u v, lookupA st'.storage.values u = some v →
          ∃ td, net.graph.inputSockets.get? u = some td ∧ td.origin ∈ net.m_inputs) ∧
        OwnedInv st' ∧
        st'.storage.ownedArrays = [] ∧
        (∀ u b, lookupA st'.storage.values u = some (.vectorArray b) → h₀.next ≤ b) ∧
        (∀ u v, lookupA st'.storage.values u = some v → StoredVal.buf v < h₀.next →
          StoredVal.buf v ∈ inBufs net params) ∧
        (∀ p ∈ st'.heap.mem, p.1 < h₀.next ∨ p.1 ∈ st'.storage.registered) ∧
        (∀ s v, lookupA st.storage.values s = some v →
          lookupA st'.storage.values s = some v) ∧
        (∀ j ∈ is, ∀ t td, net.graph.inputSockets.get? t = some td →
          td.origin = net.m_inputs.getD j 0 →
          st'.storage.input_is_computed t = true) := by
  intro is
  induction is with
  | nil =>
    intro _ _ st a1 a2 a3 a4 b1 c1 g1 d1 d2 e1 e2 f1 _
    exact ⟨st, rfl, a1, a2, a3, a4, b1, c1, g1, d1, d2, e1, e2, f1,
      fun s v hv => hv, fun j hj => absurd hj (List.not_mem_nil j)⟩
  | cons j rest ih =>
    intro hnd hbnd st a1 a2 a3 a4 b1 c1 g1 d1 d2 e1 e2 f1 i1
    have hjlt : j < net.m_inputs.length := hbnd j (List.mem_cons_self j rest)
    have hndr : rest.Nodup := (List.nodup_cons.mp hnd).2
    have hjnr : j ∉ rest := (List.nodup_cons.mp hnd).1
    set oid := net.m_inputs.getD j 0 with hoid
    have hjget : net.m_inputs.get? j = some oid := get?_eq_getD_of_lt _ _ hjlt
    have hoidmem : oid ∈ net.m_inputs := List.get?_mem hjget
    have holt : oid < net.graph.outputSockets.length := by
      have hh := (hwf.mInputsOK j hjlt).1
      rw [← hoid] at hh
      exact hh
    have hgeto : net.graph.outputSockets.get? oid = some (outD net.graph oid) := by
      rw [outD]
      exact get?_eq_getD_of_lt _ _ holt
    have htgts := hwf.outTargets oid holt
    have htgtfacts : ∀ t ∈ (outD net.graph oid).targets,
        t < net.graph.inputSockets.length ∧ (inpD net.graph t).origin = oid ∧
        (inpD net.graph t).category = (outD net.graph oid).category := by
      intro t ht
      obtain ⟨htlt, horig⟩ := htgts.2 t ht
      have hio := hwf.inOrigin t htlt
      rw [horig] at hio
      exact ⟨htlt, horig, hio.2.2⟩
    have hunset : ∀ t ∈ (outD net.graph oid).targets,
        lookupA st.storage.values t = none := by
      intro t ht
      obtain ⟨htlt, horig, _⟩ := htgtfacts t ht
      refine i1 j (List.mem_cons_self j rest) t (inpD net.graph t) ?_ horig
      rw [inpD]
      exact get?_eq_getD_of_lt _ _ htlt
    have hdistinct : ∀ j' ∈ rest, net.m_inputs.getD j' 0 ≠ oid := by
      intro j' hj' heq
      have hjlt' : j' < net.m_inputs.length := hbnd j' (List.mem_cons_of_mem j hj')
      have hjget' : net.m_inputs.get? j' = some (net.m_inputs.getD j' 0) :=
        get?_eq_getD_of_lt _ _ hjlt'
      rw [heq] at hjget'
      have : j' = j := nodup_get?_inj hwf.mInputsNodup hjget' hjget
      rw [this] at hj'
      exact hjnr hj'
    have hentry := hvp.inEntries j hjlt
    rw [← hoid] at hentry
    have hjplt : j < params.length := by
      rw [hvp.plen]
      omega
    have hpget : params.get? j = some (params.getD j dPV) :=
      get?_eq_getD_of_lt _ _ hjplt
    have hjget' := hjget
    have hgeto' := hgeto
    rw [List.get?_eq_getElem?] at hjget' hgeto'
    cases hcat : (outD net.graph oid).category with
    | Single =>
      rw [hcat] at hentry
      obtain ⟨b, cells, hpv, hbread, hbsz⟩ := paramEntryOK_singleIn hentry
      rw [hpv] at hpget
      have hbeq := readonly_single_input_eq hpget
      obtain ⟨stA, hfoldA, e1A, e2A, e3A, e4A, e5A, e6A⟩ :=
        set_single_targets_fold net b (outD net.graph oid).targets st hunset htgts.1
      have hstep : (match net.m_inputs.get? j with
          | none => (.error .assert : Except Fault EvalState)
          | some oid =>
            match net.graph.outputSockets.get? oid with
            | none => .error .assert
            | some odata =>
              match odata.category with
              | .Single => do
                let b ← readonly_single_input params j
                odata.targets.foldlM (fun st t => do
                  let σ ← st.storage.set_virtual_list_for_input__non_owning t b
                  pure { st with storage := σ }) st
              | .Vector => do
                let b ← readonly_vector_input params j
                odata.targets.foldlM
                  (fun st t => bind_vector_input_target net b t st) st) = .ok stA := by
        simp only [hjget, hjget', hgeto, hgeto', hcat, hbeq, ok_bind_eq]
        exact hfoldA
      -- facts at stA
      have hvalsA : ∀ u, u ∉ (outD net.graph oid).targets →
          lookupA stA.storage.values u = lookupA st.storage.values u := e5A
      have hpresA : ∀ s v, lookupA st.storage.values s = some v →
          lookupA stA.storage.values s = some v := by
        intro s v hv
        by_cases hts : s ∈ (outD net.graph oid).targets
        · exact absurd hv (by rw [hunset s hts]; simp)
        · rw [hvalsA s hts]
          exact hv
      have hstoredA : StoredOK net stA := by
        intro s v hv
        by_cases hts : s ∈ (outD net.graph oid).targets
        · obtain ⟨htlt, horig, hcatt⟩ := htgtfacts s hts
          have hsd : net.graph.inputSockets.get? s = some (inpD net.graph s) := by
            rw [inpD]
            exact get?_eq_getD_of_lt _ _ htlt
          have hveq : v = .singleRef b := by
            have hh := e6A s hts
            rw [hv] at hh
            exact Option.some_inj.mp hh
          subst hveq
          have hcatS : (inpD net.graph s).category = .Single := by
            rw [hcatt, hcat]
          refine ⟨inpD net.graph s, hsd, ?_, ?_, ?_⟩
          · intro b' hb'
            obtain rfl : b = b' := StoredVal.singleRef.inj hb'
            refine ⟨hcatS, cells, ?_⟩
            rw [e1A]
            exact a4 b _ hbread
          · intro b' hb'
            rcases hb' with hb' | hb' <;> exact absurd hb' (by simp)
          · intro hmc
            exact absurd hmc (mutConsumer_not_single net hwf hsd hcatS)
        · rw [hvalsA s hts] at hv
          obtain ⟨sdata, hsd, hsingle, hvec, hmut⟩ := c1 s v hv
          refine ⟨sdata, hsd, ?_, ?_, hmut⟩
          · intro b' hb'
            obtain ⟨hcs, cs, hrd⟩ := hsingle b' hb'
            exact ⟨hcs, cs, by rw [e1A]; exact hrd⟩
          · intro b' hb'
            obtain ⟨hcs, cs, hrd⟩ := hvec b' hb'
            exact ⟨hcs, cs, by rw [e1A]; exact hrd⟩
      have hprovA : ∀ u v, lookupA stA.storage.values u = some v →
          ∃ td, net.graph.inputSockets.get? u = some td ∧
            td.origin ∈ net.m_inputs := by
        intro u v hv
        by_cases hts : u ∈ (outD net.graph oid).targets
        · obtain ⟨htlt, horig, _⟩ := htgtfacts u hts
          refine ⟨inpD net.graph u, ?_, by rw [horig]; exact hoidmem⟩
          rw [inpD]
          exact get?_eq_getD_of_lt _ _ htlt
        · rw [hvalsA u hts] at hv
          exact g1 u v hv
      have hvaA : ∀ u b', lookupA stA.storage.values u = some (.vectorArray b') →
          h₀.next ≤ b' := by
        intro u b' hv
        by_cases hts : u ∈ (outD net.graph oid).targets
        · have hh := e6A u hts
          rw [hv] at hh
          exact absurd (Option.some_inj.mp hh.symm) (by simp)
        · rw [hvalsA u hts] at hv
          exact e1 u b' hv
      have hi1A : ∀ j' ∈ rest, ∀ t td, net.graph.inputSockets.get? t = some td →
          td.origin = net.m_inputs.getD j' 0 →
          lookupA stA.storage.values t = none := by
        intro j' hj' t td htd horig
        have htno : t ∉ (outD net.graph oid).targets := by
          intro hto
          obtain ⟨_, horig2, _⟩ := htgtfacts t hto
          rw [inpD_eq htd] at horig2
          rw [horig] at horig2
          exact hdistinct j' hj' horig2
        rw [hvalsA t htno]
        exact i1 j' (List.mem_cons_of_mem j hj') t td htd horig
      have hownA : OwnedInv stA := by
        obtain ⟨hndA, hoaA, hovaA⟩ := d1
        refine ⟨?_, ?_, ?_⟩
        · show (stA.storage.registered).Nodup
          rw [Storage.registered, e2A, e3A]
          exact hndA
        · intro x hx
          rw [e2A] at hx
          obtain ⟨cs, hcs⟩ := hoaA x hx
          exact ⟨cs, by rw [e1A]; exact hcs⟩
        · intro x hx
          rw [e3A] at hx
          obtain ⟨cs, hcs⟩ := hovaA x hx
          exact ⟨cs, by rw [e1A]; exact hcs⟩
      have hlowA : ∀ u v, lookupA stA.storage.values u = some v →
          StoredVal.buf v < h₀.next → StoredVal.buf v ∈ inBufs net params := by
        intro u v hv hlt
        by_cases hts : u ∈ (outD net.graph oid).targets
        · have hh := e6A u hts
          rw [hv] at hh
          obtain rfl := Option.some_inj.mp hh
          show b ∈ inBufs net params
          rw [inBufs]
          refine List.mem_map.mpr ⟨j, List.mem_range.mpr hjlt, ?_⟩
          show (params.getD j dPV).buf = b
          rw [hpv]
          rfl
        · rw [hvalsA u hts] at hv
          exact e2 u v hv hlt
      obtain ⟨st', hfold', k1, k2, k3, k4, k5, k6, k7, k8, k9, k10, klow, k11, k12, k13⟩ :=
        ih hndr (fun j' hj' => hbnd j' (List.mem_cons_of_mem j hj')) stA
          (by rw [e1A]; exact a1) (by rw [e1A]; exact a2)
          (by rw [e1A]; exact a3) (by rw [e1A]; exact a4)
          (by rw [e4A]; exact b1) hstoredA hprovA hownA
          (by rw [e2A]; exact d2) hvaA hlowA
          (by rw [e1A]; intro p hp; rcases f1 p hp with h | h
              · exact Or.inl h
              · right
                rw [Storage.registered, e2A, e3A]
                exact h)
          hi1A
      refine ⟨st', ?_, k1, k2, k3, k4, k5, k6, k7, k8, k9, k10, klow, k11, ?_, ?_⟩
      · rw [List.foldlM_cons, hstep, ok_bind_eq]
        exact hfold'
      · intro s v hv
        exact k12 s v (hpresA s v hv)
      · intro j' hj' t td htd horig
        rcases List.mem_cons.mp hj' with rfl | hj'
        · have hts : t ∈ (outD net.graph oid).targets := by
            rw [← hoid] at horig
            have hio := hwf.inOrigin t (get?_lt_length htd)
            rw [inpD_eq htd] at hio
            rw [horig] at hio
            exact hio.2.1
          have hh := k12 t _ (e6A t hts)
          rw [Storage.input_is_computed, hh]
          rfl
        · exact k13 j' hj' t td htd horig
    | Vector =>
      rw [hcat] at hentry
      obtain ⟨b, cells, hpv, hbread, hbsz⟩ := paramEntryOK_vectorIn hentry
      rw [hpv] at hpget
      have hbeq := readonly_vector_input_eq hpget
      have hbreadst : st.heap.read b = some (.vector cells) := a4 b _ hbread
      have hOKts : ∀ t ∈ (outD net.graph oid).targets,
          VecTargetOK net st.storage t := by
        intro t ht
        obtain ⟨htlt, horig, hcatt⟩ := htgtfacts t ht
        have hsd : net.graph.inputSockets.get? t = some (inpD net.graph t) := by
          rw [inpD]
          exact get?_eq_getD_of_lt _ _ htlt
        refine ⟨inpD net.graph t, hsd, hunset t ht, ?_⟩
        intro hfn
        exact consVec_of_vector net hwf hsd (by rw [hcatt, hcat]) hfn
      obtain ⟨stA, hfoldA, q1, q2, q3, q3b, q4, q5, q6, q7, q8, q9, q10, q11, q12⟩ :=
        bind_vector_targets_fold net b cells (outD net.graph oid).targets st
          a1 hbreadst hOKts htgts.1
      have hstep : (match net.m_inputs.get? j with
          | none => (.error .assert : Except Fault EvalState)
          | some oid =>
            match net.graph.outputSockets.get? oid with
            | none => .error .assert
            | some odata =>
              match odata.category with
              | .Single => do
                let b ← readonly_single_input params j
                odata.targets.foldlM (fun st t => do
                  let σ ← st.storage.set_virtual_list_for_input__non_owning t b
                  pure { st with storage := σ }) st
              | .Vector => do
                let b ← readonly_vector_input params j
                odata.targets.foldlM
                  (fun st t => bind_vector_input_target net b t st) st) = .ok stA := by
        simp only [hjget, hjget', hgeto, hgeto', hcat, hbeq, ok_bind_eq]
        exact hfoldA
      have hpresA : ∀ s v, lookupA st.storage.values s = some v →
          lookupA stA.storage.values s = some v := by
        intro s v hv
        by_cases hts : s ∈ (outD net.graph oid).targets
        · exact absurd hv (by rw [hunset s hts]; simp)
        · rw [q4 s hts]
          exact hv
      have hstoredA : StoredOK net stA := by
        intro s v hv
        by_cases hts : s ∈ (outD net.graph oid).targets
        · obtain ⟨htlt, horig, hcatt⟩ := htgtfacts s hts
          have hsd : net.graph.inputSockets.get? s = some (inpD net.graph s) := by
            rw [inpD]
            exact get?_eq_getD_of_lt _ _ htlt
          have hcatV : (inpD net.graph s).category = .Vector := by
            rw [hcatt, hcat]
          have hpost := q10 s hts (inpD net.graph s) hsd
          by_cases hfn : (inpD net.graph s).nodeIsFunction = true
          · obtain ⟨node', pidx, pt', h1, h2, h3, h4⟩ :=
              consVec_of_vector net hwf hsd hcatV hfn
            obtain ⟨hrvi, hmv⟩ := hpost.1 hfn node' pidx pt' h1 h2 h3
            have hMCcase : ∀ _ : MutConsumer net s, pt' = .MutableVector := by
              intro hmc
              obtain ⟨td2, node2, pidx2, htd2, hfn2, hnode2, hpidx2, hpt2⟩ := hmc
              rw [hsd] at htd2
              obtain rfl := Option.some_inj.mp htd2
              have u1 : node' = node2 := Option.some_inj.mp (h1.symm.trans hnode2)
              subst u1
              have u2 : pidx = pidx2 := Option.some_inj.mp (h2.symm.trans hpidx2)
              subst u2
              exact Option.some_inj.mp (h3.symm.trans hpt2)
            rcases h4 with hrv | hmvb
            · have hlk := hrvi hrv
              obtain rfl : v = .vectorRef b := Option.some_inj.mp (hv.symm.trans hlk)
              refine ⟨inpD net.graph s, hsd, ?_, ?_, ?_⟩
              · intro b' hb'
                exact absurd hb' (by simp)
              · intro b' hb'
                have hbeq2 : b = b' := by
                  rcases hb' with hb' | hb'
                  · exact StoredVal.vectorRef.inj hb'
                  · exact absurd hb' (by simp)
                obtain rfl := hbeq2
                exact ⟨hcatV, cells, q3b _ _ hbreadst⟩
              · intro hmc
                have hpt' := hMCcase hmc
                rw [hpt'] at hrv
                exact absurd hrv (by decide)
            · obtain ⟨nb, hnb1, hnb2, hlk, hrd⟩ := hmv hmvb
              obtain rfl : v = .vectorArray nb := Option.some_inj.mp (hv.symm.trans hlk)
              refine ⟨inpD net.graph s, hsd, ?_, ?_, fun _ => ⟨nb, rfl⟩⟩
              · intro b' hb'
                exact absurd hb' (by simp)
              · intro b' hb'
                have hbeq2 : nb = b' := by
                  rcases hb' with hb' | hb'
                  · exact absurd hb' (by simp)
                  · exact StoredVal.vectorArray.inj hb'
                obtain rfl := hbeq2
                exact ⟨hcatV, cells, hrd⟩
          · have hfnF : (inpD net.graph s).nodeIsFunction = false :=
              Bool.eq_false_iff.mpr hfn
            have hlk := hpost.2 hfnF
            obtain rfl : v = .vectorRef b := Option.some_inj.mp (hv.symm.trans hlk)
            refine ⟨inpD net.graph s, hsd, ?_, ?_, ?_⟩
            · intro b' hb'
              exact absurd hb' (by simp)
            · intro b' hb'
              have hbeq2 : b = b' := by
                rcases hb' with hb' | hb'
                · exact StoredVal.vectorRef.inj hb'
                · exact absurd hb' (by simp)
              obtain rfl := hbeq2
              exact ⟨hcatV, cells, q3b _ _ hbreadst⟩
            · intro hmc
              exfalso
              obtain ⟨td2, _, _, htd2, hfn2, _⟩ := hmc
              rw [hsd] at htd2
              obtain rfl := Option.some_inj.mp htd2
              rw [hfn2] at hfnF
              exact absurd hfnF (by simp)
        · rw [q4 s hts] at hv
          obtain ⟨sdata, hsd, hsingle, hvec, hmut⟩ := c1 s v hv
          refine ⟨sdata, hsd, ?_, ?_, hmut⟩
          · intro b' hb'
            obtain ⟨hcs, cs, hrd⟩ := hsingle b' hb'
            exact ⟨hcs, cs, q3b _ _ hrd⟩
          · intro b' hb'
            obtain ⟨hcs, cs, hrd⟩ := hvec b' hb'
            exact ⟨hcs, cs, q3b _ _ hrd⟩
      have hprovA : ∀ u v, lookupA stA.storage.values u = some v →
          ∃ td, net.graph.inputSockets.get? u = some td ∧
            td.origin ∈ net.m_inputs := by
        intro u v hv
        by_cases hts : u ∈ (outD net.graph oid).targets
        · obtain ⟨htlt, horig, _⟩ := htgtfacts u hts
          refine ⟨inpD net.graph u, ?_, by rw [horig]; exact hoidmem⟩
          rw [inpD]
          exact get?_eq_getD_of_lt _ _ htlt
        · rw [q4 u hts] at hv
          exact g1 u v hv
      have hvaA : ∀ u b', lookupA stA.storage.values u = some (.vectorArray b') →
          h₀.next ≤ b' := by
        intro u b' hv
        by_cases hts : u ∈ (outD net.graph oid).targets
        · have hh := q11 u hts b' hv
          omega
        · rw [q4 u hts] at hv
          exact e1 u b' hv
      have hi1A : ∀ j' ∈ rest, ∀ t td, net.graph.inputSockets.get? t = some td →
          td.origin = net.m_inputs.getD j' 0 →
          lookupA stA.storage.values t = none := by
        intro j' hj' t td htd horig
        have htno : t ∉ (outD net.graph oid).targets := by
          intro hto
          obtain ⟨_, horig2, _⟩ := htgtfacts t hto
          rw [inpD_eq htd] at horig2
          rw [horig] at horig2
          exact hdistinct j' hj' horig2
        rw [q4 t htno]
        exact i1 j' (List.mem_cons_of_mem j hj') t td htd horig
      have hlowA : ∀ u v, lookupA stA.storage.values u = some v →
          StoredVal.buf v < h₀.next → StoredVal.buf v ∈ inBufs net params := by
        intro u v hv hlt
        by_cases hts : u ∈ (outD net.graph oid).targets
        · obtain ⟨htlt, horig, hcatt⟩ := htgtfacts u hts
          have hsd : net.graph.inputSockets.get? u = some (inpD net.graph u) := by
            rw [inpD]
            exact get?_eq_getD_of_lt _ _ htlt
          rcases bound_value_classification net b cells st.heap.next stA.heap.next
            stA.storage.values stA.heap u (inpD net.graph u) hsd
            (fun hfn => consVec_of_vector net hwf hsd (by rw [hcatt, hcat]) hfn)
            (q10 u hts) v hv with rfl | ⟨nb, rfl, hlo2, _⟩
          · show b ∈ inBufs net params
            rw [inBufs]
            refine List.mem_map.mpr ⟨j, List.mem_range.mpr hjlt, ?_⟩
            show (params.getD j dPV).buf = b
            rw [hpv]
            rfl
          · exfalso
            have hlt' : nb < h₀.next := hlt
            omega
        · rw [q4 u hts] at hv
          exact e2 u v hv hlt
      obtain ⟨st', hfold', k1, k2, k3, k4, k5, k6, k7, k8, k9, k10, klow, k11, k12, k13⟩ :=
        ih hndr (fun j' hj' => hbnd j' (List.mem_cons_of_mem j hj')) stA
          q2 (by omega)
          (fun k hk => by rw [q3 k (by omega)]; exact a3 k hk)
          (fun k c hc => q3b k c (a4 k c hc))
          (by rw [q6]; exact b1) hstoredA hprovA (q9 d1)
          (by rw [q5]; exact d2) hvaA hlowA
          (fun p hp => by
            rcases q8 p hp with hm | hm
            · obtain ⟨q2m, hq2m, hq2m1⟩ := List.mem_map.mp hm
              rcases f1 q2m hq2m with h | h
              · rw [← hq2m1]
                exact Or.inl h
              · right
                rw [← hq2m1]
                rcases List.mem_append.mp h with h2 | h2
                · rw [d2] at h2
                  exact absurd h2 (List.not_mem_nil _)
                · rw [Storage.registered, q5, d2]
                  exact q7 _ h2
            · right
              rw [Storage.registered, q5, d2]
              exact hm)
          hi1A
      refine ⟨st', ?_, k1, k2, k3, k4, k5, k6, k7, k8, k9, k10, klow, k11, ?_, ?_⟩
      · rw [List.foldlM_cons, hstep, ok_bind_eq]
        exact hfold'
      · intro s v hv
        exact k12 s v (hpresA s v hv)
      · intro j' hj' t td htd horig
        rcases List.mem_cons.mp hj' with rfl | hj'
        · have hts : t ∈ (outD net.graph oid).targets := by
            rw [← hoid] at horig
            have hio := hwf.inOrigin t (get?_lt_length htd)
            rw [inpD_eq htd] at hio
            rw [horig] at hio
            exact hio.2.1
          have hpost := q10 t hts td htd
          have hsome : ∃ v, lookupA stA.storage.values t = some v := by
            by_cases hfn : td.nodeIsFunction = true
            · obtain ⟨htlt2, horig2, hcatt2⟩ := htgtfacts t hts
              rw [inpD_eq htd] at hcatt2
              obtain ⟨node', pidx, pt', h1, h2, h3, h4⟩ :=
                consVec_of_vector net hwf htd (by rw [hcatt2, hcat]) hfn
              obtain ⟨hrvi, hmv⟩ := hpost.1 hfn node' pidx pt' h1 h2 h3
              rcases h4 with hrv | hmvb
              · exact ⟨_, hrvi hrv⟩
              · obtain ⟨nb, _, _, hlk, _⟩ := hmv hmvb
                exact ⟨_, hlk⟩
            · exact ⟨_, hpost.2 (Bool.eq_false_iff.mpr hfn)⟩
          obtain ⟨v, hv⟩ := hsome
          have hh := k12 t v hv
          rw [Storage.input_is_computed, hh]
          rfl
        · exact k13 j' hj' t td htd horig

/-- `copy_inputs_to_storage` on valid caller arguments succeeds and
establishes the evaluation invariant at the call-start watermark. -/
theorem copy_inputs_establishes_inv (net : MF_EvaluateNetwork) (mask : MFMask)
    (params : MFParams) (h₀ : Heap) (hwf : NetWF net)
    (hvp : ValidParams net mask params h₀) :
    ∃ st₁, copy_inputs_to_storage net params ⟨h₀, Storage.empty, []⟩ = .ok st₁ ∧
      Inv net h₀.next st₁ ∧ st₁.invoked = [] ∧
      (∀ k, k < h₀.next → st₁.heap.read k = h₀.read k) ∧
      h₀.next ≤ st₁.heap.next ∧
      (∀ u v, lookupA st₁.storage.values u = some v → StoredVal.buf v < h₀.next →
        StoredVal.buf v ∈ inBufs net params) := by
  obtain ⟨st', hfold, k1, k2, k3, k4, k5, k6, k7, k8, k9, k10, klow, k11, k12, k13⟩ :=
    copy_inputs_fold net mask params h₀ hwf hvp
      (List.range net.m_inputs.length) (List.nodup_range _)
      (fun j hj => List.mem_range.mp hj) ⟨h₀, Storage.empty, []⟩
      hvp.heapKeysLt (Nat.le_refl _) (fun k _ => rfl) (fun k c hc => hc) rfl
      (fun s v hv => absurd hv (by simp [lookupA, Storage.empty]))
      (fun u v hv => absurd hv (by simp [lookupA, Storage.empty]))
      ⟨List.nodup_nil, fun x hx => absurd hx (List.not_mem_nil x),
        fun x hx => absurd hx (List.not_mem_nil x)⟩
      rfl
      (fun u b hv => absurd hv (by simp [lookupA, Storage.empty]))
      (fun u v hv => absurd hv (by simp [lookupA, Storage.empty]))
      (fun p hp => Or.inl (hvp.heapKeysLt p hp))
      (fun j hj t td htd horig => by simp [lookupA, Storage.empty])
  refine ⟨st', hfold, ?_, k5, k3, k2, klow⟩
  refine ⟨k1, k2, k6, k8, fun s b h => k10 s b h, k11, ?_, ?_, ?_, ?_⟩
  · intro s sdata hsd horig
    obtain ⟨j, hj⟩ := List.mem_iff_get?.mp horig
    have hjlt := get?_lt_length hj
    have hgd : net.m_inputs.getD j 0 = sdata.origin := by
      have hh := get?_eq_getD_of_lt net.m_inputs 0 hjlt
      rw [hj] at hh
      exact (Option.some_inj.mp hh).symm
    exact k13 j (List.mem_range.mpr hjlt) s sdata hsd hgd.symm
  · rw [k5]
    exact List.nodup_nil
  · intro m hm
    rw [k5] at hm
    exact absurd hm (List.not_mem_nil m)
  · intro s hcomp
    rw [Storage.input_is_computed] at hcomp
    obtain ⟨v, hv⟩ := Option.isSome_iff_exists.mp hcomp
    obtain ⟨td, htd, hmem⟩ := k7 s v hv
    exact ⟨td, htd, Or.inl hmem⟩

/-! ## The boundary copy phase (lines 220–246) -/

/-- The caller destination buffer of the declared network output at
position `j` (the caller parameter at global index `m_inputs.size() + j`). -/
def destBuf (net : MF_EvaluateNetwork) (params : MFParams) (j : Nat) : Nat :=
  (params.getD (net.m_inputs.length + j) dPV).buf

/-- Destination entry `j` is ready in state `st`: the caller parameter
at global index `m_inputs.size() + j` is a writable destination of the
output socket's category and its buffer holds content of that category. -/
def DestReady (net : MF_EvaluateNetwork) (params : MFParams) (st : EvalState)
    (j : Nat) : Prop :=
  ((inpD net.graph (net.m_outputs.getD j 0)).category = .Single →
    params.get? (net.m_inputs.length + j) = some (.singleOut (destBuf net params j)) ∧
    ∃ dcells, st.heap.read (destBuf net params j) = some (.single dcells)) ∧
  ((inpD net.graph (net.m_outputs.getD j 0)).category = .Vector →
    params.get? (net.m_inputs.length + j) = some (.vectorOut (destBuf net params j)) ∧
    ∃ dcells, st.heap.read (destBuf net params j) = some (.vector dcells))

/-- What the copy for output `j` achieved, reads taken in the pre-state
`st` and the post-state `st'`: the destination holds the masked
per-index copy of the computed collection over the destination's prior
content. -/
def DestCopied (net : MF_EvaluateNetwork) (mask : MFMask) (params : MFParams)
    (st st' : EvalState) (j : Nat) : Prop :=
  ((inpD net.graph (net.m_outputs.getD j 0)).category = .Single →
    ∃ b cells dcells,
      lookupA st.storage.values (net.m_outputs.getD j 0) = some (.singleRef b) ∧
      st.heap.read b = some (.single cells) ∧
      st.heap.read (destBuf net params j) = some (.single dcells) ∧
      st'.heap.read (destBuf net params j) =
        some (.single (maskCopySingle mask.indices cells dcells))) ∧
  ((inpD net.graph (net.m_outputs.getD j 0)).category = .Vector →
    ∃ b cells dcells,
      (lookupA st.storage.values (net.m_outputs.getD j 0) = some (.vectorRef b) ∨
       lookupA st.storage.values (net.m_outputs.getD j 0) = some (.vectorArray b)) ∧
      st.heap.read b = some (.vector cells) ∧
      st.heap.read (destBuf net params j) = some (.vector dcells) ∧
      st'.heap.read (destBuf net params j) =
        some (.vector (maskCopyVector mask.indices cells dcells)))

/-- One boundary copy step succeeds on a ready destination with a
computed, well-kinded source, writes only the destination buffer and
leaves storage and the invocation log alone. -/
theorem copy_output_value_ok (net : MF_EvaluateNetwork) (mask : MFMask)
    (params : MFParams) (st : EvalState) (j : Nat)
    (hj : j < net.m_outputs.length)
    (hstored : StoredOK net st)
    (hcomp : (lookupA st.storage.values (net.m_outputs.getD j 0)).isSome = true)
    (hdr : DestReady net params st j) :
    ∃ st', copy_output_value net mask params st j = .ok st' ∧
      st'.storage = st.storage ∧ st'.invoked = st.invoked ∧
      st'.heap.next = st.heap.next ∧
      (∀ k, k ≠ destBuf net params j → st'.heap.read k = st.heap.read k) ∧
      st'.heap.mem.map Prod.fst = st.heap.mem.map Prod.fst ∧
      DestCopied net mask params st st' j := by
  have hget : net.m_outputs.get? j = some (net.m_outputs.getD j 0) :=
    get?_eq_getD_of_lt _ _ hj
  obtain ⟨v, hv⟩ := Option.isSome_iff_exists.mp hcomp
  obtain ⟨sdata, hsd, hS, hV, _⟩ := hstored _ v hv
  have hinp : inpD net.graph (net.m_outputs.getD j 0) = sdata := inpD_eq hsd
  have hget' := hget
  have hsd' := hsd
  rw [List.get?_eq_getElem?] at hget' hsd'
  cases hcat : sdata.category with
  | Single =>
    obtain ⟨hpar, dcells, hdread⟩ := hdr.1 (by rw [hinp]; exact hcat)
    have hpar' := hpar
    rw [List.get?_eq_getElem?] at hpar'
    cases v with
    | vectorRef b =>
      have hc2 := (hV b (Or.inl rfl)).1
      rw [hcat] at hc2
      exact absurd hc2 (by simp)
    | vectorArray b =>
      have hc2 := (hV b (Or.inr rfl)).1
      rw [hcat] at hc2
      exact absurd hc2 (by simp)
    | singleRef b =>
      obtain ⟨-, cells, hcread⟩ := hS b rfl
      refine ⟨⟨st.heap.write (destBuf net params j)
          (.single (maskCopySingle mask.indices cells dcells)),
          st.storage, st.invoked⟩,
        ?_, rfl, rfl, rfl, ?_, ?_, ?_, ?_⟩
      · simp only [copy_output_value, List.get?_eq_getElem?, hget', hsd', hcat,
          Storage.get_virtual_list_for_input, hv, single_output, hpar',
          Bind.bind, Except.bind, hcread, hdread]
      · intro k hk
        exact Heap.read_write_ne st.heap _ _ hk
      · exact writeA_keys st.heap.mem _ _
      · intro _
        refine ⟨b, cells, dcells, hv, hcread, hdread, ?_⟩
        rw [Heap.read_write_self, hdread]
        rfl
      · intro hc2
        rw [hinp, hcat] at hc2
        exact absurd hc2 (by simp)
  | Vector =>
    obtain ⟨hpar, dcells, hdread⟩ := hdr.2 (by rw [hinp]; exact hcat)
    have hpar' := hpar
    rw [List.get?_eq_getElem?] at hpar'
    cases v with
    | singleRef b =>
      have hc2 := (hS b rfl).1
      rw [hcat] at hc2
      exact absurd hc2 (by simp)
    | vectorRef b =>
      obtain ⟨-, cells, hcread⟩ := hV b (Or.inl rfl)
      refine ⟨⟨st.heap.write (destBuf net params j)
          (.vector (maskCopyVector mask.indices cells dcells)),
          st.storage, st.invoked⟩,
        ?_, rfl, rfl, rfl, ?_, ?_, ?_, ?_⟩
      · simp only [copy_output_value, List.get?_eq_getElem?, hget', hsd', hcat,
          Storage.get_virtual_list_list_for_input, hv, vector_output, hpar',
          Bind.bind, Except.bind, hcread, hdread]
      · intro k hk
        exact Heap.read_write_ne st.heap _ _ hk
      · exact writeA_keys st.heap.mem _ _
      · intro hc2
        rw [hinp, hcat] at hc2
        exact absurd hc2 (by simp)
      · intro _
        refine ⟨b, cells, dcells, Or.inl hv, hcread, hdread, ?_⟩
        rw [Heap.read_write_self, hdread]
        rfl
    | vectorArray b =>
      obtain ⟨-, cells, hcread⟩ := hV b (Or.inr rfl)
      refine ⟨⟨st.heap.write (destBuf net params j)
          (.vector (maskCopyVector mask.indices cells dcells)),
          st.storage, st.invoked⟩,
        ?_, rfl, rfl, rfl, ?_, ?_, ?_, ?_⟩
      · simp only [copy_output_value, List.get?_eq_getElem?, hget', hsd', hcat,
          Storage.get_virtual_list_list_for_input, hv, vector_output, hpar',
          Bind.bind, Except.bind, hcread, hdread]
      · intro k hk
        exact Heap.read_write_ne st.heap _ _ hk
      · exact writeA_keys st.heap.mem _ _
      · intro hc2
        rw [hinp, hcat] at hc2
        exact absurd hc2 (by simp)
      · intro _
        refine ⟨b, cells, dcells, Or.inr hv, hcread, hdread, ?_⟩
        rw [Heap.read_write_self, hdread]
        rfl

/-- The boundary copy over a duplicate-free batch of declared outputs
with pairwise distinct ready destinations, none aliasing a stored
buffer: the whole fold succeeds, touches only the destination buffers
and performs the masked copy on each. -/
theorem copy_outputs_fold (net : MF_EvaluateNetwork) (mask : MFMask)
    (params : MFParams) :
    ∀ js : List Nat, (∀ j ∈ js, j < net.m_outputs.length) →
      (js.map (destBuf net params)).Nodup →
      ∀ st : EvalState,
      StoredOK net st →
      (∀ j ∈ js, (lookupA st.storage.values (net.m_outputs.getD j 0)).isSome = true) →
      (∀ j ∈ js, DestReady net params st j) →
      (∀ j ∈ js, ∀ s v, lookupA st.storage.values s = some v →
        StoredVal.buf v ≠ destBuf net params j) →
      ∃ st', js.foldlM (copy_output_value net mask params) st = .ok st' ∧
        st'.storage = st.storage ∧ st'.invoked = st.invoked ∧
        st'.heap.next = st.heap.next ∧
        (∀ k, (∀ j ∈ js, k ≠ destBuf net params j) → st'.heap.read k = st.heap.read k) ∧
        st'.heap.mem.map Prod.fst = st.heap.mem.map Prod.fst ∧
        (∀ j ∈ js, DestCopied net mask params st st' j) := by
  intro js
  induction js with
  | nil =>
    intro _ _ st _ _ _ _
    exact ⟨st, rfl, rfl, rfl, rfl, fun k _ => rfl, rfl,
      fun j hj => absurd hj (List.not_mem_nil j)⟩
  | cons j rest ih =>
    intro hlt hnd st hstored hcomp hdr hnotdest
    obtain ⟨st₁, hstep, e1, e2, e3, e4, e6, e5⟩ :=
      copy_output_value_ok net mask params st j (hlt j (List.mem_cons_self j rest))
        hstored (hcomp j (List.mem_cons_self j rest)) (hdr j (List.mem_cons_self j rest))
    have hdj : ∀ j' ∈ rest, destBuf net params j ≠ destBuf net params j' := by
      intro j' hj' heq
      have hnm := (List.nodup_cons.mp hnd).1
      exact hnm (heq ▸ List.mem_map.mpr ⟨j', hj', rfl⟩)
    have hsrcne : ∀ s v, lookupA st.storage.values s = some v →
        StoredVal.buf v ≠ destBuf net params j :=
      hnotdest j (List.mem_cons_self j rest)
    have hstored₁ : StoredOK net st₁ := by
      intro s v hv
      rw [e1] at hv
      obtain ⟨sdata, hsd, hS, hV, hM⟩ := hstored s v hv
      refine ⟨sdata, hsd, ?_, ?_, hM⟩
      · intro b hb
        obtain ⟨hc, cs, hcs⟩ := hS b hb
        have hbne : b ≠ destBuf net params j := by
          have hh := hsrcne s v hv
          rw [hb] at hh
          exact hh
        exact ⟨hc, cs, by rw [e4 b hbne]; exact hcs⟩
      · intro b hb
        obtain ⟨hc, cs, hcs⟩ := hV b hb
        have hbne : b ≠ destBuf net params j := by
          have hh := hsrcne s v hv
          rcases hb with hb | hb <;> rw [hb] at hh <;> exact hh
        exact ⟨hc, cs, by rw [e4 b hbne]; exact hcs⟩
    have hcomp₁ : ∀ j' ∈ rest,
        (lookupA st₁.storage.values (net.m_outputs.getD j' 0)).isSome = true := by
      intro j' hj'
      rw [e1]
      exact hcomp j' (List.mem_cons_of_mem j hj')
    have hdr₁ : ∀ j' ∈ rest, DestReady net params st₁ j' := by
      intro j' hj'
      obtain ⟨hA, hB⟩ := hdr j' (List.mem_cons_of_mem j hj')
      constructor
      · intro hc
        obtain ⟨hp, dc, hdc⟩ := hA hc
        exact ⟨hp, dc, by rw [e4 _ (fun heq => hdj j' hj' heq.symm)]; exact hdc⟩
      · intro hc
        obtain ⟨hp, dc, hdc⟩ := hB hc
        exact ⟨hp, dc, by rw [e4 _ (fun heq => hdj j' hj' heq.symm)]; exact hdc⟩
    have hnotdest₁ : ∀ j' ∈ rest, ∀ s v, lookupA st₁.storage.values s = some v →
        StoredVal.buf v ≠ destBuf net params j' := by
      intro j' hj' s v hv
      rw [e1] at hv
      exact hnotdest j' (List.mem_cons_of_mem j hj') s v hv
    obtain ⟨st', hfold, k1, k2, k3, k4, k6, k5⟩ :=
      ih (fun j' hj' => hlt j' (List.mem_cons_of_mem j hj')) (List.nodup_cons.mp hnd).2
        st₁ hstored₁ hcomp₁ hdr₁ hnotdest₁
    refine ⟨st', ?_, by rw [k1, e1], by rw [k2, e2], by rw [k3, e3], ?_, k6.trans e6, ?_⟩
    · rw [List.foldlM_cons, hstep, ok_bind_eq]
      exact hfold
    · intro k hk
      rw [k4 k (fun j' hj' => hk j' (List.mem_cons_of_mem j hj')),
        e4 k (hk j (List.mem_cons_self j rest))]
    · intro j' hj'
      rcases List.mem_cons.mp hj' with rfl | hj'
      · obtain ⟨hA, hB⟩ := e5
        constructor
        · intro hc
          obtain ⟨b, cells, dcells, h1, h2, h3, h4⟩ := hA hc
          refine ⟨b, cells, dcells, h1, h2, h3, ?_⟩
          rw [k4 _ (fun j'' hj'' => hdj j'' hj'')]
          exact h4
        · intro hc
          obtain ⟨b, cells, dcells, h1, h2, h3, h4⟩ := hB hc
          refine ⟨b, cells, dcells, h1, h2, h3, ?_⟩
          rw [k4 _ (fun j'' hj'' => hdj j'' hj'')]
          exact h4
      · obtain ⟨hA, hB⟩ := k5 j' hj'
        constructor
        · intro hc
          obtain ⟨b, cells, dcells, h1, h2, h3, h4⟩ := hA hc
          rw [e1] at h1
          have hbne : b ≠ destBuf net params j := by
            have hh := hsrcne _ _ h1
            exact hh
          rw [e4 b hbne] at h2
          rw [e4 _ (fun heq => hdj j' hj' heq.symm)] at h3
          exact ⟨b, cells, dcells, h1, h2, h3, h4⟩
        · intro hc
          obtain ⟨b, cells, dcells, h1, h2, h3, h4⟩ := hB hc
          rw [e1] at h1
          have hbne : b ≠ destBuf net params j := by
            rcases h1 with h1 | h1
            · exact hsrcne _ _ h1
            · exact hsrcne _ _ h1
          rw [e4 b hbne] at h2
          rw [e4 _ (fun heq => hdj j' hj' heq.symm)] at h3
          exact ⟨b, cells, dcells, h1, h2, h3, h4⟩

/-- What one declared output's destination holds when a call returns:
the masked per-index copy of the computed collection over the caller's
original destination content (whose length covered every mask index). -/
def DestCopiedCall (net : MF_EvaluateNetwork) (mask : MFMask) (params : MFParams)
    (h₀ : Heap) (stF : EvalState) (j : Nat) : Prop :=
  ((inpD net.graph (net.m_outputs.getD j 0)).category = .Single →
    ∃ b cells dcells,
      lookupA stF.storage.values (net.m_outputs.getD j 0) = some (.singleRef b) ∧
      stF.heap.read b = some (.single cells) ∧
      h₀.read (destBuf net params j) = some (.single dcells) ∧
      mask.min_array_size ≤ dcells.length ∧
      stF.heap.read (destBuf net params j) =
        some (.single (maskCopySingle mask.indices cells dcells))) ∧
  ((inpD net.graph (net.m_outputs.getD j 0)).category = .Vector →
    ∃ b cells dcells,
      (lookupA stF.storage.values (net.m_outputs.getD j 0) = some (.vectorRef b) ∨
       lookupA stF.storage.values (net.m_outputs.getD j 0) = some (.vectorArray b)) ∧
      stF.heap.read b = some (.vector cells) ∧
      h₀.read (destBuf net params j) = some (.vector dcells) ∧
      mask.min_array_size ≤ dcells.length ∧
      stF.heap.read (destBuf net params j) =
        some (.vector (maskCopyVector mask.indices cells dcells)))

/-- The whole call on a well-formed network with valid arguments and a
non-empty mask: some fuel makes it return, the result is the same for
every sufficient fuel, no node is invoked twice, every requested output
is computed, ownership bookkeeping is duplicate-free and covers every
engine allocation, the only caller-visible writes are the destination
buffers, and each destination holds the masked copy of its computed
collection. -/
theorem call_characterized (net : MF_EvaluateNetwork) (mask : MFMask)
    (params : MFParams) (h₀ : Heap) (hwf : NetWF net)
    (hvp : ValidParams net mask params h₀) (hne : mask.indices_amount ≠ 0) :
    ∃ fuel stF, MF_EvaluateNetwork.call net mask params h₀ fuel = .ok stF ∧
      (∀ fuel' r, MF_EvaluateNetwork.call net mask params h₀ fuel' = .ok r → r = stF) ∧
      stF.invoked.Nodup ∧
      (∀ s ∈ net.m_outputs, stF.storage.input_is_computed s = true) ∧
      (stF.storage.registered).Nodup ∧
      (∀ p ∈ stF.heap.mem, p.1 < h₀.next ∨ p.1 ∈ stF.storage.registered) ∧
      (∀ k, k < h₀.next → k ∉ destBufs net params → stF.heap.read k = h₀.read k) ∧
      (∀ j, j < net.m_outputs.length → DestCopiedCall net mask params h₀ stF j) := by
  obtain ⟨st₁, hcis, hinv₁, hinvk₁, hpres₁, hnext₁, hlow₁⟩ :=
    copy_inputs_establishes_inv net mask params h₀ hwf hvp
  obtain ⟨fuel, st₂, heval, hmono, hinv₂, hcomp₂, hdet⟩ :=
    evaluate_network_total net mask h₀.next hwf st₁ hinv₁
  have hdest : ∀ j, j < net.m_outputs.length →
      destBuf net params j < h₀.next ∧ DestReady net params st₂ j := by
    intro j hj
    have hout := hvp.outEntries j hj
    have hplt : net.m_inputs.length + j < params.length := by
      rw [hvp.plen]
      omega
    have hpget : params.get? (net.m_inputs.length + j) =
        some (params.getD (net.m_inputs.length + j) dPV) :=
      get?_eq_getD_of_lt _ _ hplt
    cases hcat : (inpD net.graph (net.m_outputs.getD j 0)).category with
    | Single =>
      rw [hcat] at hout
      obtain ⟨db, dcells, hpv, hread₀, hsz⟩ := paramEntryOK_singleOut hout
      have hdb : destBuf net params j = db := by rw [destBuf, hpv]; rfl
      have hdlt : db < h₀.next := hvp.heapKeysLt _ (lookupA_mem hread₀)
      have hread₂ : st₂.heap.read db = some (.single dcells) := by
        rw [hmono.readLow db hdlt, hpres₁ db hdlt]
        exact hread₀
      refine ⟨by rw [hdb]; exact hdlt, ?_, ?_⟩
      · intro _
        rw [hpv] at hpget
        exact ⟨by rw [hdb]; exact hpget, ⟨dcells, by rw [hdb]; exact hread₂⟩⟩
      · intro hc
        rw [hcat] at hc
        exact absurd hc (by simp)
    | Vector =>
      rw [hcat] at hout
      obtain ⟨db, dcells, hpv, hread₀, hsz⟩ := paramEntryOK_vectorOut hout
      have hdb : destBuf net params j = db := by rw [destBuf, hpv]; rfl
      have hdlt : db < h₀.next := hvp.heapKeysLt _ (lookupA_mem hread₀)
      have hread₂ : st₂.heap.read db = some (.vector dcells) := by
        rw [hmono.readLow db hdlt, hpres₁ db hdlt]
        exact hread₀
      refine ⟨by rw [hdb]; exact hdlt, ?_, ?_⟩
      · intro hc
        rw [hcat] at hc
        exact absurd hc (by simp)
      · intro _
        rw [hpv] at hpget
        exact ⟨by rw [hdb]; exact hpget, ⟨dcells, by rw [hdb]; exact hread₂⟩⟩
  have hnd2 : ∀ s v, lookupA st₂.storage.values s = some v →
      ∀ j, j < net.m_outputs.length → StoredVal.buf v ≠ destBuf net params j := by
    intro s v hv j hj heq
    have hdd : destBuf net params j ∈ destBufs net params := by
      rw [destBufs]
      exact List.mem_map.mpr ⟨j, List.mem_range.mpr hj, rfl⟩
    have hdlt := (hdest j hj).1
    have hnotin := hvp.destDisjoint _ hdd
    rcases hmono.valuesHigh s v hv with h1 | h1
    · by_cases hbl : StoredVal.buf v < h₀.next
      · have hin := hlow₁ s v h1 hbl
        rw [heq] at hin
        exact hnotin hin
      · rw [heq] at hbl
        exact hbl hdlt
    · rw [heq] at h1
      omega
  have hmapdb : (List.range net.m_outputs.length).map (destBuf net params) =
      destBufs net params := rfl
  obtain ⟨stF, hfoldO, f1, f2, f3, f4, f6, f5⟩ :=
    copy_outputs_fold net mask params (List.range net.m_outputs.length)
      (fun j hj => List.mem_range.mp hj)
      (by rw [hmapdb]; exact hvp.destNodup)
      st₂ hinv₂.stored
      (fun j hj => hcomp₂ _ (List.get?_mem (get?_eq_getD_of_lt _ 0 (List.mem_range.mp hj))))
      (fun j hj => (hdest j (List.mem_range.mp hj)).2)
      (fun j hj s v hv => hnd2 s v hv j (List.mem_range.mp hj))
  have hcall : MF_EvaluateNetwork.call net mask params h₀ fuel = .ok stF := by
    rw [MF_EvaluateNetwork.call, if_neg hne]
    show (copy_inputs_to_storage net params ⟨h₀, Storage.empty, []⟩ >>= fun s1 =>
        evaluate_network_to_compute_outputs net mask fuel s1 >>= fun s2 =>
        copy_computed_values_to_outputs net mask params s2) = .ok stF
    rw [hcis, ok_bind_eq, heval, ok_bind_eq]
    exact hfoldO
  refine ⟨fuel, stF, hcall, ?_, ?_, ?_, ?_, ?_, ?_, ?_⟩
  · intro fuel' r hr
    rw [MF_EvaluateNetwork.call, if_neg hne] at hr
    have hr2 : (copy_inputs_to_storage net params ⟨h₀, Storage.empty, []⟩ >>= fun s1 =>
        evaluate_network_to_compute_outputs net mask fuel' s1 >>= fun s2 =>
        copy_computed_values_to_outputs net mask params s2) = .ok r := hr
    rw [hcis, ok_bind_eq] at hr2
    clear hr
    cases heval' : evaluate_network_to_compute_outputs net mask fuel' st₁ with
    | error e =>
      rw [heval'] at hr2
      exact (err_bind_ne_ok hr2).elim
    | ok st2a =>
      rw [heval', ok_bind_eq] at hr2
      have h22 : st2a = st₂ := hdet fuel' st2a heval'
      rw [h22] at hr2
      exact Except.ok.inj (hr2.symm.trans hfoldO)
  · rw [f2]
    exact hinv₂.invokedNodup
  · intro s hs
    have hh := hcomp₂ s hs
    rw [Storage.input_is_computed] at hh ⊢
    rw [f1]
    exact hh
  · rw [f1]
    exact hinv₂.owned.1
  · intro p hp
    have hkey : p.1 ∈ stF.heap.mem.map Prod.fst := List.mem_map.mpr ⟨p, hp, rfl⟩
    rw [f6] at hkey
    obtain ⟨q, hq, hq1⟩ := List.mem_map.mp hkey
    rcases hinv₂.heapReg q hq with h | h
    · left
      rw [← hq1]
      exact h
    · right
      rw [f1, ← hq1]
      exact h
  · intro k hk hkn
    have hkd : ∀ j ∈ List.range net.m_outputs.length, k ≠ destBuf net params j := by
      intro j hj heq
      refine hkn ?_
      rw [heq, destBufs]
      exact List.mem_map.mpr ⟨j, hj, rfl⟩
    rw [f4 k hkd, hmono.readLow k hk, hpres₁ k hk]
  · intro j hj
    obtain ⟨hA, hB⟩ := f5 j (List.mem_range.mpr hj)
    have hbneR : ∀ b, (∃ s, lookupA st₂.storage.values s = some (.singleRef b) ∨
        lookupA st₂.storage.values s = some (.vectorRef b) ∨
        lookupA st₂.storage.values s = some (.vectorArray b)) →
        ∀ j' ∈ List.range net.m_outputs.length, b ≠ destBuf net params j' := by
      intro b hb j' hj' heq
      obtain ⟨s, hs⟩ := hb
      rcases hs with hs | hs | hs
      · exact hnd2 _ _ hs j' (List.mem_range.mp hj') heq
      · exact hnd2 _ _ hs j' (List.mem_range.mp hj') heq
      · exact hnd2 _ _ hs j' (List.mem_range.mp hj') heq
    constructor
    · intro hc
      obtain ⟨b, cells, dcells, h1, h2, h3, h4⟩ := hA hc
      have hout := hvp.outEntries j hj
      rw [hc] at hout
      obtain ⟨db, dcells₀, hpv, hread₀, hsz⟩ := paramEntryOK_singleOut hout
      have hdb : destBuf net params j = db := by rw [destBuf, hpv]; rfl
      have hdlt : destBuf net params j < h₀.next := by
        rw [hdb]
        exact hvp.heapKeysLt _ (lookupA_mem hread₀)
      have h3' : h₀.read (destBuf net params j) = some (.single dcells) := by
        rw [← hpres₁ _ hdlt, ← hmono.readLow _ hdlt]
        exact h3
      have hdeq : dcells = dcells₀ := by
        rw [hdb] at h3'
        exact BufContent.single.inj (Option.some_inj.mp (h3'.symm.trans hread₀))
      refine ⟨b, cells, dcells, ?_, ?_, h3', by rw [hdeq]; exact hsz, h4⟩
      · rw [f1]
        exact h1
      · rw [f4 b (hbneR b ⟨_, Or.inl h1⟩)]
        exact h2
    · intro hc
      obtain ⟨b, cells, dcells, h1, h2, h3, h4⟩ := hB hc
      have hout := hvp.outEntries j hj
      rw [hc] at hout
      obtain ⟨db, dcells₀, hpv, hread₀, hsz⟩ := paramEntryOK_vectorOut hout
      have hdb : destBuf net params j = db := by rw [destBuf, hpv]; rfl
      have hdlt : destBuf net params j < h₀.next := by
        rw [hdb]
        exact hvp.heapKeysLt _ (lookupA_mem hread₀)
      have h3' : h₀.read (destBuf net params j) = some (.vector dcells) := by
        rw [← hpres₁ _ hdlt, ← hmono.readLow _ hdlt]
        exact h3
      have hdeq : dcells = dcells₀ := by
        rw [hdb] at h3'
        exact BufContent.vector.inj (Option.some_inj.mp (h3'.symm.trans hread₀))
      have hbne : ∀ j' ∈ List.range net.m_outputs.length, b ≠ destBuf net params j' := by
        rcases h1 with h1 | h1
        · exact hbneR b ⟨_, Or.inr (Or.inl h1)⟩
        · exact hbneR b ⟨_, Or.inr (Or.inr h1)⟩
      refine ⟨b, cells, dcells, ?_, ?_, h3', by rw [hdeq]; exact hsz, h4⟩
      · rw [f1]
        exact h1
      · rw [f4 b hbne]
        exact h2

/-! ## Per-index reading of the masked vector copy -/

/-- Index `j` of the masked vector copy for a duplicate-free mask
containing `j`: the prior destination cell extended by the source cell. -/
theorem maskCopyVector_mem (idxs : List Nat) (src : List (List Val)) :
    ∀ (dst : List (List Val)) (j : Nat), idxs.Nodup → j ∈ idxs → j < dst.length →
      (maskCopyVector idxs src dst).get? j =
        some (dst.getD j [] ++ src.getD j []) := by
  induction idxs with
  | nil =>
    intro dst j _ hj _
    exact absurd hj (List.not_mem_nil j)
  | cons i t ih =>
    intro dst j hnd hj hlen
    have hstep : maskCopyVector (i :: t) src dst =
        maskCopyVector t src (dst.set i (dst.getD i [] ++ src.getD i [])) := rfl
    rw [hstep]
    by_cases hjt : j ∈ t
    · have hji : j ≠ i := fun hh => (List.nodup_cons.mp hnd).1 (hh ▸ hjt)
      rw [ih _ j (List.nodup_cons.mp hnd).2 hjt (by rw [List.length_set]; exact hlen)]
      have hsame : (dst.set i (dst.getD i [] ++ src.getD i [])).getD j [] = dst.getD j [] := by
        rw [List.getD_eq_get?, List.getD_eq_get?,
          List.get?_set_ne _ _ (fun hh => hji hh.symm), List.getD_eq_get?]
      rw [hsame]
    · have hji : j = i := by
        rcases List.mem_cons.mp hj with h | h
        · exact h
        · exact absurd h hjt
      subst hji
      rw [maskCopyVector_not_mem t src _ j hjt]
      exact List.get?_set_eq_of_lt _ hlen

/-- Every active index is below `min_array_size` (`max + 1`). -/
theorem mem_lt_foldr_max {l : List Nat} {i : Nat} (h : i ∈ l) :
    i < l.foldr (fun i acc => max (i + 1) acc) 0 := by
  induction l with
  | nil => exact absurd h (List.not_mem_nil i)
  | cons j t ih =>
    rw [List.foldr_cons]
    rcases List.mem_cons.mp h with rfl | h
    · exact Nat.lt_of_lt_of_le (Nat.lt_succ_self i) (Nat.le_max_left _ _)
    · exact Nat.lt_of_lt_of_le (ih h) (Nat.le_max_right _ _)

/-! ## Well-formedness of the example networks -/

theorem sameShape_refl (c : BufContent) : sameShape c c := by
  cases c <;> simp [sameShape]

/-- A fold of per-index writes never changes the list's length. -/
theorem foldl_set_length {α : Type} (m : List Nat) (g : Nat → α) :
    ∀ out : List α, (m.foldl (fun o i => o.set i (g i)) out).length = out.length := by
  induction m with
  | nil =>
    intro out
    rfl
  | cons i t ih =>
    intro out
    rw [List.foldl_cons, ih, List.length_set]

/-- The example `x + 1` leaf function satisfies the leaf contract. -/
theorem addOne_implWF : ImplWF addOneFn := by
  intro m cs
  have hid : ∀ (l : List BufContent),
      l.length = l.length ∧
      (∀ i c₁ c₂, l.get? i = some c₁ → l.get? i = some c₂ → sameShape c₁ c₂) := by
    intro l
    refine ⟨rfl, ?_⟩
    intro i c₁ c₂ h₁ h₂
    have hc := Option.some_inj.mp (h₁.symm.trans h₂)
    rw [← hc]
    exact sameShape_refl c₁
  match cs with
  | [] => exact hid []
  | .vector a :: rest => exact hid _
  | [.single a] => exact hid _
  | .single a :: .vector b :: rest => exact hid _
  | .single a :: .single b :: c :: rest => exact hid _
  | [.single inp, .single out] =>
    refine ⟨rfl, ?_⟩
    intro i c₁ c₂ h₁ h₂
    match i with
    | 0 =>
      have e₁ : c₁ = .single inp := (Option.some_inj.mp h₁).symm
      have e₂ : c₂ = .single inp := (Option.some_inj.mp h₂).symm
      rw [e₁, e₂]
      exact sameShape_refl _
    | 1 =>
      have e₁ : c₁ = .single out := (Option.some_inj.mp h₁).symm
      have e₂ : c₂ = .single
          (m.foldl (fun o i => o.set i ((inp.getD i none).map (· + 1))) out) :=
        (Option.some_inj.mp h₂).symm
      rw [e₁, e₂]
      show out.length = _
      exact (foldl_set_length m _ out).symm
    | n + 2 => exact nomatch h₁

/-- Acyclicity from a rank function that strictly decreases along the
direct demand relation. -/
theorem acyclic_of_rank (g : MFNetworkGraph) (f : SocketRef → Nat)
    (hin : ∀ s < g.inputSockets.length, f (.output (inpD g s).origin) < f (.input s))
    (hout : ∀ o < g.outputSockets.length, (outD g o).nodeIsFunction = true →
      ∀ t ∈ (fnD g (outD g o).node).inputs, f (.input t) < f (.output o)) :
    AcyclicGraph g := by
  have hsub : ∀ y x, demandsDirectB g x y = true → f y < f x := by
    intro y x hxy
    cases x with
    | input s =>
      cases y with
      | input u => exact absurd hxy (by simp [demandsDirectB])
      | output o =>
        cases hs : g.inputSockets.get? s with
        | none =>
          have hs' := hs
          rw [List.get?_eq_getElem?] at hs'
          simp [demandsDirectB, hs, hs'] at hxy
        | some d =>
          have hs' := hs
          rw [List.get?_eq_getElem?] at hs'
          simp only [demandsDirectB, hs, hs'] at hxy
          have ho : d.origin = o := by simpa using hxy
          have hlt := hin s (get?_lt_length hs)
          rw [inpD_eq hs] at hlt
          rw [← ho]
          exact hlt
    | output o =>
      cases y with
      | output u => exact absurd hxy (by simp [demandsDirectB])
      | input s =>
        cases ho : g.outputSockets.get? o with
        | none =>
          have ho' := ho
          rw [List.get?_eq_getElem?] at ho'
          simp [demandsDirectB, ho, ho'] at hxy
        | some d =>
          have ho' := ho
          rw [List.get?_eq_getElem?] at ho'
          simp only [demandsDirectB, ho, ho'] at hxy
          cases hb : d.nodeIsFunction with
          | false =>
            rw [hb] at hxy
            simp at hxy
          | true =>
            rw [hb] at hxy
            simp only [if_true] at hxy
            cases hn : g.functionNodes.get? d.node with
            | none =>
              have hn' := hn
              rw [List.get?_eq_getElem?] at hn'
              simp [hn, hn'] at hxy
            | some nd =>
              have hn' := hn
              rw [List.get?_eq_getElem?] at hn'
              simp only [hn, hn'] at hxy
              have hmem : s ∈ nd.inputs := List.mem_of_elem_eq_true hxy
              have hd : outD g o = d := outD_eq ho
              exact hout o (get?_lt_length ho) (by rw [hd]; exact hb) s
                (by rw [hd, fnD_eq hn]; exact hmem)
  have hw : WellFounded (InvImage Nat.lt f) := InvImage.wf f Nat.lt_wfRel.wf
  exact Subrelation.wf (fun {y x} h => hsub y x h) hw

/-- A rank witnessing the example network's acyclicity: demand flows
from the declared output back to the declared input. -/
def exRank : SocketRef → Nat
  | .output 0 => 0
  | .input 0 => 1
  | .output 1 => 2
  | .input 1 => 3
  | _ => 0

theorem exNet_acyclic : AcyclicGraph exNet.graph := by
  refine acyclic_of_rank exNet.graph exRank ?_ ?_
  · decide
  · decide

/-- The example network is well-formed. -/
theorem exNet_wf : NetWF exNet :=
  ⟨by decide, by decide, by decide, by decide, by decide, by decide, by decide,
   by decide, by decide, by decide, by decide, by decide, by decide, by decide,
   by decide, exNet_acyclic,
   fun n hn =>
     match n, hn with
     | 0, _ => addOne_implWF⟩

/-- The example caller arguments are valid for the full mask. -/
theorem exNet_validParams : ValidParams exNet ⟨[0, 1, 2]⟩ exParams exHeap :=
  ⟨by decide, by decide, by decide, by decide, by decide, by decide, by decide⟩

/-- The example caller arguments are valid for the sparse mask. -/
theorem exNet_validParams02 : ValidParams exNet ⟨[0, 2]⟩ exParams exHeap :=
  ⟨by decide, by decide, by decide, by decide, by decide, by decide, by decide⟩

/-- The final state of the example call with the full mask. -/
def exFinal : EvalState :=
  ⟨⟨3, [(2, .single [some 2, some 3, some 4]), (0, .single [some 1, some 2, some 3]),
        (1, .single [some 2, some 3, some 4])]⟩,
   ⟨[(1, .singleRef 2), (0, .singleRef 0)], [2], []⟩, [0]⟩

/-- The final state of the example call with mask `{0, 2}`. -/
def exFinal02 : EvalState :=
  ⟨⟨3, [(2, .single [some 2, none, some 4]), (0, .single [some 1, some 2, some 3]),
        (1, .single [some 2, some 9, some 4])]⟩,
   ⟨[(1, .singleRef 2), (0, .singleRef 0)], [2], []⟩, [0]⟩

/-! ## Claim C2: idempotent memoization -/

/-- C2: for every well-formed (hence acyclic) graph and every call that
returns normally on valid caller arguments, the invocation log is
duplicate-free: each function node's multi-function was invoked at most
once, however many requested outputs or downstream consumers demanded
its output sockets. -/
theorem C2_idempotent_memoization (net : MF_EvaluateNetwork) (mask : MFMask)
    (params : MFParams) (h₀ : Heap) (fuel : Nat) (stF : EvalState)
    (hwf : NetWF net) (hvp : ValidParams net mask params h₀)
    (hcall : MF_EvaluateNetwork.call net mask params h₀ fuel = .ok stF) :
    stF.invoked.Nodup := by
  by_cases hne : mask.indices_amount = 0
  · rw [MF_EvaluateNetwork.call, if_pos hne] at hcall
    rw [← Except.ok.inj hcall]
    exact List.nodup_nil
  · obtain ⟨fuel₀, stF₀, hc₀, hdet, hnd, _, _, _, _, _⟩ :=
      call_characterized net mask params h₀ hwf hvp hne
    rw [hdet fuel stF hcall]
    exact hnd

/-- Witness for C2: the example call's final state invokes node `0`
exactly once. -/
theorem C2_idempotent_memoization_witness :
    exNet.call ⟨[0, 1, 2]⟩ exParams exHeap 9 = .ok exFinal ∧
      exFinal.invoked.Nodup :=
  ⟨rfl, C2_idempotent_memoization exNet ⟨[0, 1, 2]⟩ exParams exHeap 9 exFinal
    exNet_wf exNet_validParams rfl⟩

/-! ## Claim C3: termination and completeness -/

/-- C3: for every well-formed (acyclic) graph with a non-empty mask and
valid caller arguments, the scheduler terminates — some fuel makes the
call return normally — and on return every requested output socket has
a computed value in storage; moreover every normally returning run
yields this same state, so no partial results are ever exposed. -/
theorem C3_termination_completeness (net : MF_EvaluateNetwork) (mask : MFMask)
    (params : MFParams) (h₀ : Heap) (hwf : NetWF net)
    (hvp : ValidParams net mask params h₀) (hne : mask.indices_amount ≠ 0) :
    ∃ fuel stF, MF_EvaluateNetwork.call net mask params h₀ fuel = .ok stF ∧
      (∀ s ∈ net.m_outputs, stF.storage.input_is_computed s = true) ∧
      ∀ fuel' r, MF_EvaluateNetwork.call net mask params h₀ fuel' = .ok r → r = stF := by
  obtain ⟨fuel, stF, hc, hdet, _, hcomp, _, _, _, _⟩ :=
    call_characterized net mask params h₀ hwf hvp hne
  exact ⟨fuel, stF, hc, hcomp, hdet⟩

/-- Witness for C3 at the example network. -/
theorem C3_termination_completeness_witness :
    (⟨[0, 1, 2]⟩ : MFMask).indices_amount ≠ 0 ∧
    ∃ fuel stF, exNet.call ⟨[0, 1, 2]⟩ exParams exHeap fuel = .ok stF ∧
      (∀ s ∈ exNet.m_outputs, stF.storage.input_is_computed s = true) ∧
      ∀ fuel' r, exNet.call ⟨[0, 1, 2]⟩ exParams exHeap fuel' = .ok r → r = stF :=
  ⟨by decide, C3_termination_completeness exNet ⟨[0, 1, 2]⟩ exParams exHeap
    exNet_wf exNet_validParams (by decide)⟩

/-! ## Claim C7: boundary output materialization -/

/-- C7: when a call returns normally, for every declared network output
socket and exactly the indices of the mask, the computed value is
copied into the caller destination at global parameter index
`m_inputs.size() + j` (Single: per-index element copy; Vector:
per-index collection copy extending the destination), indices outside
the mask keep the destination's prior content, and no caller buffer
other than the destinations is written; concretely, the `x + 1` example
with input `[1, 2, 3]` and mask `{0, 1, 2}` yields `[2, 3, 4]`, while
mask `{0, 2}` writes positions 0 and 2 only and leaves position 1 at
its prior value `9`. -/
theorem C7_boundary_output_materialization (net : MF_EvaluateNetwork)
    (mask : MFMask) (params : MFParams) (h₀ : Heap) (hwf : NetWF net)
    (hvp : ValidParams net mask params h₀) (hne : mask.indices_amount ≠ 0)
    (hmnd : mask.indices.Nodup) :
    (∃ fuel stF, MF_EvaluateNetwork.call net mask params h₀ fuel = .ok stF ∧
      (∀ k, k < h₀.next → k ∉ destBufs net params → stF.heap.read k = h₀.read k) ∧
      (∀ j, j < net.m_outputs.length →
        ((inpD net.graph (net.m_outputs.getD j 0)).category = .Single →
          ∃ b cells dcells out,
            lookupA stF.storage.values (net.m_outputs.getD j 0) = some (.singleRef b) ∧
            stF.heap.read b = some (.single cells) ∧
            h₀.read (destBuf net params j) = some (.single dcells) ∧
            stF.heap.read (destBuf net params j) = some (.single out) ∧
            (∀ i ∈ mask.indices, out.get? i = some (cells.getD i none)) ∧
            (∀ i, i ∉ mask.indices → out.get? i = dcells.get? i)) ∧
        ((inpD net.graph (net.m_outputs.getD j 0)).category = .Vector →
          ∃ b cells dcells out,
            (lookupA stF.storage.values (net.m_outputs.getD j 0) = some (.vectorRef b) ∨
             lookupA stF.storage.values (net.m_outputs.getD j 0) = some (.vectorArray b)) ∧
            stF.heap.read b = some (.vector cells) ∧
            h₀.read (destBuf net params j) = some (.vector dcells) ∧
            stF.heap.read (destBuf net params j) = some (.vector out) ∧
            (∀ i ∈ mask.indices, out.get? i = some (dcells.getD i [] ++ cells.getD i [])) ∧
            (∀ i, i ∉ mask.indices → out.get? i = dcells.get? i)))) ∧
    exNet.call ⟨[0, 1, 2]⟩ exParams exHeap 9 = .ok exFinal ∧
    exFinal.heap.read 1 = some (.single [some 2, some 3, some 4]) ∧
    exNet.call ⟨[0, 2]⟩ exParams exHeap 9 = .ok exFinal02 ∧
    exFinal02.heap.read 1 = some (.single [some 2, some 9, some 4]) ∧
    exHeap.read 1 = some (.single [some 9, some 9, some 9]) := by
  refine ⟨?_, rfl, rfl, rfl, rfl, rfl⟩
  obtain ⟨fuel, stF, hc, _, _, _, _, _, hframe, hdcc⟩ :=
    call_characterized net mask params h₀ hwf hvp hne
  refine ⟨fuel, stF, hc, hframe, ?_⟩
  intro j hj
  obtain ⟨hA, hB⟩ := hdcc j hj
  constructor
  · intro hcat
    obtain ⟨b, cells, dcells, g1, g2, g3, g4, g5⟩ := hA hcat
    refine ⟨b, cells, dcells, maskCopySingle mask.indices cells dcells,
      g1, g2, g3, g5, ?_, ?_⟩
    · intro i hi
      exact maskCopySingle_mem mask.indices cells dcells i hi
        (Nat.lt_of_lt_of_le (mem_lt_foldr_max hi) g4)
    · intro i hi
      exact maskCopySingle_not_mem mask.indices cells dcells i hi
  · intro hcat
    obtain ⟨b, cells, dcells, g1, g2, g3, g4, g5⟩ := hB hcat
    refine ⟨b, cells, dcells, maskCopyVector mask.indices cells dcells,
      g1, g2, g3, g5, ?_, ?_⟩
    · intro i hi
      exact maskCopyVector_mem mask.indices cells dcells i hmnd hi
        (Nat.lt_of_lt_of_le (mem_lt_foldr_max hi) g4)
    · intro i hi
      exact maskCopyVector_not_mem mask.indices cells dcells i hi

/-- Witness for C7: the materialized destination of the example call. -/
theorem C7_boundary_output_materialization_witness :
    exNet.call ⟨[0, 1, 2]⟩ exParams exHeap 9 = .ok exFinal ∧
    exFinal.heap.read 1 = some (.single [some 2, some 3, some 4]) :=
  have h := C7_boundary_output_materialization exNet ⟨[0, 1, 2]⟩ exParams exHeap
    exNet_wf exNet_validParams (by decide) (by decide)
  ⟨h.2.1, h.2.2.1⟩

/-! ## Claim C8: the ownership-once discipline -/

/-- C8: a normally returning call registers every engine-allocated heap
buffer with storage for release, the registry holds each buffer
identity at most once, and the `__not_twice` registration used by
vector forwarding is idempotent, so a buffer already owned (the
mutable-vector case) is not registered a second time.  (The release
itself happens in the `Storage` destructor, outside this file.) -/
theorem C8_ownership_once (net : MF_EvaluateNetwork) (mask : MFMask)
    (params : MFParams) (h₀ : Heap) (hwf : NetWF net)
    (hvp : ValidParams net mask params h₀) (hne : mask.indices_amount ≠ 0) :
    (∃ fuel stF, MF_EvaluateNetwork.call net mask params h₀ fuel = .ok stF ∧
      (stF.storage.registered).Nodup ∧
      (∀ p ∈ stF.heap.mem, p.1 < h₀.next ∨ p.1 ∈ stF.storage.registered)) ∧
    (∀ σ : Storage, ∀ b, b ∈ σ.ownedVectorArrays →
      σ.take_vector_array_ownership__not_twice b = σ) := by
  constructor
  · obtain ⟨fuel, stF, hc, _, _, _, hrnd, hreg, _, _⟩ :=
      call_characterized net mask params h₀ hwf hvp hne
    exact ⟨fuel, stF, hc, hrnd, hreg⟩
  · intro σ b hb
    rw [Storage.take_vector_array_ownership__not_twice, if_pos hb]

/-- Witness for C8 at the example network. -/
theorem C8_ownership_once_witness :
    (∃ fuel stF, exNet.call ⟨[0, 1, 2]⟩ exParams exHeap fuel = .ok stF ∧
      (stF.storage.registered).Nodup ∧
      (∀ p ∈ stF.heap.mem, p.1 < exHeap.next ∨ p.1 ∈ stF.storage.registered)) ∧
    (∀ σ : Storage, ∀ b, b ∈ σ.ownedVectorArrays →
      σ.take_vector_array_ownership__not_twice b = σ) :=
  C8_ownership_once exNet ⟨[0, 1, 2]⟩ exParams exHeap exNet_wf exNet_validParams
    (by decide)

/-! ## Claim C10: the caller parameter layout -/

/-- A pointwise-equal step produces an equal monadic fold. -/
theorem foldlM_congr {α β : Type} (f g : β → α → Except Fault β) (l : List α)
    (h : ∀ b a, a ∈ l → f b a = g b a) : ∀ b, l.foldlM f b = l.foldlM g b := by
  induction l with
  | nil =>
    intro b
    rfl
  | cons x t ih =>
    intro b
    rw [List.foldlM_cons, List.foldlM_cons, h b x (List.mem_cons_self x t)]
    cases hgx : g b x with
    | error e => rfl
    | ok b' =>
      rw [ok_bind_eq, ok_bind_eq]
      exact ih (fun c a ha => h c a (List.mem_cons_of_mem x ha)) b'

/-- C10: the engine reads the declared network inputs at caller
parameter indices `0 .. m_inputs.size() - 1` and the destination of the
declared output at position `j` at index `m_inputs.size() + j`: the
input-binding phase depends only on the first `m_inputs.size()` caller
parameters, and the boundary copy of output `j` depends only on the
caller parameter at `m_inputs.size() + j`. -/
theorem C10_caller_param_layout (net : MF_EvaluateNetwork) (mask : MFMask)
    (params params' : MFParams) (st : EvalState) (j : Nat)
    (hin : ∀ i, i < net.m_inputs.length → params.get? i = params'.get? i)
    (hout : params.get? (net.m_inputs.length + j) =
      params'.get? (net.m_inputs.length + j)) :
    copy_inputs_to_storage net params st = copy_inputs_to_storage net params' st ∧
    copy_output_value net mask params st j = copy_output_value net mask params' st j := by
  constructor
  · rw [copy_inputs_to_storage, copy_inputs_to_storage]
    refine foldlM_congr _ _ _ ?_ st
    intro s i hi
    have hilt : i < net.m_inputs.length := List.mem_range.mp hi
    have hri : readonly_single_input params i = readonly_single_input params' i := by
      rw [readonly_single_input, readonly_single_input, hin i hilt]
    have hrv : readonly_vector_input params i = readonly_vector_input params' i := by
      rw [readonly_vector_input, readonly_vector_input, hin i hilt]
    show (match net.m_inputs.get? i with
      | none => (.error .assert : Except Fault EvalState)
      | some oid =>
        match net.graph.outputSockets.get? oid with
        | none => .error .assert
        | some odata =>
          match odata.category with
          | .Single => do
            let b ← readonly_single_input params i
            odata.targets.foldlM (fun st t => do
              let σ ← st.storage.set_virtual_list_for_input__non_owning t b
              pure { st with storage := σ }) s
          | .Vector => do
            let b ← readonly_vector_input params i
            odata.targets.foldlM (fun st t => bind_vector_input_target net b t st) s) = _
    rw [hri, hrv]
  · have hso : single_output params (net.m_inputs.length + j) =
        single_output params' (net.m_inputs.length + j) := by
      rw [single_output, single_output, hout]
    have hvo : vector_output params (net.m_inputs.length + j) =
        vector_output params' (net.m_inputs.length + j) := by
      rw [vector_output, vector_output, hout]
    rw [copy_output_value, copy_output_value, hso, hvo]

/-- Witness for C10 with a caller list extended past the used entries. -/
theorem C10_caller_param_layout_witness :
    copy_inputs_to_storage exNet exParams ⟨exHeap, Storage.empty, []⟩ =
      copy_inputs_to_storage exNet (exParams ++ [.singleIn 99]) ⟨exHeap, Storage.empty, []⟩ ∧
    copy_output_value exNet ⟨[0, 1, 2]⟩ exParams ⟨exHeap, Storage.empty, []⟩ 0 =
      copy_output_value exNet ⟨[0, 1, 2]⟩ (exParams ++ [.singleIn 99])
        ⟨exHeap, Storage.empty, []⟩ 0 :=
  C10_caller_param_layout exNet ⟨[0, 1, 2]⟩ exParams (exParams ++ [.singleIn 99])
    ⟨exHeap, Storage.empty, []⟩ 0 (by decide) (by decide)

/-! ## Claim C6 (amended): what is, and is not, mask-local -/

/-- C6 (amended): the boundary copies at the call's end touch only mask
indices — any index outside the mask keeps the destination's prior
content — and every buffer the builder allocates for a produced output
is created with outer size exactly `min_array_size = max(mask) + 1`, so
it covers every mask index; but the private deep copy made for a
mutable-vector consumer copies every index of the source collection,
not only mask indices (see the counterexample to the original claim). -/
theorem C6_mask_locality_amended (mask : MFMask) (idxs : List Nat)
    (src : List (Option Val)) (dst : List (Option Val))
    (srcv dstv : List (List Val)) (j : Nat) (hj : j ∉ idxs)
    (cells : List (List Val)) :
    (maskCopySingle idxs src dst).get? j = dst.get? j ∧
    (maskCopyVector idxs srcv dstv).get? j = dstv.get? j ∧
    vecDeepCopy cells = cells ∧
    (∀ i ∈ mask.indices, i < mask.min_array_size) ∧
    (List.replicate mask.min_array_size (none : Option Val)).length =
      mask.min_array_size ∧
    (∀ node σ acc p o, node.function.paramTypes.get? p = some .SingleOutput →
      OutSock node p o →
      build_param node mask.min_array_size σ acc p = .ok { acc with
        heap := (acc.heap.alloc (.single (List.replicate mask.min_array_size none))).2,
        builtParams := acc.builtParams ++ [⟨.SingleOutput, acc.heap.next⟩],
        singleFwd := acc.singleFwd ++ [(o, acc.heap.next)] }) ∧
    (∀ node σ acc p o, node.function.paramTypes.get? p = some .VectorOutput →
      OutSock node p o →
      build_param node mask.min_array_size σ acc p = .ok { acc with
        heap := (acc.heap.alloc (.vector (List.replicate mask.min_array_size []))).2,
        builtParams := acc.builtParams ++ [⟨.VectorOutput, acc.heap.next⟩],
        vectorFwd := acc.vectorFwd ++ [(o, acc.heap.next)] }) :=
  ⟨maskCopySingle_not_mem idxs src dst j hj,
   maskCopyVector_not_mem idxs srcv dstv j hj,
   vecDeepCopy_eq cells,
   fun i hi => mem_lt_foldr_max hi,
   List.length_replicate _ _,
   fun node σ acc p o hpt ho => build_param_so node _ σ acc p o hpt ho,
   fun node σ acc p o hpt ho => build_param_vo node _ σ acc p o hpt ho⟩

/-- Witness for the amended C6 at concrete values. -/
theorem C6_mask_locality_amended_witness :
    (0 : Nat) ∉ [1] ∧
    ((maskCopySingle [1] [some 5, some 6] [none, none]).get? 0 =
      [none, none].get? 0 ∧
    (maskCopyVector [1] [[5], [6]] [[], []]).get? 0 = [[], []].get? 0 ∧
    vecDeepCopy [[7], [5]] = [[7], [5]] ∧
    (∀ i ∈ (⟨[1]⟩ : MFMask).indices, i < (⟨[1]⟩ : MFMask).min_array_size) ∧
    (List.replicate (⟨[1]⟩ : MFMask).min_array_size (none : Option Val)).length =
      (⟨[1]⟩ : MFMask).min_array_size ∧
    (∀ node σ acc p o, node.function.paramTypes.get? p = some .SingleOutput →
      OutSock node p o →
      build_param node (⟨[1]⟩ : MFMask).min_array_size σ acc p = .ok { acc with
        heap := (acc.heap.alloc
          (.single (List.replicate (⟨[1]⟩ : MFMask).min_array_size none))).2,
        builtParams := acc.builtParams ++ [⟨.SingleOutput, acc.heap.next⟩],
        singleFwd := acc.singleFwd ++ [(o, acc.heap.next)] }) ∧
    (∀ node σ acc p o, node.function.paramTypes.get? p = some .VectorOutput →
      OutSock node p o →
      build_param node (⟨[1]⟩ : MFMask).min_array_size σ acc p = .ok { acc with
        heap := (acc.heap.alloc
          (.vector (List.replicate (⟨[1]⟩ : MFMask).min_array_size []))).2,
        builtParams := acc.builtParams ++ [⟨.VectorOutput, acc.heap.next⟩],
        vectorFwd := acc.vectorFwd ++ [(o, acc.heap.next)] })) :=
  ⟨by decide, C6_mask_locality_amended ⟨[1]⟩ [1] [some 5, some 6] [none, none]
    [[5], [6]] [[], []] 0 (by decide) [[7], [5]]⟩

end FN
